import Mathlib

/-
Verification development for the bridge-based incremental Merkle tree
(`src/bridgetree.rs`).  The Rust code is shallowly embedded: machine
integers (`usize`, `u8`) become `Nat` (positions only ever increase one by
one and are bounded by `2 ^ DEPTH` in every reachable state, so wrap-around
is unreachable), `HashMap`s become association lists, panics and fallible
indexing become `Option`, and the in-place mutations of the Rust methods
become pure state-passing functions returning the updated value (paired
with the `bool` result where the Rust method returns one).

The `Hashable` trait, the `Altitude` arithmetic and the `Tree`/`Frontier`/
`Recording` capability interfaces live in the crate root, which is not part
of `src/`; they are modelled from the spec (sections 3 and 6): `combine`,
`empty_leaf`, `empty_root` become an explicit `HashFn` record parameter and
`Altitude::iter_to` is the half-open range iteration described in the spec.
-/

set_option autoImplicit false

namespace Bridgetree

/-- Modelled from the spec: the `Hashable⟨H⟩` capability interface consumed
from the environment (crate root, outside `src/`): an altitude-parametrized
binary hash together with canonical empty-leaf and empty-subtree values. -/
structure HashFn (H : Type) where
  combine : Nat → H → H → H
  emptyLeaf : H
  emptyRoot : Nat → H

/-- `Position::max_altitude`: `0` if `p = 0`, else `63 - p.leading_zeros()`,
i.e. the floor of the base-2 logarithm of a 64-bit position. -/
def maxAltitude (p : Nat) : Nat :=
  if p = 0 then 0 else ((List.range 64).filter (fun i => 2 ^ i ≤ p)).length - 1

/-- `Position::ommer_altitudes`: the altitudes `i` in `1..=max_altitude(p)`
at which bit `i` of `p` is set, in ascending order. -/
def ommerAltitudes (p : Nat) : List Nat :=
  (List.range (maxAltitude p + 1)).filter (fun i => i ≠ 0 && p.testBit i)

/-- `Position::altitudes_required`: the altitudes `i` in
`0..=max_altitude(p)+1` for which `p = 0` or bit `i` of `p` is clear. -/
def altitudesRequired (p : Nat) : List Nat :=
  (List.range (maxAltitude p + 1 + 1)).filter (fun i => p = 0 || !p.testBit i)

/-- `Position::altitudes_required_count`. -/
def altitudesRequiredCount (p : Nat) : Nat :=
  (altitudesRequired p).length

/-- `Position::all_altitudes_required`: the same predicate over `0..64`. -/
def allAltitudesRequired (p : Nat) : List Nat :=
  (List.range 64).filter (fun i => p = 0 || !p.testBit i)

/-- `Position::is_complete`: bits `0..to_altitude` of `p` are all set. -/
def isComplete (p : Nat) (toAltitude : Nat) : Bool :=
  (List.range toAltitude).all (fun i => p.testBit i)

/-- `Leaf<A>`: the one or two uncombined leaves of the rightmost
altitude-1 subtree. -/
inductive Leaf (H : Type) where
  | left (a : H)
  | right (a b : H)
  deriving DecidableEq, Repr

/-- `NonEmptyFrontier<H>`: position of the most recently appended leaf, the
rightmost leaf pair, and the stack of ommers in ascending altitude order. -/
structure NonEmptyFrontier (H : Type) where
  position : Nat
  leaf : Leaf H
  ommers : List H
  deriving DecidableEq, Repr

namespace NonEmptyFrontier

/-- `NonEmptyFrontier::new`. -/
def new {H : Type} (value : H) : NonEmptyFrontier H :=
  { position := 0, leaf := .left value, ommers := [] }

/-- `NonEmptyFrontier::max_altitude`. -/
def maxAlt {H : Type} (f : NonEmptyFrontier H) : Nat :=
  maxAltitude f.position

/-- `NonEmptyFrontier::size`. -/
def size {H : Type} (f : NonEmptyFrontier H) : Nat :=
  f.position + 1

/-- `NonEmptyFrontier::leaf_value`: the most recently appended leaf. -/
def leafValue {H : Type} (f : NonEmptyFrontier H) : H :=
  match f.leaf with
  | .left v => v
  | .right _ v => v

/-- The carry-merging loop of `NonEmptyFrontier::append`, walking the
ommers zipped with their altitudes while an optional carry `(digest, lvl)`
is alive: a carry meeting an ommer of equal altitude combines with it and
moves up; at the first ommer of a different altitude the carry is emitted
followed by that ommer and the rest is copied; a surviving carry is pushed
at the end. -/
def carryOmmers {H : Type} (hf : HashFn H) :
    Option (H × Nat) → List (H × Nat) → List H
  | none, [] => []
  | some (c, _), [] => [c]
  | none, (o, _) :: rest => o :: carryOmmers hf none rest
  | some (c, clvl), (o, olvl) :: rest =>
    if clvl = olvl then
      carryOmmers hf (some (hf.combine olvl o c, olvl + 1)) rest
    else
      c :: o :: carryOmmers hf none rest

/-- `NonEmptyFrontier::append`. -/
def append {H : Type} (hf : HashFn H) (f : NonEmptyFrontier H) (value : H) :
    NonEmptyFrontier H :=
  match f.leaf with
  | .left a =>
    { position := f.position + 1, leaf := .right a value, ommers := f.ommers }
  | .right a b =>
    { position := f.position + 1, leaf := .left value,
      ommers := carryOmmers hf (some (hf.combine 0 a b, 1))
        (f.ommers.zip (ommerAltitudes f.position)) }

/-- `Altitude::iter_to` folding: modelled from the spec (the `Altitude`
type lives in the crate root, outside `src/`): fold `digest` upward through
the half-open altitude range `lo..hi`, combining on the left with the empty
root at each level. -/
def foldUp {H : Type} (hf : HashFn H) (d : H) (lo hi : Nat) : H :=
  (List.range' lo (hi - lo)).foldl (fun d l => hf.combine l d (hf.emptyRoot l)) d

/-- The ommer loop of `NonEmptyFrontier::inner_root`: over the ommers
zipped with their altitudes, stop when the optional result level equals the
completed level or is at or below the ommer level; otherwise pad the digest
up to the ommer level and combine with the ommer on the left.  Returns the
digest together with the completed level. -/
def innerRootLoop {H : Type} (hf : HashFn H) (resultLvl : Option Nat) :
    List (H × Nat) → H → Nat → H × Nat
  | [], d, c => (d, c)
  | (o, olvl) :: rest, d, c =>
    if resultLvl.any (fun rl => rl = c || olvl ≥ rl) then (d, c)
    else innerRootLoop hf resultLvl rest (hf.combine olvl o (foldUp hf d c olvl)) (olvl + 1)

/-- `NonEmptyFrontier::inner_root`. -/
def innerRoot {H : Type} (hf : HashFn H) (position : Nat) (leaf : Leaf H)
    (ommers : List H) (resultLvl : Option Nat) : H :=
  let seed : H :=
    match leaf with
    | .left a => hf.combine 0 a hf.emptyLeaf
    | .right a b => hf.combine 0 a b
  let dc := innerRootLoop hf resultLvl (ommers.zip (ommerAltitudes position)) seed 1
  foldUp hf dc.1 dc.2 (resultLvl.getD dc.2)

/-- `NonEmptyFrontier::root`. -/
def root {H : Type} (hf : HashFn H) (f : NonEmptyFrontier H) : H :=
  innerRoot hf f.position f.leaf f.ommers none

/-- `NonEmptyFrontier::witness`. -/
def witness {H : Type} (hf : HashFn H) (f : NonEmptyFrontier H)
    (siblingAltitude : Nat) : Option H :=
  if siblingAltitude = 0 then
    match f.leaf with
    | .left _ => none
    | .right _ a => some a
  else if isComplete f.position siblingAltitude then
    some (innerRoot hf f.position f.leaf f.ommers.dropLast (some siblingAltitude))
  else
    none

/-- `NonEmptyFrontier::witness_incomplete`. -/
def witnessIncomplete {H : Type} (hf : HashFn H) (f : NonEmptyFrontier H)
    (altitude : Nat) : Option H :=
  if isComplete f.position altitude then
    none
  else
    some (if altitude = 0 then hf.emptyLeaf
          else innerRoot hf f.position f.leaf f.ommers.dropLast (some altitude))

end NonEmptyFrontier

/-- `Frontier<H, DEPTH>`: a possibly-empty frontier (the depth is passed to
the operations as an explicit argument). -/
structure Frontier (H : Type) where
  frontier : Option (NonEmptyFrontier H)
  deriving DecidableEq, Repr

namespace Frontier

/-- `Frontier::empty`. -/
def empty {H : Type} : Frontier H := { frontier := none }

/-- `<Frontier as crate::Frontier>::append`: `false` on saturation. -/
def append {H : Type} (hf : HashFn H) (DEPTH : Nat) (F : Frontier H) (value : H) :
    Bool × Frontier H :=
  match F.frontier with
  | some f =>
    if isComplete f.position DEPTH then (false, F)
    else (true, { frontier := some (f.append hf value) })
  | none => (true, { frontier := some (NonEmptyFrontier.new value) })

/-- `<Frontier as crate::Frontier>::root`. -/
def root {H : Type} (hf : HashFn H) (DEPTH : Nat) (F : Frontier H) : H :=
  match F.frontier with
  | none => hf.emptyRoot DEPTH
  | some f => NonEmptyFrontier.foldUp hf (f.root hf) (f.maxAlt + 1) DEPTH

end Frontier

/-- `AuthFragment<A>`: anchor position, cumulative count of altitudes
observed across all fragments for this anchor, and the sibling digests
contributed by this fragment, in observation order. -/
structure AuthFragment (H : Type) where
  position : Nat
  altitudesObserved : Nat
  values : List H
  deriving DecidableEq, Repr

namespace AuthFragment

/-- `AuthFragment::new`. -/
def new {H : Type} (position : Nat) : AuthFragment H :=
  { position := position, altitudesObserved := 0, values := [] }

/-- `AuthFragment::successor`. -/
def successor {H : Type} (f : AuthFragment H) : AuthFragment H :=
  { position := f.position, altitudesObserved := f.altitudesObserved, values := [] }

/-- `AuthFragment::next_required_altitude`. -/
def nextRequiredAltitude {H : Type} (f : AuthFragment H) : Option Nat :=
  (allAltitudesRequired f.position).get? f.altitudesObserved

/-- `AuthFragment::fuse`. -/
def fuse {H : Type} (f other : AuthFragment H) : Option (AuthFragment H) :=
  if f.position = other.position ∧
      f.altitudesObserved + other.values.length = other.altitudesObserved then
    some { position := f.position, altitudesObserved := other.altitudesObserved,
           values := f.values ++ other.values }
  else
    none

/-- `AuthFragment::augment`. -/
def augment {H : Type} (hf : HashFn H) (f : AuthFragment H)
    (frontier : NonEmptyFrontier H) : AuthFragment H :=
  match f.nextRequiredAltitude with
  | some altitude =>
    match frontier.witness hf altitude with
    | some digest =>
      { position := f.position, altitudesObserved := f.altitudesObserved + 1,
        values := f.values ++ [digest] }
    | none => f
  | none => f

end AuthFragment

/-- Lookup of the first entry with the given key in an association list
(the embedding of `HashMap::get`). -/
def alistLookup {K V : Type} [DecidableEq K] : List (K × V) → K → Option V
  | [], _ => none
  | (k, v) :: rest, key => if k = key then some v else alistLookup rest key

/-- Insert-or-replace of a key (the embedding of collecting an iterator
that ends with the given binding into a `HashMap`: a later binding for an
existing key overrides the earlier one, otherwise the binding is new). -/
def alistUpsert {K V : Type} [DecidableEq K] (l : List (K × V)) (key : K) (v : V) :
    List (K × V) :=
  if l.any (fun p => p.1 = key) then
    l.map (fun p => if p.1 = key then (key, v) else p)
  else
    l ++ [(key, v)]

/-- The embedding of `HashMap::entry(k).or_insert(v)`: insert only when the
key is absent. -/
def alistOrInsert {K V : Type} [DecidableEq K] (l : List (K × V)) (key : K) (v : V) :
    List (K × V) :=
  match alistLookup l key with
  | some _ => l
  | none => l ++ [(key, v)]

/-- `MerkleBridge<H>`: optional predecessor position, the in-flight auth
fragments keyed by bridge index, and the frontier. -/
structure MerkleBridge (H : Type) where
  priorPosition : Option Nat
  authFragments : List (Nat × AuthFragment H)
  frontier : NonEmptyFrontier H
  deriving DecidableEq, Repr

namespace MerkleBridge

/-- `MerkleBridge::new`. -/
def new {H : Type} (value : H) : MerkleBridge H :=
  { priorPosition := none, authFragments := [],
    frontier := NonEmptyFrontier.new value }

/-- `MerkleBridge::successor`. -/
def successor {H : Type} (b : MerkleBridge H) (curIdx : Nat) : MerkleBridge H :=
  { priorPosition := some b.frontier.position,
    authFragments :=
      alistUpsert (b.authFragments.map (fun p => (p.1, p.2.successor)))
        curIdx (AuthFragment.new b.frontier.position),
    frontier := b.frontier }

/-- `MerkleBridge::append`: append into the frontier, then augment every
fragment with the post-append frontier. -/
def append {H : Type} (hf : HashFn H) (b : MerkleBridge H) (value : H) :
    MerkleBridge H :=
  let f := b.frontier.append hf value
  { priorPosition := b.priorPosition,
    authFragments := b.authFragments.map (fun p => (p.1, p.2.augment hf f)),
    frontier := f }

/-- `MerkleBridge::max_altitude`. -/
def maxAlt {H : Type} (b : MerkleBridge H) : Nat :=
  b.frontier.maxAlt

/-- `MerkleBridge::root`. -/
def root {H : Type} (hf : HashFn H) (b : MerkleBridge H) : H :=
  b.frontier.root hf

/-- `MerkleBridge::leaf_value`. -/
def leafValue {H : Type} (b : MerkleBridge H) : H :=
  b.frontier.leafValue

/-- `MerkleBridge::can_follow`. -/
def canFollow {H : Type} (b prev : MerkleBridge H) : Bool :=
  match b.priorPosition with
  | none => true
  | some p => p = prev.frontier.position

/-- The fragment-map part of `MerkleBridge::fuse`: walk `self`'s entries;
for a key also bound in `next`, fuse the two fragments (the Rust code
`expect`s success and panics otherwise, which this embedding renders as
`none`); a key absent from `next` keeps `self`'s fragment. -/
def fuseFragments {H : Type} :
    List (Nat × AuthFragment H) → List (Nat × AuthFragment H) →
    Option (List (Nat × AuthFragment H))
  | [], _ => some []
  | (k, ext) :: rest, nextFrags =>
    match alistLookup nextFrags k with
    | none => (fuseFragments rest nextFrags).map (fun r => (k, ext) :: r)
    | some nextExt =>
      match ext.fuse nextExt with
      | some fused => (fuseFragments rest nextFrags).map (fun r => (k, fused) :: r)
      | none => none

/-- `MerkleBridge::fuse`. -/
def fuse {H : Type} (b next : MerkleBridge H) : Option (MerkleBridge H) :=
  if next.canFollow b then
    (fuseFragments b.authFragments next.authFragments).map (fun frs =>
      { priorPosition := b.priorPosition, authFragments := frs,
        frontier := next.frontier })
  else
    none

/-- `MerkleBridge::fuse_all`. -/
def fuseAll {H : Type} (bridges : List (MerkleBridge H)) : Option (MerkleBridge H) :=
  match bridges with
  | [] => none
  | first :: rest => rest.foldl (fun acc b => acc.bind (fun a => a.fuse b)) (some first)

end MerkleBridge

/-- The `result.push(auth_values.next().unwrap_or_else(|| H::empty_root(synth_lvl)))`
step of `BridgeTree::authentication_path`: the state pairs the path built so
far with the auth values not yet consumed; one step pushes the next auth
value, or the empty root at the synthetic altitude when the values are
exhausted. -/
def padStep {H : Type} (hf : HashFn H) (st : List H × List H) (synthLvl : Nat) :
    List H × List H :=
  match st.2 with
  | [] => (st.1 ++ [hf.emptyRoot synthLvl], [])
  | v :: rest => (st.1 ++ [v], rest)

/-- One iteration of the `for (ommer, ommer_lvl) in ommers.zip(ommer_altitudes)`
loop of `BridgeTree::authentication_path`: pad with auth values (or empty
roots) up to the ommer altitude, then push the ommer. -/
def ommerStep {H : Type} (hf : HashFn H) (st : List H × List H) (ol : H × Nat) :
    List H × List H :=
  let padded := (List.range' st.1.length (ol.2 - st.1.length)).foldl (padStep hf) st
  (padded.1 ++ [ol.1], padded.2)

/-- The `match &frontier.leaf` start of the `result` vector of
`BridgeTree::authentication_path`: for a left leaf, the first auth value
(or the empty leaf); for a right pair, the left member.  Returns the
initial path together with the auth values not yet consumed. -/
def pathStart {H : Type} (hf : HashFn H) (leaf : Leaf H) (authValues : List H) :
    List H × List H :=
  match leaf with
  | .left _ =>
    match authValues with
    | [] => ([hf.emptyLeaf], [])
    | v :: rest => ([v], rest)
  | .right a _ => ([a], authValues)

/-- The `result` vector of `BridgeTree::authentication_path`, assembled from
the anchor frontier and the fused auth values: the leaf-level start, the
ommer loop, and the final padding up to `DEPTH`. -/
def buildAuthPath {H : Type} (hf : HashFn H) (DEPTH : Nat)
    (frontier : NonEmptyFrontier H) (authValues : List H) : List H :=
  let state0 := pathStart hf frontier.leaf authValues
  let stateOmmers :=
    (frontier.ommers.zip (ommerAltitudes frontier.position)).foldl (ommerStep hf) state0
  ((List.range' stateOmmers.1.length (DEPTH - stateOmmers.1.length)).foldl
    (padStep hf) stateOmmers).1

/-- `Checkpoint<H>`. -/
inductive Checkpoint (H : Type) where
  | empty
  | atIndex (i : Nat) (bridge : MerkleBridge H)
  deriving DecidableEq, Repr

/-- `BridgeTree<H, DEPTH>`.  The constant `ser_version` byte (always `0`)
is omitted; `incomplete_from` is carried but, as in the source, never read.
The checkpoint stack grows at the end of the list (its last element is the
top). -/
structure BridgeTree (H : Type) where
  bridges : List (MerkleBridge H)
  incompleteFrom : Nat
  saved : List (H × Nat)
  checkpoints : List (Checkpoint H)
  maxCheckpoints : Nat
  deriving DecidableEq, Repr

namespace BridgeTree

/-- `BridgeTree::new`. -/
def new {H : Type} (maxCheckpoints : Nat) : BridgeTree H :=
  { bridges := [], incompleteFrom := 0, saved := [], checkpoints := [],
    maxCheckpoints := maxCheckpoints }

/-- `BridgeTree::drop_oldest_checkpoint`. -/
def dropOldestCheckpoint {H : Type} (T : BridgeTree H) : Bool × BridgeTree H :=
  if T.checkpoints.isEmpty then (false, T)
  else (true, { T with checkpoints := T.checkpoints.drop 1 })

/-- `<BridgeTree as crate::Frontier>::append`. -/
def append {H : Type} (hf : HashFn H) (DEPTH : Nat) (T : BridgeTree H) (value : H) :
    Bool × BridgeTree H :=
  match T.bridges.getLast? with
  | some bridge =>
    if isComplete bridge.frontier.position DEPTH then (false, T)
    else (true, { T with bridges := T.bridges.dropLast ++ [bridge.append hf value] })
  | none => (true, { T with bridges := [MerkleBridge.new value] })

/-- `<BridgeTree as crate::Frontier>::root`. -/
def root {H : Type} (hf : HashFn H) (DEPTH : Nat) (T : BridgeTree H) : H :=
  match T.bridges.getLast? with
  | none => hf.emptyRoot DEPTH
  | some bridge => NonEmptyFrontier.foldUp hf (bridge.root hf) (bridge.maxAlt + 1) DEPTH

/-- `BridgeTree::witness`. -/
def witness {H : Type} [DecidableEq H] (T : BridgeTree H) : Bool × BridgeTree H :=
  match T.bridges.getLast? with
  | none => (false, T)
  | some current =>
    let leaf := current.leafValue
    let succ := current.successor (T.bridges.length - 1)
    let saveIdx := T.bridges.length - 1
    let isDuplicateFrontier : Bool :=
      match T.bridges.dropLast.getLast? with
      | some prev => current.frontier = prev.frontier
      | none => false
    (true,
      { T with
        saved := alistOrInsert T.saved leaf
          (if isDuplicateFrontier then saveIdx - 1 else saveIdx),
        bridges := if isDuplicateFrontier then T.bridges else T.bridges ++ [succ] })

/-- `BridgeTree::authentication_path`.  The direct indexing
`self.bridges[*idx]` (a panic when out of range, which never happens in a
reachable state) is rendered with `get?`. -/
def authenticationPath {H : Type} [DecidableEq H] (hf : HashFn H) (DEPTH : Nat)
    (T : BridgeTree H) (value : H) : Option (Nat × List H) :=
  (alistLookup T.saved value).bind (fun idx =>
    ((T.bridges.get? idx).map (fun b => b.frontier)).bind (fun frontier =>
      (MerkleBridge.fuseAll (T.bridges.drop (idx + 1))).map (fun fused =>
        let authValues : List H :=
          match alistLookup fused.authFragments idx with
          | none => []
          | some frag =>
            frag.values ++
              (frag.nextRequiredAltitude.bind
                (fun lvl => fused.frontier.witnessIncomplete hf lvl)).toList
        (frontier.position, buildAuthPath hf DEPTH frontier authValues))))

/-- `BridgeTree::remove_witness`. -/
def removeWitness {H : Type} [DecidableEq H] (T : BridgeTree H) (value : H) :
    Bool × BridgeTree H :=
  ((alistLookup T.saved value).isSome,
    { T with saved := T.saved.filter (fun p => p.1 ≠ value) })

/-- `BridgeTree::checkpoint`. -/
def checkpoint {H : Type} (T : BridgeTree H) : BridgeTree H :=
  let pushed : BridgeTree H :=
    { T with
      checkpoints := T.checkpoints ++
        [match T.bridges.getLast? with
         | none => Checkpoint.empty
         | some last => Checkpoint.atIndex (T.bridges.length - 1) last] }
  if pushed.maxCheckpoints < pushed.checkpoints.length then
    (pushed.dropOldestCheckpoint).2
  else
    pushed

/-- `BridgeTree::rewind`.  The indexings `self.bridges[i]` and
`self.bridges[i - 1]` (panics when out of range, never reached from a
reachable state) are rendered with `get?`; after `self.bridges[i] = bridge`
the successor is built from `bridge` itself, as the source reads back the
just-assigned slot. -/
def rewind {H : Type} [DecidableEq H] (T : BridgeTree H) : Bool × BridgeTree H :=
  match T.checkpoints.getLast? with
  | none => (false, T)
  | some Checkpoint.empty =>
    if T.saved.isEmpty then
      (true, { T with checkpoints := T.checkpoints.dropLast, bridges := [] })
    else
      (false, { T with checkpoints := T.checkpoints.dropLast ++ [Checkpoint.empty] })
  | some (Checkpoint.atIndex i bridge) =>
    if (T.saved.any fun p => i < p.2) ||
        ((T.saved.any fun p => p.2 = i) &&
          !((T.bridges.get? i).map (fun b => b.frontier) = some bridge.frontier)) then
      (false,
        { T with checkpoints := T.checkpoints.dropLast ++ [Checkpoint.atIndex i bridge] })
    else
      let bridges1 := T.bridges.take (i + 1)
      let saved1 := T.saved.filter (fun p => p.2 ≤ i)
      let isDuplicateFrontier : Bool :=
        decide (0 < i) &&
          (match bridges1.get? (i - 1) with
           | some prev => bridge.frontier = prev.frontier
           | none => false)
      if (alistLookup saved1 bridge.frontier.leafValue).isSome then
        if isDuplicateFrontier then
          (true, { T with checkpoints := T.checkpoints.dropLast,
                          bridges := bridges1.set i bridge, saved := saved1 })
        else
          (true, { T with checkpoints := T.checkpoints.dropLast,
                          bridges := bridges1.set i bridge ++ [bridge.successor i],
                          saved := saved1 })
      else
        (true, { T with checkpoints := T.checkpoints.dropLast,
                        bridges := bridges1.set i bridge, saved := saved1 })

end BridgeTree

/-- `BridgeRecording<H, DEPTH>`. -/
structure BridgeRecording (H : Type) where
  bridge : Option (MerkleBridge H)
  deriving DecidableEq, Repr

namespace BridgeTree

/-- `BridgeTree::recording`. -/
def recording {H : Type} (T : BridgeTree H) : BridgeRecording H :=
  { bridge := T.bridges.getLast? }

/-- `BridgeTree::play`. -/
def play {H : Type} (T : BridgeTree H) (rec : BridgeRecording H) :
    Bool × BridgeTree H :=
  if T.bridges.length = 0 then
    match rec.bridge with
    | some b => (true, { T with bridges := [b] })
    | none => (true, T)
  else
    match rec.bridge with
    | some b =>
      if T.bridges.length = 1 then
        (true, { T with bridges := [b] })
      else
        match T.bridges.get? (T.bridges.length - 2) with
        | some prev =>
          if b.canFollow prev then
            (true, { T with bridges := T.bridges.dropLast ++ [b] })
          else
            (false, T)
        | none => (false, T)
    | none => (false, T)

end BridgeTree

namespace BridgeRecording

/-- `<BridgeRecording as Recording>::append`. -/
def append {H : Type} (hf : HashFn H) (DEPTH : Nat) (r : BridgeRecording H)
    (value : H) : Bool × BridgeRecording H :=
  match r.bridge with
  | some b =>
    if isComplete b.frontier.position DEPTH then (false, r)
    else (true, { bridge := some (b.append hf value) })
  | none => (true, { bridge := some (MerkleBridge.new value) })

/-- `<BridgeRecording as Recording>::play`: with both bridges present, fuse
them (replacing on success, returning `false` unchanged on failure);
otherwise copy the other recording's optional bridge and return `true`. -/
def play {H : Type} (r other : BridgeRecording H) : Bool × BridgeRecording H :=
  match r.bridge, other.bridge with
  | some current, some next =>
    match current.fuse next with
    | some fused => (true, { bridge := some fused })
    | none => (false, r)
  | none, ob => (true, { bridge := ob })
  | some _, none => (true, { bridge := none })

end BridgeRecording

/-- The tree states reachable by the mutating tree operations `append`,
`witness`, `remove_witness`, `checkpoint` and `rewind` (the queries `root`
and `authentication_path` do not mutate the tree). -/
inductive Reach {H : Type} [DecidableEq H] (hf : HashFn H) (DEPTH : Nat) :
    BridgeTree H → Prop where
  | new (m : Nat) : Reach hf DEPTH (BridgeTree.new m)
  | append (T : BridgeTree H) (v : H) :
      Reach hf DEPTH T → Reach hf DEPTH (BridgeTree.append hf DEPTH T v).2
  | witness (T : BridgeTree H) :
      Reach hf DEPTH T → Reach hf DEPTH (BridgeTree.witness T).2
  | removeWitness (T : BridgeTree H) (v : H) :
      Reach hf DEPTH T → Reach hf DEPTH (BridgeTree.removeWitness T v).2
  | checkpoint (T : BridgeTree H) :
      Reach hf DEPTH T → Reach hf DEPTH (BridgeTree.checkpoint T)
  | rewind (T : BridgeTree H) :
      Reach hf DEPTH T → Reach hf DEPTH (BridgeTree.rewind T).2

mutual

/-- Tree states reachable when `play` (with any reachable recording) is
also among the allowed operations. -/
inductive ReachP {H : Type} [DecidableEq H] (hf : HashFn H) (DEPTH : Nat) :
    BridgeTree H → Prop where
  | new (m : Nat) : ReachP hf DEPTH (BridgeTree.new m)
  | append (T : BridgeTree H) (v : H) :
      ReachP hf DEPTH T → ReachP hf DEPTH (BridgeTree.append hf DEPTH T v).2
  | witness (T : BridgeTree H) :
      ReachP hf DEPTH T → ReachP hf DEPTH (BridgeTree.witness T).2
  | removeWitness (T : BridgeTree H) (v : H) :
      ReachP hf DEPTH T → ReachP hf DEPTH (BridgeTree.removeWitness T v).2
  | checkpoint (T : BridgeTree H) :
      ReachP hf DEPTH T → ReachP hf DEPTH (BridgeTree.checkpoint T)
  | rewind (T : BridgeTree H) :
      ReachP hf DEPTH T → ReachP hf DEPTH (BridgeTree.rewind T).2
  | play (T : BridgeTree H) (r : BridgeRecording H) :
      ReachP hf DEPTH T → ReachRec hf DEPTH r →
      ReachP hf DEPTH (BridgeTree.play T r).2

/-- Recordings obtainable through the public API: snapshots of reachable
trees, extended by recording appends and recording plays. -/
inductive ReachRec {H : Type} [DecidableEq H] (hf : HashFn H) (DEPTH : Nat) :
    BridgeRecording H → Prop where
  | ofTree (T : BridgeTree H) :
      ReachP hf DEPTH T → ReachRec hf DEPTH (BridgeTree.recording T)
  | append (r : BridgeRecording H) (v : H) :
      ReachRec hf DEPTH r → ReachRec hf DEPTH (BridgeRecording.append hf DEPTH r v).2
  | play (r o : BridgeRecording H) :
      ReachRec hf DEPTH r → ReachRec hf DEPTH o →
      ReachRec hf DEPTH (BridgeRecording.play r o).2

end

/-- Fold a leaf value upward through an authentication path: at step `k`
the accumulated digest is combined with the path entry at altitude `k`,
oriented by bit `k` of the leaf position (the verification fold of the
spec's root-path round-trip property). -/
def foldPath {H : Type} (hf : HashFn H) (p : Nat) : Nat → H → List H → H
  | _, acc, [] => acc
  | k, acc, s :: rest =>
    foldPath hf p (k + 1)
      (if p.testBit k then hf.combine k s acc else hf.combine k acc s) rest

/-- Apply a whole sequence of appends to a tree, keeping only the state. -/
def appendAll {H : Type} (hf : HashFn H) (DEPTH : Nat) (T : BridgeTree H)
    (vs : List H) : BridgeTree H :=
  vs.foldl (fun s v => (s.append hf DEPTH v).2) T

/-- A concrete hash instance over `Nat` (an injective pairing, adequate for
exercising the data-structure logic on explicit traces). -/
def hfNat : HashFn Nat :=
  { combine := fun lvl a b =>
      (lvl + a + b) * (lvl + a + b + 1) / 2 + b + (a + b) * lvl + 1,
    emptyLeaf := 0,
    emptyRoot := fun l => l }

/-- Concrete trace: one append then a witness, at depth 4. -/
def exTree1 : BridgeTree Nat :=
  (((BridgeTree.new 10 : BridgeTree Nat).append hfNat 4 1).2.witness).2

/-- Concrete trace: one append then a witness, at depth 0. -/
def exTreeD0 : BridgeTree Nat :=
  (((BridgeTree.new 10 : BridgeTree Nat).append hfNat 0 1).2.witness).2

/-- Concrete trace: append 1, witness, append 1 again (the same leaf value
twice), at depth 4. -/
def exTreeDup : BridgeTree Nat :=
  (exTree1.append hfNat 4 1).2

/-- Concrete recording holding a single genesis bridge. -/
def exRecGenesis : BridgeRecording Nat :=
  ((BridgeTree.new 10 : BridgeTree Nat).recording.append hfNat 4 7).2

/-- Concrete trace: `exTree1` with the genesis recording played into it. -/
def exTreePlayed : BridgeTree Nat :=
  (exTree1.play exRecGenesis).2

/-- Concrete saturated tree: eight appends at depth 3. -/
def exTreeFull3 : BridgeTree Nat :=
  appendAll hfNat 3 (BridgeTree.new 10) [1, 2, 3, 4, 5, 6, 7, 8]

/-- All eight appends into an empty depth-3 tree report success. -/
def allAppendsOk (vs : List Nat) : Bool :=
  (vs.foldl (fun st v => ((st.1 && (st.2.append hfNat 3 v).1), (st.2.append hfNat 3 v).2))
    (true, (BridgeTree.new 10 : BridgeTree Nat))).1

/-- The bridge-chain relation between adjacent bridges `X` followed by `Y`:
`Y.prior_position == Some(X.frontier.position)`. -/
def chainRel {H : Type} (X Y : MerkleBridge H) : Prop :=
  Y.priorPosition = some X.frontier.position

/-- Adjacent bridges have non-decreasing frontier positions. -/
def posMonoRel {H : Type} (X Y : MerkleBridge H) : Prop :=
  X.frontier.position ≤ Y.frontier.position

/-- Fragment coherence between adjacent bridges: fragments stored under the
same key anchor the same position, and the later fragment's observation
count extends the earlier one's by exactly its own value count (the
precondition of `AuthFragment::fuse`). -/
def fragCoherent {H : Type} (X Y : MerkleBridge H) : Prop :=
  ∀ k fx fy, alistLookup X.authFragments k = some fx →
    alistLookup Y.authFragments k = some fy →
    fx.position = fy.position ∧
    fx.altitudesObserved + fy.values.length = fy.altitudesObserved

/-- Every fragment key of the earlier bridge is also a key of the later
one. -/
def fragKeysMono {H : Type} (X Y : MerkleBridge H) : Prop :=
  ∀ k, (alistLookup X.authFragments k).isSome →
    (alistLookup Y.authFragments k).isSome

/-- Relation between a partially fused bridge and the last source bridge
folded into it: the frontiers agree, and every fused fragment agrees in
anchor position and observation count with the fragment the source bridge
holds under the same key. -/
def accMatches {H : Type} (acc B : MerkleBridge H) : Prop :=
  acc.frontier = B.frontier ∧
  ∀ p ∈ acc.authFragments, ∃ fn, alistLookup B.authFragments p.1 = some fn ∧
    p.2.position = fn.position ∧ p.2.altitudesObserved = fn.altitudesObserved

/-- The digest of the altitude-`a` subtree with index `i` over the appended
leaves, under the code's conventions for absent data: an absent leaf is the
empty leaf, and a subtree lying entirely beyond the appended leaves is the
empty root at its altitude. -/
def nodeHash {H : Type} (hf : HashFn H) (leaves : List H) : Nat → Nat → H
  | 0, i => (leaves.get? i).getD hf.emptyLeaf
  | a + 1, i =>
    if leaves.length ≤ 2 ^ (a + 1) * i then hf.emptyRoot (a + 1)
    else hf.combine a (nodeHash hf leaves a (2 * i))
      (nodeHash hf leaves a (2 * i + 1))

/-- The frontier denoted by a leaf list of length `p + 1`: position `p`, the
rightmost leaf pair, and the digests of the complete left-sibling subtrees
at the ommer altitudes. -/
def frontierFor {H : Type} (hf : HashFn H) (leaves : List H) (p : Nat) :
    NonEmptyFrontier H :=
  { position := p,
    leaf :=
      if p % 2 = 0 then Leaf.left ((leaves.get? p).getD hf.emptyLeaf)
      else Leaf.right ((leaves.get? (p - 1)).getD hf.emptyLeaf)
        ((leaves.get? p).getD hf.emptyLeaf),
    ommers := (ommerAltitudes p).map
      (fun a => nodeHash hf leaves a (p / 2 ^ a - 1)) }

/-- The position at which the right-sibling subtree at required altitude `r`
of a witnessed position `pa` becomes complete. -/
def cpos (pa r : Nat) : Nat := (pa / 2 ^ r + 2) * 2 ^ r - 1

/-- The schedule invariant of an auth fragment for anchor `f.position`,
relative to the position `p` of the bridge holding it: the observation
counter counts exactly the required altitudes whose sibling completed by
`p`, and the stored values are the digests of the completed right-sibling
subtrees for the most recently observed altitudes. -/
def fragSched {H : Type} (hf : HashFn H) (leaves : List H) (p : Nat)
    (f : AuthFragment H) : Prop :=
  f.altitudesObserved ≤ (allAltitudesRequired f.position).length ∧
  f.values.length ≤ f.altitudesObserved ∧
  (∀ r ∈ (allAltitudesRequired f.position).take f.altitudesObserved,
    cpos f.position r ≤ p) ∧
  (∀ r ∈ (allAltitudesRequired f.position).drop f.altitudesObserved,
    p < cpos f.position r) ∧
  f.values = (((allAltitudesRequired f.position).take f.altitudesObserved).drop
      (f.altitudesObserved - f.values.length)).map
    (fun r => nodeHash hf leaves r (f.position / 2 ^ r + 1))

/-- Semantic validity of one bridge against the global leaf list: its
frontier is the frontier of the corresponding leaf prefix and each of its
auth fragments satisfies the schedule invariant at the bridge position. -/
def semBridge {H : Type} (hf : HashFn H) (leaves : List H)
    (B : MerkleBridge H) : Prop :=
  B.frontier.position + 1 ≤ leaves.length ∧
  B.frontier = frontierFor hf (leaves.take (B.frontier.position + 1))
    B.frontier.position ∧
  ∀ kf ∈ B.authFragments, fragSched hf leaves B.frontier.position kf.2

/-- The global semantic invariant: the leaf list matches the last bridge,
every bridge (and every stacked checkpoint snapshot) is semantically valid,
fragment anchors are the frontier positions of the bridges named by their
keys, and the fragment a bridge holds for its immediate predecessor spans
its whole observation range. -/
structure SemInv {H : Type} (hf : HashFn H) (leaves : List H)
    (T : BridgeTree H) : Prop where
  lenEq : match T.bridges.getLast? with
    | none => leaves = []
    | some L => leaves.length = L.frontier.position + 1
  bOk : ∀ B ∈ T.bridges, semBridge hf leaves B
  anchor : ∀ j B, T.bridges.get? j = some B → ∀ kf ∈ B.authFragments,
    ∃ A, T.bridges.get? kf.1 = some A ∧ kf.2.position = A.frontier.position
  origin : ∀ j B, T.bridges.get? j = some B → ∀ kf ∈ B.authFragments,
    kf.1 + 1 = j → kf.2.values.length = kf.2.altitudesObserved
  succKey : ∀ j B, T.bridges.get? (j + 1) = some B →
    (alistLookup B.authFragments j).isSome
  ckpts : ∀ c ∈ T.checkpoints, ∀ i B, c = Checkpoint.atIndex i B →
    semBridge hf leaves B ∧
    (∀ kf ∈ B.authFragments,
      ∃ A, T.bridges.get? kf.1 = some A ∧ kf.2.position = A.frontier.position) ∧
    (∀ kf ∈ B.authFragments, kf.1 + 1 = i →
      kf.2.values.length = kf.2.altitudesObserved) ∧
    (1 ≤ i → (alistLookup B.authFragments (i - 1)).isSome)
  ckptMono : ∀ j j' c c', T.checkpoints.get? j = some c →
    T.checkpoints.get? j' = some c' → j ≤ j' → ∀ i B, c = Checkpoint.atIndex i B →
    ∀ i' B', c' = Checkpoint.atIndex i' B' →
    B.frontier.position ≤ B'.frontier.position

/-- The sibling digest at altitude `k` on the path from anchor position `p`
to the root: the left neighbour when bit `k` of `p` is set, the right
neighbour otherwise. -/
def sibHash {H : Type} (hf : HashFn H) (leaves : List H) (p k : Nat) : H :=
  if p.testBit k then nodeHash hf leaves k (p / 2 ^ k - 1)
  else nodeHash hf leaves k (p / 2 ^ k + 1)

/-- The loop invariant of the `result`-building fold of
`BridgeTree::authentication_path`: after the entries for altitudes below `k`
are built, the path so far holds exactly the sibling digests below `k`, and
the unconsumed auth values are the digests for the required altitudes of
index at least `c` (all of them at altitude at least `k`, the consumed ones
below `k`). -/
def pathState {H : Type} (hf : HashFn H) (leaves : List H) (p m2 k c : Nat)
    (st : List H × List H) : Prop :=
  st.1 = (List.range k).map (sibHash hf leaves p) ∧
  st.2 = (((allAltitudesRequired p).take m2).drop c).map
    (fun r => nodeHash hf leaves r (p / 2 ^ r + 1)) ∧
  (∀ j x, j < c → (allAltitudesRequired p).get? j = some x → x < k) ∧
  (∀ j x, c ≤ j → j < m2 → (allAltitudesRequired p).get? j = some x → k ≤ x)

/-- Per-bridge sanity: the prior position (when present) does not exceed
the frontier position, the frontier position is within the depth bound, and
the fragment keys are distinct. -/
def goodBridge {H : Type} (DEPTH : Nat) (B : MerkleBridge H) : Prop :=
  (∀ pp, B.priorPosition = some pp → pp ≤ B.frontier.position) ∧
  B.frontier.position < 2 ^ DEPTH ∧
  (B.authFragments.map Prod.fst).Nodup

/-- Ordering relation on stacked checkpoints: `Empty` checkpoints sit below
everything, and `AtIndex` indices are non-decreasing upward. -/
def ckptOrdRel {H : Type} : Checkpoint H → Checkpoint H → Prop
  | .empty, _ => True
  | .atIndex _ _, .empty => False
  | .atIndex i _, .atIndex j _ => i ≤ j

/-- Validity of one stacked checkpoint against the current bridge list:
the recorded index is in range, the snapshot agrees with the current bridge
at that index on the prior position, the snapshot is a sane bridge with
keys below its index, replacing the bridge at the index with the snapshot
cannot create three adjacent equal frontiers, and the snapshot is
fragment-coherent with its predecessor bridge. -/
def ckptEntryOk {H : Type} (DEPTH : Nat) (bs : List (MerkleBridge H)) :
    Checkpoint H → Prop
  | .empty => True
  | .atIndex i snap =>
      i < bs.length ∧
      (bs.get? i).map (fun b => b.priorPosition) = some snap.priorPosition ∧
      goodBridge DEPTH snap ∧
      (∀ p ∈ snap.authFragments, p.1 < i) ∧
      (∀ X Y, bs.get? (i - 2) = some X → bs.get? (i - 1) = some Y → 2 ≤ i →
        ¬(X.frontier = Y.frontier ∧ Y.frontier = snap.frontier)) ∧
      (∀ Y, bs.get? (i - 1) = some Y → 1 ≤ i →
        fragCoherent Y snap ∧ fragKeysMono Y snap)

/-- The interlocking state invariant maintained by the mutating tree
operations other than `play`. -/
structure Inv {H : Type} (DEPTH : Nat) (T : BridgeTree H) : Prop where
  chain : List.Chain' chainRel T.bridges
  posMono : List.Chain' posMonoRel T.bridges
  coherent : List.Chain' fragCoherent T.bridges
  keysMono : List.Chain' fragKeysMono T.bridges
  good : ∀ B ∈ T.bridges, goodBridge DEPTH B
  keyBound : ∀ j B, T.bridges.get? j = some B → ∀ p ∈ B.authFragments, p.1 < j
  savedIdx : ∀ p ∈ T.saved, p.2 + 1 < T.bridges.length
  savedLeaf : ∀ p ∈ T.saved,
      (T.bridges.get? p.2).map (fun b => b.leafValue) = some p.1
  savedSep : ∀ p ∈ T.saved, ∀ X Y, T.bridges.get? p.2 = some X →
      T.bridges.get? (p.2 - 1) = some Y → 1 ≤ p.2 → X.frontier ≠ Y.frontier
  noThree : ∀ j X Y Z, T.bridges.get? j = some X → T.bridges.get? (j + 1) = some Y →
      T.bridges.get? (j + 2) = some Z →
      ¬(X.frontier = Y.frontier ∧ Y.frontier = Z.frontier)
  emptySaved : T.bridges = [] → T.saved = []
  ckptOrd : List.Chain' ckptOrdRel T.checkpoints
  ckptOk : ∀ c ∈ T.checkpoints, ckptEntryOk DEPTH T.bridges c

section Lemmas

variable {H : Type}

theorem dropLast_append_of_getLast? :
    ∀ {l : List H} {a : H}, l.getLast? = some a → l.dropLast ++ [a] = l := by
  intro l
  induction l with
  | nil => intro a h; cases h
  | cons x tl ih =>
    intro a h
    cases tl with
    | nil => cases h; rfl
    | cons y tl2 =>
      rw [List.getLast?_cons_cons] at h
      simpa using ih h

theorem setCheckpoints_eq (T : BridgeTree H) (x : List (Checkpoint H))
    (h : x = T.checkpoints) : ({ T with checkpoints := x } : BridgeTree H) = T := by
  cases T
  cases h
  rfl

theorem alistLookup_append [DecidableEq H] {V : Type} (l₁ l₂ : List (H × V)) (k : H) :
    alistLookup (l₁ ++ l₂) k =
      match alistLookup l₁ k with
      | some v => some v
      | none => alistLookup l₂ k := by
  induction l₁ with
  | nil => rfl
  | cons p tl ih =>
    obtain ⟨k1, v1⟩ := p
    by_cases hk : k1 = k <;> simp [alistLookup, hk, ih]

theorem alistOrInsert_of_isSome [DecidableEq H] {V : Type} {l : List (H × V)} {k : H}
    (v : V) (h : (alistLookup l k).isSome) : alistOrInsert l k v = l := by
  unfold alistOrInsert
  cases hv : alistLookup l k with
  | some w => rfl
  | none => rw [hv] at h; cases h

theorem alistLookup_orInsert_isSome [DecidableEq H] {V : Type} (l : List (H × V))
    (k : H) (v : V) : (alistLookup (alistOrInsert l k v) k).isSome := by
  unfold alistOrInsert
  cases hv : alistLookup l k with
  | some w => simp [hv]
  | none => rw [alistLookup_append, hv]; simp [alistLookup]

theorem alistOrInsert_length_le [DecidableEq H] {V : Type} (l : List (H × V))
    (k : H) (v : V) : (alistOrInsert l k v).length ≤ l.length + 1 := by
  unfold alistOrInsert
  cases alistLookup l k with
  | some w => exact Nat.le_succ _
  | none => simp

@[simp] theorem successor_frontier (b : MerkleBridge H) (i : Nat) :
    (b.successor i).frontier = b.frontier := rfl

@[simp] theorem successor_leafValue (b : MerkleBridge H) (i : Nat) :
    (b.successor i).leafValue = b.leafValue := rfl

theorem chain'_rel_of_get? {α : Type} {R : α → α → Prop} :
    ∀ {l : List α}, List.Chain' R l → ∀ j X Y, l.get? j = some X →
      l.get? (j + 1) = some Y → R X Y := by
  intro l
  induction l with
  | nil => intro _ j X Y hX; cases hX
  | cons a tl ih =>
    intro h j X Y hX hY
    rcases List.chain'_cons'.mp h with ⟨hhd, htl⟩
    cases j with
    | zero =>
      cases hX
      cases htlc : tl with
      | nil => rw [htlc] at hY; cases hY
      | cons b tl2 =>
        rw [htlc] at hY
        cases hY
        exact hhd _ (by rw [htlc]; rfl)
    | succ n => exact ih htl n X Y hX hY

theorem mem_of_get? {α : Type} {l : List α} {j : Nat} {a : α}
    (h : l.get? j = some a) : a ∈ l := by
  induction l generalizing j with
  | nil => cases h
  | cons x tl ih =>
    cases j with
    | zero => cases h; exact List.mem_cons_self _ _
    | succ n => exact List.mem_cons_of_mem _ (ih h)

theorem alistLookup_map_value [DecidableEq H] {V W : Type} (f : V → W)
    (l : List (H × V)) (k : H) :
    alistLookup (l.map (fun p => (p.1, f p.2))) k = (alistLookup l k).map f := by
  induction l with
  | nil => rfl
  | cons p tl ih =>
    by_cases hk : p.1 = k <;> simp [alistLookup, hk, ih]

theorem mem_of_alistLookup [DecidableEq H] {V : Type} {l : List (H × V)} {k : H}
    {v : V} (h : alistLookup l k = some v) : (k, v) ∈ l := by
  induction l with
  | nil => cases h
  | cons p tl ih =>
    obtain ⟨k1, v1⟩ := p
    unfold alistLookup at h
    by_cases hk : k1 = k
    · rw [if_pos hk] at h
      injection h with hv
      subst hk
      subst hv
      exact List.mem_cons_self _ _
    · rw [if_neg hk] at h
      exact List.mem_cons_of_mem _ (ih h)

theorem alistLookup_isSome_of_mem [DecidableEq H] {V : Type} {l : List (H × V)}
    {k : H} {v : V} (h : (k, v) ∈ l) : (alistLookup l k).isSome := by
  induction l with
  | nil => cases h
  | cons p tl ih =>
    unfold alistLookup
    by_cases hk : p.1 = k
    · rw [if_pos hk]; rfl
    · rw [if_neg hk]
      rcases List.mem_cons.mp h with h2 | h2
      · exact absurd (by rw [← h2]) hk
      · exact ih h2

theorem alistLookup_eq_some_of_mem_nodup [DecidableEq H] {V : Type}
    {l : List (H × V)} (hn : (l.map Prod.fst).Nodup) {k : H} {v : V} :
    (k, v) ∈ l → alistLookup l k = some v := by
  induction l with
  | nil => intro h; cases h
  | cons p tl ih =>
    intro h
    rw [List.map_cons, List.nodup_cons] at hn
    unfold alistLookup
    rcases List.mem_cons.mp h with h2 | h2
    · rw [← h2]
      rw [if_pos rfl]
    · by_cases hk : p.1 = k
      · exact absurd (hk ▸ (List.mem_map.mpr ⟨(k, v), h2, rfl⟩)) hn.1
      · rw [if_neg hk]; exact ih hn.2 h2

theorem alistUpsert_of_keys_lt [DecidableEq Nat] {V : Type} {l : List (Nat × V)}
    {idx : Nat} (hk : ∀ p ∈ l, p.1 < idx) (v : V) :
    alistUpsert l idx v = l ++ [(idx, v)] := by
  unfold alistUpsert
  rw [if_neg]
  intro hc
  rw [List.any_eq_true] at hc
  obtain ⟨p, hp, he⟩ := hc
  exact absurd (of_decide_eq_true he ▸ hk p hp) (Nat.lt_irrefl _)

theorem mem_alistOrInsert [DecidableEq H] {V : Type} {l : List (H × V)} {k : H}
    {v : V} {q : H × V} (h : q ∈ alistOrInsert l k v) : q ∈ l ∨ q = (k, v) := by
  unfold alistOrInsert at h
  cases hl : alistLookup l k with
  | some w => rw [hl] at h; exact Or.inl h
  | none =>
    rw [hl] at h
    rcases List.mem_append.mp h with h | h
    · exact Or.inl h
    · right; simpa using h

theorem frontierAppend_position (hf : HashFn H) (f : NonEmptyFrontier H) (v : H) :
    (f.append hf v).position = f.position + 1 := by
  cases hl : f.leaf <;> simp [NonEmptyFrontier.append, hl]

@[simp] theorem bridgeAppend_prior (hf : HashFn H) (B : MerkleBridge H) (v : H) :
    (B.append hf v).priorPosition = B.priorPosition := rfl

theorem bridgeAppend_position (hf : HashFn H) (B : MerkleBridge H) (v : H) :
    (B.append hf v).frontier.position = B.frontier.position + 1 :=
  frontierAppend_position hf B.frontier v

theorem bridgeAppend_fragments (hf : HashFn H) (B : MerkleBridge H) (v : H) :
    (B.append hf v).authFragments =
      B.authFragments.map (fun p => (p.1, p.2.augment hf (B.frontier.append hf v))) := rfl

theorem augment_spec (hf : HashFn H) (f : AuthFragment H) (fr : NonEmptyFrontier H) :
    (f.augment hf fr).position = f.position ∧
    ∃ d, (f.augment hf fr).altitudesObserved = f.altitudesObserved + d ∧
      (f.augment hf fr).values.length = f.values.length + d := by
  unfold AuthFragment.augment
  split
  · split
    · exact ⟨rfl, 1, rfl, by simp⟩
    · exact ⟨rfl, 0, rfl, rfl⟩
  · exact ⟨rfl, 0, rfl, rfl⟩

theorem successor_fragments (B : MerkleBridge H) (idx : Nat)
    (hk : ∀ p ∈ B.authFragments, p.1 < idx) :
    (B.successor idx).authFragments =
      B.authFragments.map (fun p => (p.1, p.2.successor)) ++
        [(idx, AuthFragment.new B.frontier.position)] := by
  unfold MerkleBridge.successor
  simp only
  refine alistUpsert_of_keys_lt ?_ _
  intro p hp
  obtain ⟨q, hq, rfl⟩ := List.mem_map.mp hp
  exact hk q hq

theorem successor_lookup [DecidableEq Nat] (B : MerkleBridge H) (idx : Nat)
    (hk : ∀ p ∈ B.authFragments, p.1 < idx) (k : Nat) (fx : AuthFragment H)
    (h : alistLookup B.authFragments k = some fx) :
    alistLookup (B.successor idx).authFragments k = some fx.successor := by
  rw [successor_fragments B idx hk, alistLookup_append, alistLookup_map_value, h]
  rfl

theorem fragCoherent_successor (B : MerkleBridge H) (idx : Nat)
    (hk : ∀ p ∈ B.authFragments, p.1 < idx) :
    fragCoherent B (B.successor idx) := by
  intro k fx fy hx hy
  rw [successor_lookup B idx hk k fx hx] at hy
  injection hy with hy2
  subst hy2
  exact ⟨rfl, rfl⟩

theorem fragKeysMono_successor (B : MerkleBridge H) (idx : Nat)
    (hk : ∀ p ∈ B.authFragments, p.1 < idx) :
    fragKeysMono B (B.successor idx) := by
  intro k hsome
  cases hx : alistLookup B.authFragments k with
  | none => rw [hx] at hsome; cases hsome
  | some fx => rw [successor_lookup B idx hk k fx hx]; rfl

theorem successor_keys (B : MerkleBridge H) (idx : Nat)
    (hk : ∀ p ∈ B.authFragments, p.1 < idx) :
    ∀ p ∈ (B.successor idx).authFragments, p.1 < idx + 1 := by
  intro p hp
  rw [successor_fragments B idx hk] at hp
  rcases List.mem_append.mp hp with hp | hp
  · obtain ⟨q, hq, rfl⟩ := List.mem_map.mp hp
    exact Nat.lt_succ_of_lt (hk q hq)
  · have he : p = (idx, AuthFragment.new B.frontier.position) := List.mem_singleton.mp hp
    rw [he]
    exact Nat.lt_succ_self _

theorem goodBridge_successor {DEPTH : Nat} (B : MerkleBridge H) (idx : Nat)
    (hg : goodBridge DEPTH B) (hk : ∀ p ∈ B.authFragments, p.1 < idx) :
    goodBridge DEPTH (B.successor idx) := by
  refine ⟨?_, hg.2.1, ?_⟩
  · intro pp hpp
    cases hpp
    exact Nat.le_refl _
  · rw [successor_fragments B idx hk]
    rw [List.map_append, List.map_map]
    have hfst : (B.authFragments.map (Prod.fst ∘ fun p => (p.1, p.2.successor))) =
        B.authFragments.map Prod.fst := by
      apply List.map_congr_left
      intro p _
      rfl
    rw [hfst]
    rw [List.nodup_append]
    refine ⟨hg.2.2, List.nodup_singleton _, ?_⟩
    intro a ha hb
    simp at hb
    subst hb
    obtain ⟨q, hq, rfl⟩ := List.mem_map.mp ha
    exact absurd (hk q hq) (Nat.lt_irrefl _)

theorem position_succ_lt {p DEPTH : Nat} (hD : isComplete p DEPTH = false)
    (hp : p < 2 ^ DEPTH) : p + 1 < 2 ^ DEPTH := by
  rcases Nat.lt_or_ge (p + 1) (2 ^ DEPTH) with h | h
  · exact h
  · exfalso
    have hpe : p = 2 ^ DEPTH - 1 := by omega
    have : isComplete p DEPTH = true := by
      unfold isComplete
      rw [List.all_eq_true]
      intro i hi
      rw [hpe, Nat.testBit_two_pow_sub_one]
      simpa using List.mem_range.mp hi
    rw [this] at hD
    cases hD

theorem getLast?_take_of_le {α : Type} {l : List α} {i : Nat} (h1 : 1 ≤ i)
    (h2 : i ≤ l.length) : (l.take i).getLast? = l.get? (i - 1) := by
  obtain ⟨j, rfl⟩ : ∃ j, i = j + 1 := ⟨i - 1, by omega⟩
  rw [Nat.add_sub_cancel, List.take_succ]
  cases hb : l[j]? with
  | none =>
    rw [List.getElem?_eq_none_iff] at hb
    omega
  | some b =>
    rw [Option.toList_some, List.getLast?_concat]
    rw [← List.get?_eq_getElem?] at hb
    rw [hb]

theorem set_concat_length {α : Type} (l : List α) (a b : α) :
    (l ++ [a]).set l.length b = l ++ [b] := by
  induction l with
  | nil => rfl
  | cons x tl ih => simp [List.set, ih]

theorem set_concat_eq {α : Type} (l : List α) (a b : α) (n : Nat)
    (h : n = l.length) : (l ++ [a]).set n b = l ++ [b] := by
  subst h
  exact set_concat_length l a b

theorem take_set_eq {α : Type} {l : List α} {i : Nat} (snap : α)
    (h : i < l.length) : (l.take (i + 1)).set i snap = l.take i ++ [snap] := by
  rw [List.take_succ]
  cases hb : l[i]? with
  | none =>
    rw [List.getElem?_eq_none_iff] at hb
    omega
  | some b =>
    rw [Option.toList_some]
    have hlen : (l.take i).length = i := by
      rw [List.length_take]
      omega
    exact set_concat_eq _ _ _ _ hlen.symm

theorem frontier_eq_position {f g : NonEmptyFrontier H} (h : f = g) :
    f.position = g.position := by rw [h]

theorem leafValue_congr {f g : NonEmptyFrontier H} (h : f = g) :
    f.leafValue = g.leafValue := by rw [h]

theorem get?_concat_cases {α : Type} {l : List α} {x X : α} {j : Nat}
    (h : (l ++ [x]).get? j = some X) :
    (j < l.length ∧ l.get? j = some X) ∨ (j = l.length ∧ X = x) := by
  have hj : j < l.length + 1 := by
    have h2 := (List.get?_eq_some.mp h).1
    simpa using h2
  rcases Nat.lt_or_ge j l.length with hlt | hge
  · left
    refine ⟨hlt, ?_⟩
    rw [← List.get?_append hlt]
    exact h
  · right
    have hje : j = l.length := by omega
    subst hje
    rw [List.get?_concat_length] at h
    injection h with h2
    exact ⟨rfl, h2.symm⟩

theorem get?_some_lt_length {α : Type} {l : List α} {X : α} {j : Nat}
    (h : l.get? j = some X) : j < l.length :=
  (List.get?_eq_some.mp h).1

theorem get?_append_left {α : Type} {l : List α} (l2 : List α) {j : Nat}
    (h : j < l.length) : (l ++ l2).get? j = l.get? j :=
  List.get?_append h

end Lemmas

section InvPreservation

variable {H : Type}

theorem inv_new [DecidableEq H] (DEPTH m : Nat) :
    Inv DEPTH (BridgeTree.new (H := H) m) := by
  refine ⟨?_, ?_, ?_, ?_, ?_, ?_, ?_, ?_, ?_, ?_, ?_, ?_, ?_⟩ <;>
    simp [BridgeTree.new]

theorem inv_append [DecidableEq H] {DEPTH : Nat} {T : BridgeTree H}
    (hf : HashFn H) (v : H) (hI : Inv DEPTH T) :
    Inv DEPTH (T.append hf DEPTH v).2 := by
  cases hL : T.bridges.getLast? with
  | none =>
    have hbs : T.bridges = [] := List.getLast?_eq_none_iff.mp hL
    have hres : (T.append hf DEPTH v).2 = { T with bridges := [MerkleBridge.new v] } := by
      simp [BridgeTree.append, hL]
    rw [hres]
    have hsaved : T.saved = [] := hI.emptySaved hbs
    refine ⟨?_, ?_, ?_, ?_, ?_, ?_, ?_, ?_, ?_, ?_, ?_, ?_, ?_⟩
    · exact List.chain'_singleton _
    · exact List.chain'_singleton _
    · exact List.chain'_singleton _
    · exact List.chain'_singleton _
    · intro B hB
      have hBe : B = MerkleBridge.new v := by simpa using hB
      subst hBe
      refine ⟨?_, Nat.two_pow_pos DEPTH, ?_⟩
      · intro pp hpp; cases hpp
      · simp [MerkleBridge.new]
    · intro j B hjB p hp
      cases j with
      | zero =>
        injection hjB with hB
        rw [← hB] at hp
        simp [MerkleBridge.new] at hp
      | succ jj => cases hjB
    · intro p hp; rw [hsaved] at hp; cases hp
    · intro p hp; rw [hsaved] at hp; cases hp
    · intro p hp; rw [hsaved] at hp; cases hp
    · intro j X Y Z hX hY hZ
      cases j with
      | zero => cases hY
      | succ jj => cases hX
    · intro habs; exact hsaved
    · exact hI.ckptOrd
    · intro c hc
      have hold := hI.ckptOk c hc
      cases c with
      | empty => trivial
      | atIndex i snap =>
        rw [hbs] at hold
        exact absurd hold.1 (by simp)
  | some L =>
    have heq : T.bridges = T.bridges.dropLast ++ [L] :=
      (dropLast_append_of_getLast? hL).symm
    by_cases hsat : isComplete L.frontier.position DEPTH = true
    · have hres : (T.append hf DEPTH v).2 = T := by
        simp [BridgeTree.append, hL, hsat]
      rw [hres]; exact hI
    · have hres : (T.append hf DEPTH v).2 =
          { T with bridges := T.bridges.dropLast ++ [L.append hf v] } := by
        simp [BridgeTree.append, hL, hsat]
      rw [hres]
      set init := T.bridges.dropLast with hinit
      set L' := L.append hf v with hL'
      have hLmem : L ∈ T.bridges := by rw [heq]; exact List.mem_append_right _ (by simp)
      have hgoodL : goodBridge DEPTH L := hI.good L hLmem
      have hposL' : L'.frontier.position = L.frontier.position + 1 :=
        bridgeAppend_position hf L v
      have hsatf : isComplete L.frontier.position DEPTH = false := by
        revert hsat; cases isComplete L.frontier.position DEPTH <;> simp
      have hchain := hI.chain
      have hpos := hI.posMono
      have hcoh := hI.coherent
      have hkm := hI.keysMono
      rw [heq] at hchain hpos hcoh hkm
      rcases List.chain'_append.mp hchain with ⟨hc1, _, hc3⟩
      rcases List.chain'_append.mp hpos with ⟨hp1, _, hp3⟩
      rcases List.chain'_append.mp hcoh with ⟨hh1, _, hh3⟩
      rcases List.chain'_append.mp hkm with ⟨hk1, _, hk3⟩
      have hlookL' : ∀ k, alistLookup L'.authFragments k =
          (alistLookup L.authFragments k).map
            (fun fr => fr.augment hf (L.frontier.append hf v)) := by
        intro k
        rw [hL', bridgeAppend_fragments]
        exact alistLookup_map_value
          (fun fr => AuthFragment.augment hf fr (NonEmptyFrontier.append hf L.frontier v))
          L.authFragments k
      refine ⟨?_, ?_, ?_, ?_, ?_, ?_, ?_, ?_, ?_, ?_, ?_, ?_, ?_⟩
      · refine List.chain'_append.mpr ⟨hc1, List.chain'_singleton _, ?_⟩
        intro x hx y hy
        have hy2 : L' = y := by simpa using hy
        subst hy2
        have hrel : chainRel x L := hc3 x hx L rfl
        unfold chainRel at hrel ⊢
        rw [hL', bridgeAppend_prior]
        exact hrel
      · refine List.chain'_append.mpr ⟨hp1, List.chain'_singleton _, ?_⟩
        intro x hx y hy
        have hy2 : L' = y := by simpa using hy
        subst hy2
        have hrel : posMonoRel x L := hp3 x hx L rfl
        unfold posMonoRel at hrel ⊢
        omega
      · refine List.chain'_append.mpr ⟨hh1, List.chain'_singleton _, ?_⟩
        intro x hx y hy
        have hy2 : L' = y := by simpa using hy
        subst hy2
        have hrel : fragCoherent x L := hh3 x hx L rfl
        intro k fx fy hfx hfy
        rw [hlookL' k] at hfy
        cases hfyL : alistLookup L.authFragments k with
        | none => rw [hfyL] at hfy; cases hfy
        | some fyo =>
          rw [hfyL] at hfy
          injection hfy with hfy2
          subst hfy2
          dsimp only
          obtain ⟨hpos0, d, hobs, hval⟩ := augment_spec hf fyo (L.frontier.append hf v)
          obtain ⟨he1, he2⟩ := hrel k fx fyo hfx hfyL
          refine ⟨by rw [he1, hpos0], by omega⟩
      · refine List.chain'_append.mpr ⟨hk1, List.chain'_singleton _, ?_⟩
        intro x hx y hy
        have hy2 : L' = y := by simpa using hy
        subst hy2
        have hrel : fragKeysMono x L := hk3 x hx L rfl
        intro k hk
        rw [hlookL' k]
        have := hrel k hk
        cases hfyL : alistLookup L.authFragments k with
        | none => rw [hfyL] at this; cases this
        | some fyo => rfl
      · intro B hB
        rcases List.mem_append.mp hB with hB | hB
        · exact hI.good B (by rw [heq]; exact List.mem_append_left _ hB)
        · have hBe : B = L' := by simpa using hB
          subst hBe
          refine ⟨?_, ?_, ?_⟩
          · intro pp hpp
            rw [hL', bridgeAppend_prior] at hpp
            have := hgoodL.1 pp hpp
            omega
          · rw [hposL']
            exact position_succ_lt hsatf hgoodL.2.1
          · rw [hL', bridgeAppend_fragments, List.map_map]
            have hfst : (L.authFragments.map
                (Prod.fst ∘ fun p => (p.1, p.2.augment hf (L.frontier.append hf v)))) =
                L.authFragments.map Prod.fst := by
              apply List.map_congr_left
              intro p _
              rfl
            rw [hfst]
            exact hgoodL.2.2
      · intro j B hjB p hp
        rcases get?_concat_cases hjB with ⟨hjlt, hjB2⟩ | ⟨hje, hBe⟩
        · refine hI.keyBound j B ?_ p hp
          rw [heq, List.get?_append hjlt]
          exact hjB2
        · subst hje; subst hBe
          rw [hL', bridgeAppend_fragments] at hp
          obtain ⟨q, hq, rfl⟩ := List.mem_map.mp hp
          refine hI.keyBound init.length L ?_ q hq
          rw [heq, List.get?_concat_length]
      · intro p hp
        have := hI.savedIdx p hp
        rw [heq] at this
        simpa using this
      · intro p hp
        have hidx := hI.savedIdx p hp
        have hleaf := hI.savedLeaf p hp
        rw [heq] at hidx hleaf
        simp only [List.length_append, List.length_singleton] at hidx
        have hlt : p.2 < init.length := by omega
        rw [List.get?_append hlt]
        rw [List.get?_append hlt] at hleaf
        exact hleaf
      · intro p hp X Y hX hY h1
        have hidx := hI.savedIdx p hp
        rw [heq] at hidx
        simp only [List.length_append, List.length_singleton] at hidx
        have hlt : p.2 < init.length := by omega
        have hlt2 : p.2 - 1 < init.length := by omega
        refine hI.savedSep p hp X Y ?_ ?_ h1
        · rw [heq, List.get?_append hlt, ← get?_append_left [L'] hlt]
          exact hX
        · rw [heq, List.get?_append hlt2, ← get?_append_left [L'] hlt2]
          exact hY
      · intro j X Y Z hX hY hZ
        rcases get?_concat_cases hZ with ⟨hjlt, hZ2⟩ | ⟨hje, hZe⟩
        · have hXlt : j < init.length := by omega
          have hYlt : j + 1 < init.length := by omega
          refine hI.noThree j X Y Z ?_ ?_ ?_
          · rw [heq, List.get?_append hXlt, ← get?_append_left [L'] hXlt]
            exact hX
          · rw [heq, List.get?_append hYlt, ← get?_append_left [L'] hYlt]
            exact hY
          · rw [heq, List.get?_append hjlt]
            exact hZ2
        · subst hZe
          have hYlt : j + 1 < init.length := by omega
          have hYrel : posMonoRel Y L := by
            refine chain'_rel_of_get? hpos (j + 1) Y L ?_ ?_
            · rw [List.get?_append hYlt]
              rw [List.get?_append hYlt] at hY
              exact hY
            · rw [show j + 1 + 1 = init.length from by omega]
              exact List.get?_concat_length _ _
          intro hcon
          have hpe := frontier_eq_position hcon.2
          rw [hposL'] at hpe
          unfold posMonoRel at hYrel
          omega
      · intro habs
        exact absurd habs (by simp)
      · exact hI.ckptOrd
      · intro c hc
        have hold := hI.ckptOk c hc
        cases c with
        | empty => trivial
        | atIndex i snap =>
          obtain ⟨ho1, ho2, ho3, ho4, ho5, ho6⟩ := hold
          rw [heq] at ho1 ho2 ho5 ho6
          simp only [List.length_append, List.length_singleton] at ho1
          refine ⟨by simpa using ho1, ?_, ho3, ho4, ?_, ?_⟩
          · rcases Nat.lt_or_ge i init.length with hilt | hige
            · rw [List.get?_append hilt]
              rw [List.get?_append hilt] at ho2
              exact ho2
            · have hie : i = init.length := by omega
              subst hie
              rw [List.get?_concat_length]
              rw [List.get?_concat_length] at ho2
              simp only [Option.map_some'] at ho2 ⊢
              injection ho2 with ho2e
              rw [hL', bridgeAppend_prior, ho2e]
          · intro X Y hX hY h2
            have hi1 : i - 1 < init.length := by omega
            have hi2 : i - 2 < init.length := by omega
            refine ho5 X Y ?_ ?_ h2
            · rw [List.get?_append hi2]
              rw [List.get?_append hi2] at hX
              exact hX
            · rw [List.get?_append hi1]
              rw [List.get?_append hi1] at hY
              exact hY
          · intro Y hY h1
            have hi1 : i - 1 < init.length := by omega
            refine ho6 Y ?_ h1
            rw [List.get?_append hi1]
            rw [List.get?_append hi1] at hY
            exact hY

theorem get?_of_getLast? {α : Type} {l : List α} {a : α} (h : l.getLast? = some a) :
    l.get? (l.length - 1) = some a := by
  rw [List.get?_eq_getElem?]
  rw [List.getLast?_eq_getElem?] at h
  exact h

/-- The common part of the `witness` preservation proof: pushing the
successor of the terminal bridge and saving its leaf at the terminal index
preserves the invariant, provided the terminal bridge is not a duplicate of
its predecessor. -/
theorem inv_witness_push [DecidableEq H] {DEPTH : Nat} {T : BridgeTree H}
    (hI : Inv DEPTH T) {cur : MerkleBridge H}
    (hL : T.bridges.getLast? = some cur)
    (hndup : ∀ prev, T.bridges.dropLast.getLast? = some prev →
      cur.frontier ≠ prev.frontier) :
    Inv DEPTH
      { T with
        saved := alistOrInsert T.saved cur.leafValue (T.bridges.length - 1),
        bridges := T.bridges ++ [cur.successor (T.bridges.length - 1)] } := by
  set n := T.bridges.length with hn
  set succ := cur.successor (n - 1) with hsucc
  have heq : T.bridges = T.bridges.dropLast ++ [cur] :=
    (dropLast_append_of_getLast? hL).symm
  have hne : T.bridges ≠ [] := by
    intro habs; rw [habs] at hL; cases hL
  have hn1 : 1 ≤ n := by
    cases hbs : T.bridges with
    | nil => exact absurd hbs hne
    | cons a l => rw [hn, hbs]; simp
  have hinitlen : T.bridges.dropLast.length = n - 1 := by
    rw [List.length_dropLast]
  have hgetcur : T.bridges.get? (n - 1) = some cur := get?_of_getLast? hL
  have hkcur : ∀ p ∈ cur.authFragments, p.1 < n - 1 :=
    hI.keyBound (n - 1) cur hgetcur
  have hcurmem : cur ∈ T.bridges := mem_of_get? hgetcur
  refine ⟨?_, ?_, ?_, ?_, ?_, ?_, ?_, ?_, ?_, ?_, ?_, ?_, ?_⟩
  · refine List.chain'_append.mpr ⟨hI.chain, List.chain'_singleton _, ?_⟩
    intro x hx y hy
    have hy2 : succ = y := by simpa using hy
    subst hy2
    rw [hL] at hx
    have hx2 : cur = x := by simpa using hx
    subst hx2
    rfl
  · refine List.chain'_append.mpr ⟨hI.posMono, List.chain'_singleton _, ?_⟩
    intro x hx y hy
    have hy2 : succ = y := by simpa using hy
    subst hy2
    rw [hL] at hx
    have hx2 : cur = x := by simpa using hx
    subst hx2
    exact Nat.le_refl _
  · refine List.chain'_append.mpr ⟨hI.coherent, List.chain'_singleton _, ?_⟩
    intro x hx y hy
    have hy2 : succ = y := by simpa using hy
    subst hy2
    rw [hL] at hx
    have hx2 : cur = x := by simpa using hx
    subst hx2
    exact fragCoherent_successor cur (n - 1) hkcur
  · refine List.chain'_append.mpr ⟨hI.keysMono, List.chain'_singleton _, ?_⟩
    intro x hx y hy
    have hy2 : succ = y := by simpa using hy
    subst hy2
    rw [hL] at hx
    have hx2 : cur = x := by simpa using hx
    subst hx2
    exact fragKeysMono_successor cur (n - 1) hkcur
  · intro B hB
    rcases List.mem_append.mp hB with hB | hB
    · exact hI.good B hB
    · have hBe : B = succ := by simpa using hB
      subst hBe
      exact goodBridge_successor cur (n - 1) (hI.good cur hcurmem) hkcur
  · intro j B hjB p hp
    rcases get?_concat_cases hjB with ⟨hjlt, hjB2⟩ | ⟨hje, hBe⟩
    · exact hI.keyBound j B hjB2 p hp
    · subst hje; subst hBe
      have := successor_keys cur (n - 1) hkcur p hp
      omega
  · intro p hp
    rcases mem_alistOrInsert hp with hp | hp
    · have := hI.savedIdx p hp
      simp only [List.length_append, List.length_singleton]
      omega
    · subst hp
      simp only [List.length_append, List.length_singleton]
      omega
  · intro p hp
    rcases mem_alistOrInsert hp with hp | hp
    · have hidx := hI.savedIdx p hp
      have hlt : p.2 < T.bridges.length := by omega
      rw [List.get?_append hlt]
      exact hI.savedLeaf p hp
    · subst hp
      have hlt : n - 1 < T.bridges.length := by omega
      rw [List.get?_append hlt, hgetcur]
      rfl
  · intro p hp X Y hX hY h1
    rcases mem_alistOrInsert hp with hp | hp
    · have hidx := hI.savedIdx p hp
      have hlt : p.2 < T.bridges.length := by omega
      have hlt2 : p.2 - 1 < T.bridges.length := by omega
      refine hI.savedSep p hp X Y ?_ ?_ h1
      · rw [← get?_append_left [succ] hlt]; exact hX
      · rw [← get?_append_left [succ] hlt2]; exact hY
    · subst hp
      simp only at hX hY h1
      have hn2 : 2 ≤ n := by omega
      have hlt : n - 1 < T.bridges.length := by omega
      have hlt2 : n - 1 - 1 < T.bridges.length := by omega
      rw [List.get?_append hlt, hgetcur] at hX
      injection hX with hX2
      subst hX2
      have hinitne : T.bridges.dropLast ≠ [] := by
        intro habs
        rw [habs] at hinitlen
        simp at hinitlen
        omega
      cases hprev : T.bridges.dropLast.getLast? with
      | none => exact absurd (List.getLast?_eq_none_iff.mp hprev) hinitne
      | some prev =>
        have hgetprev : T.bridges.get? (n - 1 - 1) = some prev := by
          have h3 := get?_of_getLast? hprev
          rw [hinitlen] at h3
          have hlt3 : n - 1 - 1 < T.bridges.dropLast.length := by omega
          rw [heq, List.get?_append hlt3]
          exact h3
        rw [List.get?_append hlt2, hgetprev] at hY
        injection hY with hY2
        subst hY2
        exact hndup prev hprev
  · intro j X Y Z hX hY hZ
    rcases get?_concat_cases hZ with ⟨hjlt, hZ2⟩ | ⟨hje, hZe⟩
    · have hXlt : j < T.bridges.length := by omega
      have hYlt : j + 1 < T.bridges.length := by omega
      rw [List.get?_append hXlt] at hX
      rw [List.get?_append hYlt] at hY
      exact hI.noThree j X Y Z hX hY hZ2
    · subst hZe
      have hYlt : j + 1 < T.bridges.length := by omega
      have hXlt : j < T.bridges.length := by omega
      rw [List.get?_append hYlt] at hY
      rw [List.get?_append hXlt] at hX
      have hYe : j + 1 = n - 1 := by omega
      rw [hYe, hgetcur] at hY
      injection hY with hY2
      subst hY2
      -- X is the predecessor of cur; a duplicate there is excluded
      have hinitne : T.bridges.dropLast ≠ [] := by
        intro habs
        have : T.bridges.dropLast.length = 0 := by rw [habs]; rfl
        omega
      cases hprev : T.bridges.dropLast.getLast? with
      | none => exact absurd (List.getLast?_eq_none_iff.mp hprev) hinitne
      | some prev =>
        have hgetprev : T.bridges.get? (n - 1 - 1) = some prev := by
          have h3 := get?_of_getLast? hprev
          rw [hinitlen] at h3
          have hlt3 : n - 1 - 1 < T.bridges.dropLast.length := by omega
          rw [heq, List.get?_append hlt3]
          exact h3
        have hXe : j = n - 1 - 1 := by omega
        rw [hXe, hgetprev] at hX
        injection hX with hX2
        subst hX2
        intro hcon
        exact hndup prev hprev (hcon.1.symm)
  · intro habs
    exact absurd habs (by simp)
  · exact hI.ckptOrd
  · intro c hc
    have hold := hI.ckptOk c hc
    cases c with
    | empty => trivial
    | atIndex i snap =>
      obtain ⟨ho1, ho2, ho3, ho4, ho5, ho6⟩ := hold
      have hilt : i < T.bridges.length := ho1
      refine ⟨by simp only [List.length_append, List.length_singleton]; omega, ?_,
        ho3, ho4, ?_, ?_⟩
      · rw [List.get?_append hilt]
        exact ho2
      · intro X Y hX hY h2
        have hi1 : i - 1 < T.bridges.length := by omega
        have hi2 : i - 2 < T.bridges.length := by omega
        rw [List.get?_append hi2] at hX
        rw [List.get?_append hi1] at hY
        exact ho5 X Y hX hY h2
      · intro Y hY h1
        have hi1 : i - 1 < T.bridges.length := by omega
        rw [List.get?_append hi1] at hY
        exact ho6 Y hY h1

theorem inv_witness [DecidableEq H] {DEPTH : Nat} {T : BridgeTree H}
    (hI : Inv DEPTH T) : Inv DEPTH (T.witness).2 := by
  cases hL : T.bridges.getLast? with
  | none =>
    have hres : (T.witness).2 = T := by simp [BridgeTree.witness, hL]
    rw [hres]; exact hI
  | some cur =>
    cases hprev : T.bridges.dropLast.getLast? with
    | none =>
      have hres : (T.witness).2 =
          { T with
            saved := alistOrInsert T.saved cur.leafValue (T.bridges.length - 1),
            bridges := T.bridges ++ [cur.successor (T.bridges.length - 1)] } := by
        simp [BridgeTree.witness, hL, hprev]
      rw [hres]
      refine inv_witness_push hI hL ?_
      intro prev hp
      rw [hprev] at hp
      cases hp
    | some prev =>
      by_cases hfr : cur.frontier = prev.frontier
      · -- duplicate frontier: no push, save at the predecessor index
        have hres : (T.witness).2 =
            { T with
              saved := alistOrInsert T.saved cur.leafValue
                (T.bridges.length - 1 - 1) } := by
          simp [BridgeTree.witness, hL, hprev, hfr]
        rw [hres]
        set n := T.bridges.length with hn
        have heq : T.bridges = T.bridges.dropLast ++ [cur] :=
          (dropLast_append_of_getLast? hL).symm
        have hinitlen : T.bridges.dropLast.length = n - 1 := by
          rw [List.length_dropLast]
        have hinitne : T.bridges.dropLast ≠ [] := by
          intro habs; rw [habs] at hprev; cases hprev
        have hinitpos : 1 ≤ T.bridges.dropLast.length := by
          rw [hinitlen]
          by_contra hc
          have hz : n - 1 = 0 := by omega
          rw [← hinitlen] at hz
          exact hinitne (List.length_eq_zero.mp hz)
        have hn2 : 2 ≤ n := by omega
        have hgetcur : T.bridges.get? (n - 1) = some cur := get?_of_getLast? hL
        have hgetprev : T.bridges.get? (n - 1 - 1) = some prev := by
          have h3 := get?_of_getLast? hprev
          rw [hinitlen] at h3
          have hlt3 : n - 1 - 1 < T.bridges.dropLast.length := by omega
          rw [heq, List.get?_append hlt3]
          exact h3
        refine ⟨hI.chain, hI.posMono, hI.coherent, hI.keysMono, hI.good,
          hI.keyBound, ?_, ?_, ?_, hI.noThree, ?_, hI.ckptOrd, hI.ckptOk⟩
        · intro p hp
          rcases mem_alistOrInsert hp with hp | hp
          · exact hI.savedIdx p hp
          · subst hp
            simp only
            omega
        · intro p hp
          rcases mem_alistOrInsert hp with hp | hp
          · exact hI.savedLeaf p hp
          · subst hp
            have hlv : prev.leafValue = cur.leafValue := by
              unfold MerkleBridge.leafValue
              rw [hfr]
            have hgp2 : T.bridges[n - 1 - 1]? = some prev := by
              rw [← List.get?_eq_getElem?]
              exact hgetprev
            simp [hgp2, hlv]
        · intro p hp X Y hX hY h1
          rcases mem_alistOrInsert hp with hp | hp
          · exact hI.savedSep p hp X Y hX hY h1
          · subst hp
            simp only at hX hY h1
            have hn3 : 3 ≤ n := by omega
            rw [hgetprev] at hX
            injection hX with hX2
            subst hX2
            -- X = prev at index n-2; Y at index n-3; use noThree at (n-3, n-2, n-1)
            have hY3 : T.bridges.get? (n - 3) = some Y := by
              rw [show n - 1 - 1 - 1 = n - 3 from by omega] at hY
              exact hY
            intro hcon
            refine hI.noThree (n - 3) Y prev cur ?_ ?_ ?_ ?_
            · exact hY3
            · rw [show n - 3 + 1 = n - 1 - 1 from by omega]
              exact hgetprev
            · rw [show n - 3 + 2 = n - 1 from by omega]
              exact hgetcur
            · exact ⟨hcon.symm, hfr.symm⟩
        · intro habs
          have := hI.emptySaved habs
          rw [habs] at hgetcur
          cases hgetcur
      · -- distinct frontiers: push as in the generic case
        have hres : (T.witness).2 =
            { T with
              saved := alistOrInsert T.saved cur.leafValue (T.bridges.length - 1),
              bridges := T.bridges ++ [cur.successor (T.bridges.length - 1)] } := by
          simp [BridgeTree.witness, hL, hprev, hfr]
        rw [hres]
        refine inv_witness_push hI hL ?_
        intro prev2 hp2
        rw [hprev] at hp2
        injection hp2 with hp3
        subst hp3
        exact hfr

theorem inv_removeWitness [DecidableEq H] {DEPTH : Nat} {T : BridgeTree H}
    (v : H) (hI : Inv DEPTH T) : Inv DEPTH (T.removeWitness v).2 := by
  have hres : (T.removeWitness v).2 =
      { T with saved := T.saved.filter (fun p => p.1 ≠ v) } := rfl
  rw [hres]
  refine ⟨hI.chain, hI.posMono, hI.coherent, hI.keysMono, hI.good, hI.keyBound,
    ?_, ?_, ?_, hI.noThree, ?_, hI.ckptOrd, hI.ckptOk⟩
  · intro p hp
    exact hI.savedIdx p (List.mem_of_mem_filter hp)
  · intro p hp
    exact hI.savedLeaf p (List.mem_of_mem_filter hp)
  · intro p hp
    exact hI.savedSep p (List.mem_of_mem_filter hp)
  · intro habs
    rw [hI.emptySaved habs]
    rfl

theorem inv_dropOldest [DecidableEq H] {DEPTH : Nat} {T : BridgeTree H}
    (hI : Inv DEPTH T) : Inv DEPTH (T.dropOldestCheckpoint).2 := by
  unfold BridgeTree.dropOldestCheckpoint
  by_cases he : T.checkpoints.isEmpty
  · simp only [he, if_true]
    exact hI
  · simp only [he, Bool.false_eq_true, if_false]
    refine ⟨hI.chain, hI.posMono, hI.coherent, hI.keysMono, hI.good, hI.keyBound,
      hI.savedIdx, hI.savedLeaf, hI.savedSep, hI.noThree, hI.emptySaved, ?_, ?_⟩
    · rw [List.drop_one]
      exact hI.ckptOrd.tail
    · intro c hc
      rw [List.drop_one] at hc
      exact hI.ckptOk c (List.mem_of_mem_tail hc)

theorem inv_checkpoint [DecidableEq H] {DEPTH : Nat} {T : BridgeTree H}
    (hI : Inv DEPTH T) : Inv DEPTH T.checkpoint := by
  have hpush : Inv DEPTH
      { T with
        checkpoints := T.checkpoints ++
          [match T.bridges.getLast? with
           | none => Checkpoint.empty
           | some last => Checkpoint.atIndex (T.bridges.length - 1) last] } := by
    cases hL : T.bridges.getLast? with
    | none =>
      have hbs : T.bridges = [] := List.getLast?_eq_none_iff.mp hL
      refine ⟨hI.chain, hI.posMono, hI.coherent, hI.keysMono, hI.good, hI.keyBound,
        hI.savedIdx, hI.savedLeaf, hI.savedSep, hI.noThree, hI.emptySaved, ?_, ?_⟩
      · refine List.chain'_append.mpr ⟨hI.ckptOrd, List.chain'_singleton _, ?_⟩
        intro x hx y hy
        have hy2 : Checkpoint.empty = y := by simpa using hy
        subst hy2
        cases x with
        | empty => trivial
        | atIndex i s =>
          have hmem : Checkpoint.atIndex i s ∈ T.checkpoints :=
            mem_of_get? (get?_of_getLast? hx)
          have := (hI.ckptOk _ hmem).1
          rw [hbs] at this
          exact absurd this (by simp)
      · intro c hc
        rcases List.mem_append.mp hc with hc | hc
        · exact hI.ckptOk c hc
        · have hce : c = Checkpoint.empty := by simpa using hc
          subst hce
          trivial
    | some L =>
      set n := T.bridges.length with hn
      have hgetcur : T.bridges.get? (n - 1) = some L := get?_of_getLast? hL
      have hn1 : 1 ≤ n := by
        have := get?_some_lt_length hgetcur
        omega
      refine ⟨hI.chain, hI.posMono, hI.coherent, hI.keysMono, hI.good, hI.keyBound,
        hI.savedIdx, hI.savedLeaf, hI.savedSep, hI.noThree, hI.emptySaved, ?_, ?_⟩
      · refine List.chain'_append.mpr ⟨hI.ckptOrd, List.chain'_singleton _, ?_⟩
        intro x hx y hy
        have hy2 : Checkpoint.atIndex (n - 1) L = y := by simpa using hy
        subst hy2
        cases x with
        | empty => trivial
        | atIndex i s =>
          have hmem : Checkpoint.atIndex i s ∈ T.checkpoints :=
            mem_of_get? (get?_of_getLast? hx)
          have := (hI.ckptOk _ hmem).1
          unfold ckptOrdRel
          omega
      · intro c hc
        rcases List.mem_append.mp hc with hc | hc
        · exact hI.ckptOk c hc
        · have hce : c = Checkpoint.atIndex (n - 1) L := by simpa using hc
          subst hce
          refine ⟨(by omega : n - 1 < T.bridges.length), by rw [hgetcur]; rfl,
            hI.good L (mem_of_get? hgetcur), hI.keyBound (n - 1) L hgetcur, ?_, ?_⟩
          · intro X Y hX hY h2
            intro hcon
            refine hI.noThree (n - 3) X Y L ?_ ?_ ?_ ⟨hcon.1, hcon.2⟩
            · rw [show n - 3 = n - 1 - 2 from by omega]
              exact hX
            · rw [show n - 3 + 1 = n - 1 - 1 from by omega]
              exact hY
            · rw [show n - 3 + 2 = n - 1 from by omega]
              exact hgetcur
          · intro Y hY h1
            have hcoh := chain'_rel_of_get? hI.coherent (n - 1 - 1) Y L hY
              (by rw [show n - 1 - 1 + 1 = n - 1 from by omega]; exact hgetcur)
            have hkm := chain'_rel_of_get? hI.keysMono (n - 1 - 1) Y L hY
              (by rw [show n - 1 - 1 + 1 = n - 1 from by omega]; exact hgetcur)
            exact ⟨hcoh, hkm⟩
  unfold BridgeTree.checkpoint
  by_cases hc : ({ T with
      checkpoints := T.checkpoints ++
        [match T.bridges.getLast? with
         | none => Checkpoint.empty
         | some last => Checkpoint.atIndex (T.bridges.length - 1) last] } :
      BridgeTree H).maxCheckpoints <
      ({ T with
        checkpoints := T.checkpoints ++
          [match T.bridges.getLast? with
           | none => Checkpoint.empty
           | some last => Checkpoint.atIndex (T.bridges.length - 1) last] } :
      BridgeTree H).checkpoints.length
  · rw [if_pos hc]
    exact inv_dropOldest hpush
  · rw [if_neg hc]
    exact hpush

theorem ckpt_allEmpty {l : List (Checkpoint H)}
    (h : List.Chain' ckptOrdRel (l ++ [Checkpoint.empty])) :
    ∀ c ∈ l, c = Checkpoint.empty := by
  induction l with
  | nil => intro c hc; cases hc
  | cons c0 tl ih =>
    rw [List.cons_append, List.chain'_cons'] at h
    intro c hc
    rcases List.mem_cons.mp hc with rfl | hc2
    · cases htl : tl with
      | nil =>
        have hrel := h.1 Checkpoint.empty (by rw [htl]; rfl)
        cases c with
        | empty => rfl
        | atIndex j sj => exact hrel.elim
      | cons c1 tl2 =>
        have hc1 : c1 = Checkpoint.empty := by
          refine ih h.2 c1 ?_
          rw [htl]
          exact List.mem_cons_self _ _
        have hrel := h.1 c1 (by rw [htl]; rfl)
        rw [hc1] at hrel
        cases c with
        | empty => rfl
        | atIndex j sj => exact hrel.elim
    · exact ih h.2 c hc2

theorem ckpt_allLe {l : List (Checkpoint H)} {i : Nat} {s : MerkleBridge H}
    (h : List.Chain' ckptOrdRel (l ++ [Checkpoint.atIndex i s])) :
    ∀ c ∈ l, ∀ i2 s2, c = Checkpoint.atIndex i2 s2 → i2 ≤ i := by
  induction l with
  | nil => intro c hc; cases hc
  | cons c0 tl ih =>
    rw [List.cons_append, List.chain'_cons'] at h
    intro c hc i2 s2 hce
    rcases List.mem_cons.mp hc with rfl | hc2
    · subst hce
      cases htl : tl with
      | nil =>
        have hrel := h.1 (Checkpoint.atIndex i s) (by rw [htl]; rfl)
        exact hrel
      | cons c1 tl2 =>
        have hrel := h.1 c1 (by rw [htl]; rfl)
        cases hc1 : c1 with
        | empty => rw [hc1] at hrel; exact hrel.elim
        | atIndex j sj =>
          have hj : j ≤ i := by
            refine ih h.2 c1 ?_ j sj hc1
            rw [htl]
            exact List.mem_cons_self _ _
          rw [hc1] at hrel
          unfold ckptOrdRel at hrel
          omega
    · exact ih h.2 c hc2 i2 s2 hce

/-- Invariant preservation for a successful `rewind` that does not push a
re-witnessing successor: the new bridge list is the truncation with the
snapshot re-installed at the checkpoint index, and no surviving saved entry
points at the checkpoint index itself. -/
theorem inv_rewind_nopush [DecidableEq H] {DEPTH : Nat} {T : BridgeTree H}
    (hI : Inv DEPTH T) {i : Nat} {snap bi : MerkleBridge H}
    (hck : T.checkpoints.getLast? = some (Checkpoint.atIndex i snap))
    (hilt : i < T.bridges.length)
    (hbi : T.bridges.get? i = some bi)
    (hpri : bi.priorPosition = snap.priorPosition)
    (hgoodsnap : goodBridge DEPTH snap)
    (hkeys : ∀ p ∈ snap.authFragments, p.1 < i)
    (htriple : ∀ X Y, T.bridges.get? (i - 2) = some X →
      T.bridges.get? (i - 1) = some Y → 2 ≤ i →
      ¬(X.frontier = Y.frontier ∧ Y.frontier = snap.frontier))
    (hpair : ∀ Y, T.bridges.get? (i - 1) = some Y → 1 ≤ i →
      fragCoherent Y snap ∧ fragKeysMono Y snap)
    (hnoti : ∀ p ∈ T.saved, p.2 ≤ i → p.2 ≠ i) :
    Inv DEPTH
      { T with checkpoints := T.checkpoints.dropLast,
               bridges := T.bridges.take i ++ [snap],
               saved := T.saved.filter (fun p => p.2 ≤ i) } := by
  have hlen : (T.bridges.take i).length = i := by
    rw [List.length_take]; omega
  have hget' : ∀ j, j < i →
      (T.bridges.take i ++ [snap]).get? j = T.bridges.get? j := by
    intro j hj
    rw [List.get?_append (by omega), List.get?_take hj]
  have hgeti : (T.bridges.take i ++ [snap]).get? i = some snap := by
    have h2 := List.get?_concat_length (T.bridges.take i) snap
    rw [hlen] at h2
    exact h2
  have hgetup : ∀ j, i < j → (T.bridges.take i ++ [snap]).get? j = none := by
    intro j hj
    rw [List.get?_eq_none]
    simp only [List.length_append, List.length_singleton]
    omega
  have hcps : T.checkpoints =
      T.checkpoints.dropLast ++ [Checkpoint.atIndex i snap] :=
    (dropLast_append_of_getLast? hck).symm
  have hordfull : List.Chain' ckptOrdRel
      (T.checkpoints.dropLast ++ [Checkpoint.atIndex i snap]) := by
    rw [← hcps]; exact hI.ckptOrd
  have hle := ckpt_allLe hordfull
  have hchainYsnap : ∀ Y, T.bridges.get? (i - 1) = some Y → 1 ≤ i →
      chainRel Y snap := by
    intro Y hY h1
    have hrel := chain'_rel_of_get? hI.chain (i - 1) Y bi hY
      (by rw [show i - 1 + 1 = i from by omega]; exact hbi)
    unfold chainRel at hrel ⊢
    rw [← hpri]
    exact hrel
  refine ⟨?_, ?_, ?_, ?_, ?_, ?_, ?_, ?_, ?_, ?_, ?_, ?_, ?_⟩
  · refine List.chain'_append.mpr
      ⟨hI.chain.take i, List.chain'_singleton _, ?_⟩
    intro x hx y hy
    have hy2 : snap = y := by simpa using hy
    subst hy2
    have h1 : 1 ≤ i := by
      by_contra hc
      have hiz : i = 0 := by omega
      rw [hiz] at hx
      simp at hx
    rw [getLast?_take_of_le h1 (by omega)] at hx
    exact hchainYsnap x hx h1
  · refine List.chain'_append.mpr
      ⟨hI.posMono.take i, List.chain'_singleton _, ?_⟩
    intro x hx y hy
    have hy2 : snap = y := by simpa using hy
    subst hy2
    have h1 : 1 ≤ i := by
      by_contra hc
      have hiz : i = 0 := by omega
      rw [hiz] at hx
      simp at hx
    rw [getLast?_take_of_le h1 (by omega)] at hx
    have hcr := hchainYsnap x hx h1
    unfold chainRel at hcr
    unfold posMonoRel
    exact hgoodsnap.1 _ hcr
  · refine List.chain'_append.mpr
      ⟨hI.coherent.take i, List.chain'_singleton _, ?_⟩
    intro x hx y hy
    have hy2 : snap = y := by simpa using hy
    subst hy2
    have h1 : 1 ≤ i := by
      by_contra hc
      have hiz : i = 0 := by omega
      rw [hiz] at hx
      simp at hx
    rw [getLast?_take_of_le h1 (by omega)] at hx
    exact (hpair x hx h1).1
  · refine List.chain'_append.mpr
      ⟨hI.keysMono.take i, List.chain'_singleton _, ?_⟩
    intro x hx y hy
    have hy2 : snap = y := by simpa using hy
    subst hy2
    have h1 : 1 ≤ i := by
      by_contra hc
      have hiz : i = 0 := by omega
      rw [hiz] at hx
      simp at hx
    rw [getLast?_take_of_le h1 (by omega)] at hx
    exact (hpair x hx h1).2
  · intro B hB
    rcases List.mem_append.mp hB with hB | hB
    · exact hI.good B (List.mem_of_mem_take hB)
    · have hBe : B = snap := by simpa using hB
      subst hBe
      exact hgoodsnap
  · intro j B hjB p hp
    rcases get?_concat_cases hjB with ⟨hjlt, hjB2⟩ | ⟨hje, hBe⟩
    · rw [hlen] at hjlt
      rw [List.get?_take hjlt] at hjB2
      exact hI.keyBound j B hjB2 p hp
    · rw [hlen] at hje
      subst hje; subst hBe
      exact hkeys p hp
  · intro p hp
    have hmem := List.mem_of_mem_filter hp
    have hle2 : p.2 ≤ i := by
      have := List.of_mem_filter hp
      simpa using this
    have hne := hnoti p hmem hle2
    simp only [List.length_append, List.length_singleton]
    omega
  · intro p hp
    have hmem := List.mem_of_mem_filter hp
    have hle2 : p.2 ≤ i := by
      have := List.of_mem_filter hp
      simpa using this
    have hne := hnoti p hmem hle2
    have hlt : p.2 < i := by omega
    rw [hget' p.2 hlt]
    exact hI.savedLeaf p hmem
  · intro p hp X Y hX hY h1
    have hmem := List.mem_of_mem_filter hp
    have hle2 : p.2 ≤ i := by
      have := List.of_mem_filter hp
      simpa using this
    have hne := hnoti p hmem hle2
    have hlt : p.2 < i := by omega
    rw [hget' p.2 hlt] at hX
    rw [hget' (p.2 - 1) (by omega)] at hY
    exact hI.savedSep p hmem X Y hX hY h1
  · intro j X Y Z hX hY hZ
    rcases get?_concat_cases hZ with ⟨hjlt, hZ2⟩ | ⟨hje, hZe⟩
    · rw [hlen] at hjlt
      rw [List.get?_take hjlt] at hZ2
      rw [hget' j (by omega)] at hX
      rw [hget' (j + 1) (by omega)] at hY
      exact hI.noThree j X Y Z hX hY hZ2
    · rw [hlen] at hje
      subst hZe
      have h2i : 2 ≤ i := by omega
      rw [hget' j (by omega)] at hX
      rw [hget' (j + 1) (by omega)] at hY
      refine htriple X Y ?_ ?_ h2i
      · rw [show i - 2 = j from by omega]; exact hX
      · rw [show i - 1 = j + 1 from by omega]; exact hY
  · intro habs
    exact absurd habs (by simp)
  · exact (List.chain'_append.mp hordfull).1
  · intro c hc
    cases c with
    | empty => trivial
    | atIndex i2 s2 =>
      have hi2 : i2 ≤ i := hle _ hc i2 s2 rfl
      obtain ⟨ho1, ho2, ho3, ho4, ho5, ho6⟩ :=
        hI.ckptOk (Checkpoint.atIndex i2 s2) (by rw [hcps]; exact List.mem_append_left _ hc)
      refine ⟨?_, ?_, ho3, ho4, ?_, ?_⟩
      · simp only [List.length_append, List.length_singleton]
        omega
      · rcases Nat.lt_or_ge i2 i with hlt | hge
        · rw [hget' i2 hlt]
          exact ho2
        · have hie : i2 = i := by omega
          subst hie
          rw [hgeti]
          rw [hbi] at ho2
          simp only [Option.map_some'] at ho2 ⊢
          injection ho2 with ho2e
          rw [← hpri, ho2e]
      · intro X Y hX hY h2
        rw [hget' (i2 - 2) (by omega)] at hX
        rw [hget' (i2 - 1) (by omega)] at hY
        exact ho5 X Y hX hY h2
      · intro Y hY h1
        rw [hget' (i2 - 1) (by omega)] at hY
        exact ho6 Y hY h1

/-- Invariant preservation for a successful `rewind` that re-witnesses: a
fresh successor of the snapshot is pushed after it. -/
theorem inv_rewind_push [DecidableEq H] {DEPTH : Nat} {T : BridgeTree H}
    (hI : Inv DEPTH T) {i : Nat} {snap bi : MerkleBridge H}
    (hck : T.checkpoints.getLast? = some (Checkpoint.atIndex i snap))
    (hilt : i < T.bridges.length)
    (hbi : T.bridges.get? i = some bi)
    (hpri : bi.priorPosition = snap.priorPosition)
    (hgoodsnap : goodBridge DEPTH snap)
    (hkeys : ∀ p ∈ snap.authFragments, p.1 < i)
    (htriple : ∀ X Y, T.bridges.get? (i - 2) = some X →
      T.bridges.get? (i - 1) = some Y → 2 ≤ i →
      ¬(X.frontier = Y.frontier ∧ Y.frontier = snap.frontier))
    (hpair : ∀ Y, T.bridges.get? (i - 1) = some Y → 1 ≤ i →
      fragCoherent Y snap ∧ fragKeysMono Y snap)
    (hfri : ∀ p ∈ T.saved, p.2 = i → bi.frontier = snap.frontier)
    (hndup : ∀ Y, T.bridges.get? (i - 1) = some Y → 1 ≤ i →
      snap.frontier ≠ Y.frontier) :
    Inv DEPTH
      { T with checkpoints := T.checkpoints.dropLast,
               bridges := (T.bridges.take i ++ [snap]) ++ [snap.successor i],
               saved := T.saved.filter (fun p => p.2 ≤ i) } := by
  have hlen : (T.bridges.take i).length = i := by
    rw [List.length_take]; omega
  have hlen2 : (T.bridges.take i ++ [snap]).length = i + 1 := by
    simp only [List.length_append, List.length_singleton]
    omega
  have hget' : ∀ j, j < i →
      ((T.bridges.take i ++ [snap]) ++ [snap.successor i]).get? j = T.bridges.get? j := by
    intro j hj
    rw [List.get?_append (by omega), List.get?_append (by omega), List.get?_take hj]
  have hgeti : ((T.bridges.take i ++ [snap]) ++ [snap.successor i]).get? i = some snap := by
    rw [List.get?_append (by omega)]
    have h2 := List.get?_concat_length (T.bridges.take i) snap
    rw [hlen] at h2
    exact h2
  have hgetsucc : ((T.bridges.take i ++ [snap]) ++ [snap.successor i]).get? (i + 1) =
      some (snap.successor i) := by
    have h2 := List.get?_concat_length (T.bridges.take i ++ [snap]) (snap.successor i)
    rw [hlen2] at h2
    exact h2
  have hcps : T.checkpoints =
      T.checkpoints.dropLast ++ [Checkpoint.atIndex i snap] :=
    (dropLast_append_of_getLast? hck).symm
  have hordfull : List.Chain' ckptOrdRel
      (T.checkpoints.dropLast ++ [Checkpoint.atIndex i snap]) := by
    rw [← hcps]; exact hI.ckptOrd
  have hle := ckpt_allLe hordfull
  have hchainYsnap : ∀ Y, T.bridges.get? (i - 1) = some Y → 1 ≤ i →
      chainRel Y snap := by
    intro Y hY h1
    have hrel := chain'_rel_of_get? hI.chain (i - 1) Y bi hY
      (by rw [show i - 1 + 1 = i from by omega]; exact hbi)
    unfold chainRel at hrel ⊢
    rw [← hpri]
    exact hrel
  have hgetLastNoPush : (T.bridges.take i ++ [snap]).getLast? = some snap :=
    List.getLast?_concat _
  refine ⟨?_, ?_, ?_, ?_, ?_, ?_, ?_, ?_, ?_, ?_, ?_, ?_, ?_⟩
  · refine List.chain'_append.mpr ⟨?_, List.chain'_singleton _, ?_⟩
    · refine List.chain'_append.mpr
        ⟨hI.chain.take i, List.chain'_singleton _, ?_⟩
      intro x hx y hy
      have hy2 : snap = y := by simpa using hy
      subst hy2
      have h1 : 1 ≤ i := by
        by_contra hc
        have hiz : i = 0 := by omega
        rw [hiz] at hx
        simp at hx
      rw [getLast?_take_of_le h1 (by omega)] at hx
      exact hchainYsnap x hx h1
    · intro x hx y hy
      have hy2 : snap.successor i = y := by simpa using hy
      subst hy2
      rw [hgetLastNoPush] at hx
      have hx2 : snap = x := by simpa using hx
      subst hx2
      rfl
  · refine List.chain'_append.mpr ⟨?_, List.chain'_singleton _, ?_⟩
    · refine List.chain'_append.mpr
        ⟨hI.posMono.take i, List.chain'_singleton _, ?_⟩
      intro x hx y hy
      have hy2 : snap = y := by simpa using hy
      subst hy2
      have h1 : 1 ≤ i := by
        by_contra hc
        have hiz : i = 0 := by omega
        rw [hiz] at hx
        simp at hx
      rw [getLast?_take_of_le h1 (by omega)] at hx
      have hcr := hchainYsnap x hx h1
      unfold chainRel at hcr
      unfold posMonoRel
      exact hgoodsnap.1 _ hcr
    · intro x hx y hy
      have hy2 : snap.successor i = y := by simpa using hy
      subst hy2
      rw [hgetLastNoPush] at hx
      have hx2 : snap = x := by simpa using hx
      subst hx2
      exact Nat.le_refl _
  · refine List.chain'_append.mpr ⟨?_, List.chain'_singleton _, ?_⟩
    · refine List.chain'_append.mpr
        ⟨hI.coherent.take i, List.chain'_singleton _, ?_⟩
      intro x hx y hy
      have hy2 : snap = y := by simpa using hy
      subst hy2
      have h1 : 1 ≤ i := by
        by_contra hc
        have hiz : i = 0 := by omega
        rw [hiz] at hx
        simp at hx
      rw [getLast?_take_of_le h1 (by omega)] at hx
      exact (hpair x hx h1).1
    · intro x hx y hy
      have hy2 : snap.successor i = y := by simpa using hy
      subst hy2
      rw [hgetLastNoPush] at hx
      have hx2 : snap = x := by simpa using hx
      subst hx2
      exact fragCoherent_successor snap i hkeys
  · refine List.chain'_append.mpr ⟨?_, List.chain'_singleton _, ?_⟩
    · refine List.chain'_append.mpr
        ⟨hI.keysMono.take i, List.chain'_singleton _, ?_⟩
      intro x hx y hy
      have hy2 : snap = y := by simpa using hy
      subst hy2
      have h1 : 1 ≤ i := by
        by_contra hc
        have hiz : i = 0 := by omega
        rw [hiz] at hx
        simp at hx
      rw [getLast?_take_of_le h1 (by omega)] at hx
      exact (hpair x hx h1).2
    · intro x hx y hy
      have hy2 : snap.successor i = y := by simpa using hy
      subst hy2
      rw [hgetLastNoPush] at hx
      have hx2 : snap = x := by simpa using hx
      subst hx2
      exact fragKeysMono_successor snap i hkeys
  · intro B hB
    rcases List.mem_append.mp hB with hB | hB
    · rcases List.mem_append.mp hB with hB | hB
      · exact hI.good B (List.mem_of_mem_take hB)
      · have hBe : B = snap := by simpa using hB
        subst hBe
        exact hgoodsnap
    · have hBe : B = snap.successor i := by simpa using hB
      subst hBe
      exact goodBridge_successor snap i hgoodsnap hkeys
  · intro j B hjB p hp
    rcases get?_concat_cases hjB with ⟨hjlt, hjB2⟩ | ⟨hje, hBe⟩
    · rw [hlen2] at hjlt
      rcases get?_concat_cases hjB2 with ⟨hjlt2, hjB3⟩ | ⟨hje2, hBe2⟩
      · rw [hlen] at hjlt2
        rw [List.get?_take hjlt2] at hjB3
        exact hI.keyBound j B hjB3 p hp
      · rw [hlen] at hje2
        subst hje2; subst hBe2
        exact hkeys p hp
    · rw [hlen2] at hje
      subst hje; subst hBe
      have := successor_keys snap i hkeys p hp
      omega
  · intro p hp
    have hle2 : p.2 ≤ i := by
      have := List.of_mem_filter hp
      simpa using this
    simp only [List.length_append, List.length_singleton]
    omega
  · intro p hp
    have hmem := List.mem_of_mem_filter hp
    have hle2 : p.2 ≤ i := by
      have := List.of_mem_filter hp
      simpa using this
    rcases Nat.lt_or_ge p.2 i with hlt | hge
    · rw [hget' p.2 hlt]
      exact hI.savedLeaf p hmem
    · have hie : p.2 = i := by omega
      rw [hie, hgeti]
      have hfe := hfri p hmem hie
      have hold := hI.savedLeaf p hmem
      rw [hie, hbi] at hold
      simp only [Option.map_some'] at hold ⊢
      injection hold with holde
      rw [← holde]
      unfold MerkleBridge.leafValue
      rw [hfe]
  · intro p hp X Y hX hY h1
    have hmem := List.mem_of_mem_filter hp
    have hle2 : p.2 ≤ i := by
      have := List.of_mem_filter hp
      simpa using this
    rcases Nat.lt_or_ge p.2 i with hlt | hge
    · rw [hget' p.2 hlt] at hX
      rw [hget' (p.2 - 1) (by omega)] at hY
      exact hI.savedSep p hmem X Y hX hY h1
    · have hie : p.2 = i := by omega
      rw [hie, hgeti] at hX
      injection hX with hX2
      subst hX2
      rw [hie, hget' (i - 1) (by omega)] at hY
      have hfe := hfri p hmem hie
      have hold := hI.savedSep p hmem bi Y (by rw [hie]; exact hbi)
        (by rw [hie]; exact hY) (by omega)
      rw [← hfe]
      exact hold
  · intro j X Y Z hX hY hZ
    rcases get?_concat_cases hZ with ⟨hjlt, hZ2⟩ | ⟨hje, hZe⟩
    · rw [hlen2] at hjlt
      rcases get?_concat_cases hZ2 with ⟨hjlt2, hZ3⟩ | ⟨hje2, hZe2⟩
      · rw [hlen] at hjlt2
        rw [List.get?_take hjlt2] at hZ3
        rw [hget' j (by omega)] at hX
        rw [hget' (j + 1) (by omega)] at hY
        exact hI.noThree j X Y Z hX hY hZ3
      · rw [hlen] at hje2
        subst hZe2
        have h2i : 2 ≤ i := by omega
        rw [hget' j (by omega)] at hX
        rw [hget' (j + 1) (by omega)] at hY
        refine htriple X Y ?_ ?_ h2i
        · rw [show i - 2 = j from by omega]; exact hX
        · rw [show i - 1 = j + 1 from by omega]; exact hY
    · rw [hlen2] at hje
      subst hZe
      -- Z is the fresh successor at index i + 1; Y is snap at index i
      have h1i : 1 ≤ i := by omega
      have hYe : j + 1 = i := by omega
      have hXe : j = i - 1 := by omega
      rw [hYe, hgeti] at hY
      injection hY with hY2
      subst hY2
      rw [hXe, hget' (i - 1) (by omega)] at hX
      intro hcon
      exact hndup X hX h1i (hcon.1.symm)
  · intro habs
    exact absurd habs (by simp)
  · exact (List.chain'_append.mp hordfull).1
  · intro c hc
    cases c with
    | empty => trivial
    | atIndex i2 s2 =>
      have hi2 : i2 ≤ i := hle _ hc i2 s2 rfl
      obtain ⟨ho1, ho2, ho3, ho4, ho5, ho6⟩ :=
        hI.ckptOk (Checkpoint.atIndex i2 s2) (by rw [hcps]; exact List.mem_append_left _ hc)
      refine ⟨?_, ?_, ho3, ho4, ?_, ?_⟩
      · simp only [List.length_append, List.length_singleton]
        omega
      · rcases Nat.lt_or_ge i2 i with hlt | hge
        · rw [hget' i2 hlt]
          exact ho2
        · have hie : i2 = i := by omega
          subst hie
          rw [hgeti]
          rw [hbi] at ho2
          simp only [Option.map_some'] at ho2 ⊢
          injection ho2 with ho2e
          rw [← hpri, ho2e]
      · intro X Y hX hY h2
        rw [hget' (i2 - 2) (by omega)] at hX
        rw [hget' (i2 - 1) (by omega)] at hY
        exact ho5 X Y hX hY h2
      · intro Y hY h1
        rw [hget' (i2 - 1) (by omega)] at hY
        exact ho6 Y hY h1

theorem inv_rewind [DecidableEq H] {DEPTH : Nat} {T : BridgeTree H}
    (hI : Inv DEPTH T) : Inv DEPTH (T.rewind).2 := by
  cases hck : T.checkpoints.getLast? with
  | none =>
    have hres : (T.rewind).2 = T := by simp [BridgeTree.rewind, hck]
    rw [hres]; exact hI
  | some c =>
    cases c with
    | empty =>
      by_cases hs : T.saved.isEmpty
      · have hres : (T.rewind).2 =
            { T with checkpoints := T.checkpoints.dropLast, bridges := [] } := by
          simp [BridgeTree.rewind, hck, hs]
        rw [hres]
        have hcps : T.checkpoints =
            T.checkpoints.dropLast ++ [Checkpoint.empty] :=
          (dropLast_append_of_getLast? hck).symm
        have hordfull : List.Chain' ckptOrdRel
            (T.checkpoints.dropLast ++ [Checkpoint.empty]) := by
          rw [← hcps]; exact hI.ckptOrd
        have hall := ckpt_allEmpty hordfull
        have hsv : T.saved = [] := by
          cases hsl : T.saved with
          | nil => rfl
          | cons a l => rw [hsl] at hs; cases hs
        refine ⟨List.chain'_nil, List.chain'_nil, List.chain'_nil, List.chain'_nil,
          ?_, ?_, ?_, ?_, ?_, ?_, ?_, ?_, ?_⟩
        · intro B hB; cases hB
        · intro j B hjB; cases hjB
        · intro p hp; rw [hsv] at hp; cases hp
        · intro p hp; rw [hsv] at hp; cases hp
        · intro p hp; rw [hsv] at hp; cases hp
        · intro j X Y Z hX; cases hX
        · intro _; exact hsv
        · exact (List.chain'_append.mp hordfull).1
        · intro c hc
          have := hall c hc
          subst this
          trivial
      · have hres : (T.rewind).2 =
            { T with checkpoints := T.checkpoints.dropLast ++ [Checkpoint.empty] } := by
          simp [BridgeTree.rewind, hck, hs]
        rw [hres, setCheckpoints_eq _ _ (dropLast_append_of_getLast? hck)]
        exact hI
    | atIndex i snap =>
      obtain ⟨hilt, hprior, hgoodsnap, hkeys, htriple, hpair⟩ :=
        hI.ckptOk _ (mem_of_get? (get?_of_getLast? hck))
      obtain ⟨bi, hbi⟩ : ∃ bi, T.bridges.get? i = some bi := by
        cases hgi : T.bridges.get? i with
        | none =>
          rw [List.get?_eq_none] at hgi
          omega
        | some b => exact ⟨b, rfl⟩
      have hpri : bi.priorPosition = snap.priorPosition := by
        rw [hbi] at hprior
        simp only [Option.map_some'] at hprior
        injection hprior with h2
      set guard := ((T.saved.any fun p => i < p.2) ||
        ((T.saved.any fun p => p.2 = i) &&
          !((T.bridges.get? i).map (fun b => b.frontier) = some snap.frontier)))
        with hguard_def
      by_cases hguard : guard = true
      · have hres : (T.rewind).2 =
            { T with checkpoints :=
                T.checkpoints.dropLast ++ [Checkpoint.atIndex i snap] } := by
          simp only [BridgeTree.rewind, hck, ← hguard_def, hguard, if_true]
        rw [hres, setCheckpoints_eq _ _ (dropLast_append_of_getLast? hck)]
        exact hI
      · have hgf : guard = false := by
          revert hguard; cases guard <;> simp
        have hga : ∀ p ∈ T.saved, p.2 ≤ i := by
          intro p hp
          rw [hguard_def, Bool.or_eq_false_iff] at hgf
          have h1 := List.any_eq_false.mp hgf.1 p hp
          simpa using h1
        have hfr_at_i : ∀ p ∈ T.saved, p.2 = i → bi.frontier = snap.frontier := by
          intro p hp hpe
          rw [hguard_def, Bool.or_eq_false_iff, Bool.and_eq_false_iff] at hgf
          rcases hgf.2 with h2 | h2
          · have := List.any_eq_false.mp h2 p hp
            simp [hpe] at this
          · rw [Bool.not_eq_false'] at h2
            have h3 := of_decide_eq_true h2
            rw [hbi] at h3
            simp only [Option.map_some'] at h3
            injection h3 with h4
        -- the common rewritten result pieces
        have htake : (T.bridges.take (i + 1)).set i snap =
            T.bridges.take i ++ [snap] := take_set_eq snap hilt
        have hgetprev_take : ∀ Y, (T.bridges.take (i + 1)).get? (i - 1) = some Y ↔
            T.bridges.get? (i - 1) = some Y := by
          intro Y
          rw [List.get?_take (by omega)]
        by_cases hcont : (alistLookup (T.saved.filter (fun p => p.2 ≤ i))
            snap.frontier.leafValue).isSome = true
        · -- re-witness: the snapshot's leaf is still saved
          set isDup := (decide (0 < i) &&
            (match (T.bridges.take (i + 1)).get? (i - 1) with
             | some prev => decide (snap.frontier = prev.frontier)
             | none => false)) with hdup_def
          by_cases hdup : isDup = true
          · -- duplicate: no successor push
            have hres : (T.rewind).2 =
                { T with checkpoints := T.checkpoints.dropLast,
                         bridges := (T.bridges.take (i + 1)).set i snap,
                         saved := T.saved.filter (fun p => p.2 ≤ i) } := by
              simp only [BridgeTree.rewind, hck, ← hguard_def, hgf,
                Bool.false_eq_true, if_false, hcont, if_true, ← hdup_def, hdup]
            rw [hres, htake]
            -- derive that no saved entry sits at the checkpoint index
            rw [hdup_def, Bool.and_eq_true] at hdup
            have h0i : 0 < i := of_decide_eq_true hdup.1
            obtain ⟨prev, hprev, hfrprev⟩ : ∃ prev,
                T.bridges.get? (i - 1) = some prev ∧
                  snap.frontier = prev.frontier := by
              rcases hmatch : (T.bridges.take (i + 1)).get? (i - 1) with _ | prev
              · rw [hmatch] at hdup
                cases hdup.2
              · rw [hmatch] at hdup
                refine ⟨prev, (hgetprev_take prev).mp hmatch, of_decide_eq_true hdup.2⟩
            refine inv_rewind_nopush hI hck hilt hbi hpri hgoodsnap hkeys htriple hpair ?_
            intro p hp hle hpe
            have hfe := hfr_at_i p hp hpe
            have := hI.savedSep p hp bi prev (by rw [hpe]; exact hbi)
              (by rw [hpe]; exact hprev) (by omega)
            rw [hfe, hfrprev] at this
            exact this rfl
          · -- not a duplicate: push the successor of the snapshot
            have hres : (T.rewind).2 =
                { T with checkpoints := T.checkpoints.dropLast,
                         bridges := (T.bridges.take (i + 1)).set i snap ++
                           [snap.successor i],
                         saved := T.saved.filter (fun p => p.2 ≤ i) } := by
              simp only [BridgeTree.rewind, hck, ← hguard_def, hgf,
                Bool.false_eq_true, if_false, hcont, if_true, ← hdup_def, hdup]
            rw [hres, htake]
            have hdupf : isDup = false := by
              revert hdup; cases isDup <;> simp
            refine inv_rewind_push hI hck hilt hbi hpri hgoodsnap hkeys htriple hpair
              (fun p hp hpe => hfr_at_i p hp hpe) ?_
            intro Y hY h1i
            rw [hdup_def, Bool.and_eq_false_iff] at hdupf
            rcases hdupf with h2 | h2
            · have := of_decide_eq_false h2
              omega
            · have hty : (T.bridges.take (i + 1)).get? (i - 1) = some Y :=
                (hgetprev_take Y).mpr hY
              rw [hty] at h2
              exact of_decide_eq_false h2
        · -- the snapshot's leaf is not saved: plain truncation
          have hcontf : (alistLookup (T.saved.filter (fun p => p.2 ≤ i))
              snap.frontier.leafValue).isSome = false := by
            revert hcont
            cases (alistLookup (T.saved.filter (fun p => p.2 ≤ i))
              snap.frontier.leafValue).isSome <;> simp
          have hres : (T.rewind).2 =
              { T with checkpoints := T.checkpoints.dropLast,
                       bridges := (T.bridges.take (i + 1)).set i snap,
                       saved := T.saved.filter (fun p => p.2 ≤ i) } := by
            simp only [BridgeTree.rewind, hck, ← hguard_def, hgf,
              Bool.false_eq_true, if_false, hcontf]
          rw [hres, htake]
          refine inv_rewind_nopush hI hck hilt hbi hpri hgoodsnap hkeys htriple hpair ?_
          intro p hp hle hpe
          -- an entry at the checkpoint index would make the lookup succeed
          have hfe := hfr_at_i p hp hpe
          have hleaf := hI.savedLeaf p hp
          rw [hpe, hbi] at hleaf
          simp only [Option.map_some'] at hleaf
          injection hleaf with hleaf2
          have hpl : p.1 = snap.frontier.leafValue := by
            rw [← hleaf2]
            unfold MerkleBridge.leafValue
            rw [hfe]
          have hpmem : (p.1, p.2) ∈ T.saved.filter (fun q => q.2 ≤ i) := by
            rw [List.mem_filter]
            constructor
            · simpa using hp
            · simpa using hle
          rw [hpl] at hpmem
          have := alistLookup_isSome_of_mem hpmem
          rw [hcontf] at this
          cases this

end InvPreservation

section EasyClaims

variable {H : Type}

/-- C10: `witness()` leaves `root()` unchanged: the successor bridge it may
push carries a clone of the current frontier, so the digest returned by
`root()` before and after `witness()` is the same. -/
theorem c10_witness_preserves_root [DecidableEq H] (hf : HashFn H) (DEPTH : Nat)
    (T : BridgeTree H) :
    ((T.witness).2).root hf DEPTH = T.root hf DEPTH := by
  cases hL : T.bridges.getLast? with
  | none => simp [BridgeTree.witness, hL]
  | some cur =>
    simp only [BridgeTree.witness, hL]
    cases hprev : T.bridges.dropLast.getLast? with
    | none =>
      simp only [hprev]
      simp [BridgeTree.root, List.getLast?_concat, hL, MerkleBridge.root,
        MerkleBridge.maxAlt, NonEmptyFrontier.maxAlt, MerkleBridge.successor]
    | some prev =>
      simp only [hprev]
      by_cases hfr : cur.frontier = prev.frontier
      · simp [hfr, BridgeTree.root, hL]
      · simp [BridgeTree.root, List.getLast?_concat, hL, MerkleBridge.root,
          MerkleBridge.maxAlt, NonEmptyFrontier.maxAlt, MerkleBridge.successor, hfr]

/-- C4: whenever `rewind()` returns `false` (no checkpoint, or the popped
checkpoint would destroy witness data), the tree state — bridges, saved
map, and the checkpoint stack with the popped checkpoint pushed back — is
exactly as before the call. -/
theorem c4_rewind_failure_atomic [DecidableEq H] (T : BridgeTree H)
    (h : (T.rewind).1 = false) : (T.rewind).2 = T := by
  unfold BridgeTree.rewind at h ⊢
  cases hL : T.checkpoints.getLast? with
  | none => simp [hL]
  | some c =>
    cases c with
    | empty =>
      simp only [hL] at h ⊢
      by_cases hs : T.saved.isEmpty
      · simp [hs] at h
      · simp only [hs, Bool.false_eq_true, if_false]
        exact setCheckpoints_eq _ _ (dropLast_append_of_getLast? hL)
    | atIndex i bridge =>
      simp only [hL] at h ⊢
      by_cases hg : ((T.saved.any fun p => i < p.2) ||
          ((T.saved.any fun p => p.2 = i) &&
            !((T.bridges.get? i).map (fun b => b.frontier) = some bridge.frontier))) = true
      · simp only [hg, if_true]
        exact setCheckpoints_eq _ _ (dropLast_append_of_getLast? hL)
      · rw [Bool.not_eq_true] at hg
        simp only [hg, Bool.false_eq_true, if_false] at h
        by_cases hc : (alistLookup (T.saved.filter (fun p => p.2 ≤ i))
            bridge.frontier.leafValue).isSome
        · simp only [hc, if_true] at h
          split at h <;> cases h
        · simp only [hc, Bool.false_eq_true, if_false] at h
          cases h

/-- Witness for C4 at a concrete input: a fresh tree has no checkpoint, so
`rewind` fails and leaves the state unchanged. -/
theorem c4_rewind_failure_atomic_witness :
    ((BridgeTree.new 3 : BridgeTree Nat).rewind).2 = BridgeTree.new 3 :=
  c4_rewind_failure_atomic (BridgeTree.new 3) (by decide)

/-- C5: appending to a saturated tree of depth `DEPTH` (last frontier
position with bits `0..DEPTH` all set, i.e. `2 ^ DEPTH` leaves present)
returns `false` and leaves the entire state unchanged, both for
`BridgeTree` and for `Frontier`; concretely, at depth 3 eight appends
succeed and the ninth returns `false` with the state unchanged. -/
theorem c5_saturation :
    (∀ {H0 : Type} (hf : HashFn H0) (DEPTH : Nat) (T : BridgeTree H0)
        (L : MerkleBridge H0) (v : H0),
      T.bridges.getLast? = some L → isComplete L.frontier.position DEPTH = true →
      BridgeTree.append hf DEPTH T v = (false, T)) ∧
    (∀ {H0 : Type} (hf : HashFn H0) (DEPTH : Nat) (F : Frontier H0)
        (f : NonEmptyFrontier H0) (v : H0),
      F.frontier = some f → isComplete f.position DEPTH = true →
      Frontier.append hf DEPTH F v = (false, F)) ∧
    (allAppendsOk [1, 2, 3, 4, 5, 6, 7, 8] = true ∧
      BridgeTree.append hfNat 3 exTreeFull3 9 = (false, exTreeFull3)) := by
  refine ⟨?_, ?_, by decide, by decide⟩
  · intro H0 hf DEPTH T L v hL hsat
    simp [BridgeTree.append, hL, hsat]
  · intro H0 hf DEPTH F f v hF hsat
    simp [Frontier.append, hF, hsat]

/-- Witness for C5 at a concrete input: the saturated depth-3 tree rejects
a ninth append. -/
theorem c5_saturation_witness :
    BridgeTree.append hfNat 3 exTreeFull3 10 = (false, exTreeFull3) :=
  c5_saturation.1 hfNat 3 exTreeFull3
    ((exTreeFull3.bridges.getLast?).getD (MerkleBridge.new 0)) 10
    (by decide) (by decide)

/-- C7 counterexample: `BridgeRecording::play` with a non-empty `self` and
an empty `other` copies `other`'s absent bridge into `self` and returns
`true` — a non-empty `self` IS emptied by `play`, contradicting the claim. -/
theorem c7_counterexample :
    (BridgeRecording.play
        ({ bridge := some (MerkleBridge.new 5) } : BridgeRecording Nat)
        { bridge := none }).1 = true ∧
    (BridgeRecording.play
        ({ bridge := some (MerkleBridge.new 5) } : BridgeRecording Nat)
        { bridge := none }).2.bridge = none ∧
    ({ bridge := some (MerkleBridge.new 5) } : BridgeRecording Nat).bridge ≠ none := by
  refine ⟨rfl, rfl, by decide⟩

/-- C7 as amended: if `self` holds no bridge, `play` copies `other`'s
bridge and returns `true`; if both hold bridges, `play` replaces `self`'s
bridge with their fusion and returns `true` when fusion succeeds, and
returns `false` leaving `self` unchanged when fusion fails; if `self`
holds a bridge and `other` does not, `play` empties `self` (copying
`other`'s absent bridge) and returns `true`. -/
theorem c7_play_characterization [DecidableEq H] (r other : BridgeRecording H) :
    (r.bridge = none → r.play other = (true, { bridge := other.bridge })) ∧
    (∀ cb ob, r.bridge = some cb → other.bridge = some ob →
      (∀ fused, cb.fuse ob = some fused →
        r.play other = (true, { bridge := some fused })) ∧
      (cb.fuse ob = none → r.play other = (false, r))) ∧
    (r.bridge ≠ none → other.bridge = none → r.play other = (true, { bridge := none })) := by
  refine ⟨?_, ?_, ?_⟩
  · intro h
    cases hr : r.bridge with
    | none => simp [BridgeRecording.play, hr]
    | some cb => rw [hr] at h; cases h
  · intro cb ob hr ho
    constructor
    · intro fused hfu
      simp [BridgeRecording.play, hr, ho, hfu]
    · intro hfu
      obtain ⟨rb⟩ := r
      simp only at hr
      subst hr
      simp [BridgeRecording.play, ho, hfu]
  · intro hr ho
    cases hb : r.bridge with
    | none => exact absurd hb hr
    | some cb => simp [BridgeRecording.play, hb, ho]

/-- Witness for C7 at a concrete input: playing a recording holding a
genesis bridge into an empty recording copies the bridge. -/
theorem c7_play_characterization_witness :
    BridgeRecording.play ({ bridge := none } : BridgeRecording Nat)
      { bridge := some (MerkleBridge.new 3) } =
      (true, { bridge := some (MerkleBridge.new 3) }) :=
  (c7_play_characterization { bridge := none }
    { bridge := some (MerkleBridge.new 3) }).1 rfl

/-- C8: on a non-empty tree, two `witness()` calls with no intervening
append both return `true`, the second call changes nothing (it detects the
duplicate frontier, inserts nothing into `saved` and pushes no bridge), and
in total at most one entry is added to `saved`. -/
theorem c8_witness_idempotent [DecidableEq H] (T : BridgeTree H)
    (h : T.bridges ≠ []) :
    (T.witness).1 = true ∧ ((T.witness).2.witness).1 = true ∧
    ((T.witness).2.witness).2 = (T.witness).2 ∧
    ((T.witness).2).saved.length ≤ T.saved.length + 1 := by
  cases hL : T.bridges.getLast? with
  | none => exact absurd (List.getLast?_eq_none_iff.mp hL) h
  | some cur =>
    cases hprev : T.bridges.dropLast.getLast? with
    | none =>
      -- no previous bridge: the first call pushes a successor
      have h1 : (T.witness).2 =
          { T with
            saved := alistOrInsert T.saved cur.leafValue (T.bridges.length - 1),
            bridges := T.bridges ++ [cur.successor (T.bridges.length - 1)] } := by
        simp [BridgeTree.witness, hL, hprev]
      have hw1 : (T.witness).1 = true := by simp [BridgeTree.witness, hL]
      refine ⟨hw1, ?_, ?_, ?_⟩
      · rw [h1]; simp [BridgeTree.witness, List.getLast?_concat]
      · rw [h1]
        simp only [BridgeTree.witness, List.getLast?_concat, List.dropLast_concat, hL,
          successor_frontier, successor_leafValue]
        simp [alistOrInsert_of_isSome _ (alistLookup_orInsert_isSome _ _ _)]
      · rw [h1]; exact alistOrInsert_length_le _ _ _
    | some prev =>
      by_cases hfr : cur.frontier = prev.frontier
      · -- duplicate frontier: the first call pushes nothing
        have h1 : (T.witness).2 =
            { T with
              saved := alistOrInsert T.saved cur.leafValue (T.bridges.length - 1 - 1) } := by
          simp [BridgeTree.witness, hL, hprev, hfr]
        have hw1 : (T.witness).1 = true := by simp [BridgeTree.witness, hL]
        refine ⟨hw1, ?_, ?_, ?_⟩
        · rw [h1]; simp [BridgeTree.witness, hL]
        · rw [h1]
          simp only [BridgeTree.witness, hL, hprev, hfr]
          simp [alistOrInsert_of_isSome _ (alistLookup_orInsert_isSome _ _ _)]
        · rw [h1]; exact alistOrInsert_length_le _ _ _
      · -- distinct frontiers: the first call pushes a successor
        have h1 : (T.witness).2 =
            { T with
              saved := alistOrInsert T.saved cur.leafValue (T.bridges.length - 1),
              bridges := T.bridges ++ [cur.successor (T.bridges.length - 1)] } := by
          simp [BridgeTree.witness, hL, hprev, hfr]
        have hw1 : (T.witness).1 = true := by simp [BridgeTree.witness, hL]
        refine ⟨hw1, ?_, ?_, ?_⟩
        · rw [h1]; simp [BridgeTree.witness, List.getLast?_concat]
        · rw [h1]
          simp only [BridgeTree.witness, List.getLast?_concat, List.dropLast_concat, hL,
            successor_frontier, successor_leafValue]
          simp [alistOrInsert_of_isSome _ (alistLookup_orInsert_isSome _ _ _)]
        · rw [h1]; exact alistOrInsert_length_le _ _ _

/-- Witness for C8 at a concrete input: double witness on a one-append
tree. -/
theorem c8_witness_idempotent_witness :
    ((((BridgeTree.new 10 : BridgeTree Nat).append hfNat 4 1).2.witness).1 = true ∧
      ((((BridgeTree.new 10 : BridgeTree Nat).append hfNat 4 1).2.witness).2.witness).1 = true ∧
      ((((BridgeTree.new 10 : BridgeTree Nat).append hfNat 4 1).2.witness).2.witness).2 =
        (((BridgeTree.new 10 : BridgeTree Nat).append hfNat 4 1).2.witness).2 ∧
      ((((BridgeTree.new 10 : BridgeTree Nat).append hfNat 4 1).2.witness).2).saved.length ≤
        (((BridgeTree.new 10 : BridgeTree Nat).append hfNat 4 1).2).saved.length + 1) :=
  c8_witness_idempotent _ (by decide)

/-- C2 counterexample: at depth 0, the reachable tree with one appended
and witnessed leaf yields an authentication path of length 1, not
`DEPTH = 0`. -/
theorem c2_counterexample :
    Reach hfNat 0 exTreeD0 ∧
    exTreeD0.authenticationPath hfNat 0 1 = some (0, [0]) ∧
    ([0] : List Nat).length ≠ 0 :=
  ⟨Reach.witness _ (Reach.append _ _ (Reach.new 10)), by decide, by decide⟩

/-- C3 counterexample: on the reachable state obtained by append 1,
witness, append 1 (the same value twice), a `checkpoint()` immediately
followed by `rewind()` — no operation at all in between — returns `true`
but grows `bridges` by a re-witnessing successor, so the rewound state does
not satisfy `S'.bridges == S.bridges`. -/
theorem c3_counterexample :
    Reach hfNat 4 exTreeDup ∧
    ((exTreeDup.checkpoint).rewind).1 = true ∧
    ((exTreeDup.checkpoint).rewind).2.bridges ≠ exTreeDup.bridges :=
  ⟨Reach.append _ _ (Reach.witness _ (Reach.append _ _ (Reach.new 10))),
    by decide, by decide⟩

/-- C6 counterexample: `play` with a reachable recording that holds a
genesis bridge (prior position `none`) overwrites the terminal bridge of a
two-bridge reachable tree, leaving adjacent bridges `X, Y` with
`Y.priorPosition = none ≠ some X.frontier.position`. -/
theorem c6_counterexample :
    ReachP hfNat 4 exTreePlayed ∧
    ¬ List.Chain' (fun X Y => Y.priorPosition = some X.frontier.position)
        exTreePlayed.bridges :=
  ⟨ReachP.play _ _ (ReachP.witness _ (ReachP.append _ _ (ReachP.new 10)))
      (ReachRec.append _ _ (ReachRec.ofTree _ (ReachP.new 10))),
    by
      intro h
      have hsh : exTreePlayed.bridges =
          [exTreePlayed.bridges.getD 0 (MerkleBridge.new 0),
            exTreePlayed.bridges.getD 1 (MerkleBridge.new 0)] := by decide
      rw [hsh, List.chain'_pair] at h
      exact absurd h (by decide)⟩

end EasyClaims

section ReachClaims

variable {H : Type}

theorem reach_inv [DecidableEq H] {hf : HashFn H} {DEPTH : Nat} {T : BridgeTree H}
    (h : Reach hf DEPTH T) : Inv DEPTH T := by
  induction h with
  | new m => exact inv_new DEPTH m
  | append T v _ ih => exact inv_append hf v ih
  | witness T _ ih => exact inv_witness ih
  | removeWitness T v _ ih => exact inv_removeWitness v ih
  | checkpoint T _ ih => exact inv_checkpoint ih
  | rewind T _ ih => exact inv_rewind ih

/-- C6 as amended: the bridge-chain invariant
`Y.priorPosition = some X.frontier.position` for adjacent bridges holds in
every state reachable by `append`, `witness`, `remove_witness`,
`checkpoint` and `rewind` (`recording` does not mutate the tree); `play`
is excluded, since playing a reachable recording whose bridge has
`prior_position = None` overwrites the terminal bridge and breaks the
chain. -/
theorem c6_bridge_chain [DecidableEq H] (hf : HashFn H) (DEPTH : Nat)
    (T : BridgeTree H) (h : Reach hf DEPTH T) :
    List.Chain' chainRel T.bridges :=
  (reach_inv h).chain

/-- Witness for C6 at a concrete input. -/
theorem c6_bridge_chain_witness : List.Chain' chainRel exTree1.bridges :=
  c6_bridge_chain hfNat 4 exTree1
    (Reach.witness _ (Reach.append _ _ (Reach.new 10)))

theorem checkpoint_bridges (T : BridgeTree H) :
    (T.checkpoint).bridges = T.bridges := by
  unfold BridgeTree.checkpoint BridgeTree.dropOldestCheckpoint
  split <;> (dsimp only; split <;> (try split) <;> rfl)

theorem checkpoint_saved (T : BridgeTree H) : (T.checkpoint).saved = T.saved := by
  unfold BridgeTree.checkpoint BridgeTree.dropOldestCheckpoint
  split <;> (dsimp only; split <;> (try split) <;> rfl)

theorem getLast?_drop_one_concat {a : Checkpoint H} {l : List (Checkpoint H)}
    (h : l ≠ []) : ((l ++ [a]).drop 1).getLast? = some a := by
  cases l with
  | nil => exact absurd rfl h
  | cons x tl =>
    rw [List.cons_append, List.drop_one, List.tail_cons, List.getLast?_concat]

theorem checkpoint_top (T : BridgeTree H) (hmc : 1 ≤ T.maxCheckpoints) :
    (T.checkpoint).checkpoints.getLast? =
      some (match T.bridges.getLast? with
            | none => Checkpoint.empty
            | some last => Checkpoint.atIndex (T.bridges.length - 1) last) := by
  cases hL : T.bridges.getLast? with
  | none =>
    unfold BridgeTree.checkpoint
    simp only [hL]
    by_cases hc : T.maxCheckpoints < (T.checkpoints ++ [Checkpoint.empty]).length
    · rw [if_pos hc]
      unfold BridgeTree.dropOldestCheckpoint
      have hne : (T.checkpoints ++ [Checkpoint.empty]).isEmpty = false := by
        cases T.checkpoints <;> rfl
      simp only [hne, Bool.false_eq_true, if_false]
      refine getLast?_drop_one_concat ?_
      intro habs
      rw [habs] at hc
      simp at hc
      omega
    · rw [if_neg hc]
      exact List.getLast?_concat _
  | some L =>
    unfold BridgeTree.checkpoint
    simp only [hL]
    by_cases hc : T.maxCheckpoints <
        (T.checkpoints ++ [Checkpoint.atIndex (T.bridges.length - 1) L]).length
    · rw [if_pos hc]
      unfold BridgeTree.dropOldestCheckpoint
      have hne : (T.checkpoints ++
          [Checkpoint.atIndex (T.bridges.length - 1) L]).isEmpty = false := by
        cases T.checkpoints <;> rfl
      simp only [hne, Bool.false_eq_true, if_false]
      refine getLast?_drop_one_concat ?_
      intro habs
      rw [habs] at hc
      simp at hc
      omega
    · rw [if_neg hc]
      exact List.getLast?_concat _

theorem append_fields (hf : HashFn H) (DEPTH : Nat) (T : BridgeTree H) (v : H) :
    ((T.append hf DEPTH v).2.saved = T.saved ∧
      (T.append hf DEPTH v).2.checkpoints = T.checkpoints) ∧
    (T.append hf DEPTH v).2.maxCheckpoints = T.maxCheckpoints := by
  unfold BridgeTree.append
  split
  · split <;> exact ⟨⟨rfl, rfl⟩, rfl⟩
  · exact ⟨⟨rfl, rfl⟩, rfl⟩

theorem appendAll_fields (hf : HashFn H) (DEPTH : Nat) (vs : List H) :
    ∀ (T : BridgeTree H),
      (appendAll hf DEPTH T vs).saved = T.saved ∧
      (appendAll hf DEPTH T vs).checkpoints = T.checkpoints := by
  induction vs with
  | nil => intro T; exact ⟨rfl, rfl⟩
  | cons v tl ih =>
    intro T
    unfold appendAll
    rw [List.foldl_cons]
    have h1 := (append_fields hf DEPTH T v).1
    have h2 := ih (T.append hf DEPTH v).2
    unfold appendAll at h2
    rw [h2.1, h2.2, h1.1, h1.2]
    exact ⟨rfl, rfl⟩

theorem appendAll_bridges_shape (hf : HashFn H) (DEPTH : Nat) (vs : List H) :
    ∀ (init : List (MerkleBridge H)) (L : MerkleBridge H) (T : BridgeTree H),
      T.bridges = init ++ [L] →
      ∃ L2, (appendAll hf DEPTH T vs).bridges = init ++ [L2] := by
  induction vs with
  | nil => intro init L T h; exact ⟨L, h⟩
  | cons v tl ih =>
    intro init L T h
    unfold appendAll
    rw [List.foldl_cons]
    have hL : T.bridges.getLast? = some L := by rw [h, List.getLast?_concat]
    by_cases hsat : isComplete L.frontier.position DEPTH = true
    · have hres : (T.append hf DEPTH v).2 = T := by
        simp [BridgeTree.append, hL, hsat]
      rw [hres]
      exact ih init L T h
    · have hres : (T.append hf DEPTH v).2 =
          { T with bridges := T.bridges.dropLast ++ [L.append hf v] } := by
        simp [BridgeTree.append, hL, hsat]
      rw [hres]
      refine ih init (L.append hf v) _ ?_
      simp only
      rw [h, List.dropLast_concat]

theorem root_eq_of_last_frontier (hf : HashFn H) (DEPTH : Nat)
    {T1 T2 : BridgeTree H} {B1 B2 : MerkleBridge H}
    (h1 : T1.bridges.getLast? = some B1) (h2 : T2.bridges.getLast? = some B2)
    (hfr : B1.frontier = B2.frontier) :
    T1.root hf DEPTH = T2.root hf DEPTH := by
  unfold BridgeTree.root
  rw [h1, h2]
  dsimp only
  unfold MerkleBridge.root MerkleBridge.maxAlt NonEmptyFrontier.maxAlt
  rw [hfr]

theorem root_congr_bridges (hf : HashFn H) (DEPTH : Nat) {T1 T2 : BridgeTree H}
    (h : T1.bridges = T2.bridges) : T1.root hf DEPTH = T2.root hf DEPTH := by
  unfold BridgeTree.root
  rw [h]

/-- C3 as amended: on a reachable tree with `max_checkpoints ≥ 1`, a
`checkpoint()` followed by any sequence of appends (and pure queries) and
then `rewind()` returns `true` and restores the root; the bridge list is
restored exactly, except that when the leaf value of the last bridge is
itself witnessed in `saved` the rewound list may carry one extra
re-witnessing successor of the restored last bridge. -/
theorem c3_checkpoint_rewind [DecidableEq H] (hf : HashFn H) (DEPTH : Nat)
    (T : BridgeTree H) (vs : List H) (hmc : 1 ≤ T.maxCheckpoints)
    (hr : Reach hf DEPTH T) :
    ((appendAll hf DEPTH T.checkpoint vs).rewind).1 = true ∧
    ((appendAll hf DEPTH T.checkpoint vs).rewind).2.root hf DEPTH =
      T.root hf DEPTH ∧
    (((appendAll hf DEPTH T.checkpoint vs).rewind).2.bridges = T.bridges ∨
      ∃ L, T.bridges.getLast? = some L ∧
        ((appendAll hf DEPTH T.checkpoint vs).rewind).2.bridges =
          T.bridges ++ [L.successor (T.bridges.length - 1)]) := by
  have hI := reach_inv hr
  set T3 := appendAll hf DEPTH T.checkpoint vs with hT3
  have hfields := appendAll_fields hf DEPTH vs T.checkpoint
  have hsaved3 : T3.saved = T.saved := by
    rw [← hT3] at hfields
    rw [hfields.1, checkpoint_saved]
  have htop : T3.checkpoints.getLast? =
      some (match T.bridges.getLast? with
            | none => Checkpoint.empty
            | some last => Checkpoint.atIndex (T.bridges.length - 1) last) := by
    rw [← hT3] at hfields
    rw [hfields.2]
    exact checkpoint_top T hmc
  cases hL : T.bridges.getLast? with
  | none =>
    have hbs : T.bridges = [] := List.getLast?_eq_none_iff.mp hL
    have hsv : T.saved = [] := hI.emptySaved hbs
    rw [hL] at htop
    dsimp only at htop
    have hse : T3.saved.isEmpty = true := by
      rw [hsaved3, hsv]; rfl
    have hres : T3.rewind =
        (true, { T3 with checkpoints := T3.checkpoints.dropLast, bridges := [] }) := by
      simp [BridgeTree.rewind, htop, hse]
    rw [hres]
    refine ⟨rfl, ?_, ?_⟩
    · unfold BridgeTree.root
      rw [hbs]
    · left
      rw [hbs]
  | some L =>
    set n := T.bridges.length with hn
    have heq : T.bridges = T.bridges.dropLast ++ [L] :=
      (dropLast_append_of_getLast? hL).symm
    have hinitlen : T.bridges.dropLast.length = n - 1 := by
      rw [List.length_dropLast]
    have hn1 : 1 ≤ n := by
      have := get?_some_lt_length (get?_of_getLast? hL)
      omega
    rw [hL] at htop
    dsimp only at htop
    obtain ⟨L2, hbr3⟩ : ∃ L2, T3.bridges = T.bridges.dropLast ++ [L2] := by
      rw [hT3]
      exact appendAll_bridges_shape hf DEPTH vs T.bridges.dropLast L T.checkpoint
        (by rw [checkpoint_bridges]; exact heq)
    have hlen3 : T3.bridges.length = n := by
      rw [hbr3]
      simp only [List.length_append, List.length_singleton]
      omega
    -- the guard of rewind is false: all saved indices are at most n - 2
    have hga : (T3.saved.any fun p => n - 1 < p.2) = false := by
      rw [List.any_eq_false]
      intro p hp
      rw [hsaved3] at hp
      have := hI.savedIdx p hp
      simp only [decide_eq_true_eq]
      omega
    have hgb : (T3.saved.any fun p => p.2 = n - 1) = false := by
      rw [List.any_eq_false]
      intro p hp
      rw [hsaved3] at hp
      have := hI.savedIdx p hp
      simp only [decide_eq_true_eq]
      omega
    have hguard : ((T3.saved.any fun p => n - 1 < p.2) ||
        ((T3.saved.any fun p => p.2 = n - 1) &&
          !((T3.bridges.get? (n - 1)).map (fun b => b.frontier) =
            some L.frontier))) = false := by
      rw [hga, hgb]
      rfl
    -- truncation and re-installation restore the original bridge list
    have htake : (T3.bridges.take (n - 1 + 1)).set (n - 1) L = T.bridges := by
      have hfull : T3.bridges.take (n - 1 + 1) = T3.bridges := by
        have hlenle : T3.bridges.length ≤ n - 1 + 1 := by omega
        exact List.take_of_length_le hlenle
      rw [hfull, hbr3, set_concat_eq _ _ _ _ hinitlen.symm]
      exact heq.symm
    have hfilter : T3.saved.filter (fun p => p.2 ≤ n - 1) = T3.saved := by
      rw [List.filter_eq_self]
      intro p hp
      rw [hsaved3] at hp
      have := hI.savedIdx p hp
      simp only [decide_eq_true_eq]
      omega
    by_cases hcont : (alistLookup (T3.saved.filter (fun p => p.2 ≤ n - 1))
        L.frontier.leafValue).isSome = true
    · set isDup := (decide (0 < n - 1) &&
        (match (T3.bridges.take (n - 1 + 1)).get? (n - 1 - 1) with
         | some prev => decide (L.frontier = prev.frontier)
         | none => false)) with hdup_def
      by_cases hdup : isDup = true
      · have hres : T3.rewind =
            (true, { T3 with
                     checkpoints := T3.checkpoints.dropLast,
                     bridges := (T3.bridges.take (n - 1 + 1)).set (n - 1) L,
                     saved := T3.saved.filter (fun p => p.2 ≤ n - 1) }) := by
          simp only [BridgeTree.rewind, htop, hguard, Bool.false_eq_true, if_false,
            hcont, if_true, ← hdup_def, hdup]
        rw [hres]
        refine ⟨rfl, ?_, Or.inl htake⟩
        exact root_congr_bridges hf DEPTH htake
      · have hres : T3.rewind =
            (true, { T3 with
                     checkpoints := T3.checkpoints.dropLast,
                     bridges := (T3.bridges.take (n - 1 + 1)).set (n - 1) L ++
                       [L.successor (n - 1)],
                     saved := T3.saved.filter (fun p => p.2 ≤ n - 1) }) := by
          simp only [BridgeTree.rewind, htop, hguard, Bool.false_eq_true, if_false,
            hcont, if_true, ← hdup_def, hdup]
        rw [hres]
        have hlast : ((T3.bridges.take (n - 1 + 1)).set (n - 1) L ++
            [L.successor (n - 1)]).getLast? = some (L.successor (n - 1)) :=
          List.getLast?_concat _
        refine ⟨rfl, ?_, Or.inr ⟨L, rfl, ?_⟩⟩
        · exact root_eq_of_last_frontier hf DEPTH hlast hL rfl
        · show (T3.bridges.take (n - 1 + 1)).set (n - 1) L ++
            [L.successor (n - 1)] = T.bridges ++ [L.successor (n - 1)]
          rw [htake]
    · have hcontf : (alistLookup (T3.saved.filter (fun p => p.2 ≤ n - 1))
          L.frontier.leafValue).isSome = false := by
        revert hcont
        cases (alistLookup (T3.saved.filter (fun p => p.2 ≤ n - 1))
          L.frontier.leafValue).isSome <;> simp
      have hres : T3.rewind =
          (true, { T3 with
                   checkpoints := T3.checkpoints.dropLast,
                   bridges := (T3.bridges.take (n - 1 + 1)).set (n - 1) L,
                   saved := T3.saved.filter (fun p => p.2 ≤ n - 1) }) := by
        simp only [BridgeTree.rewind, htop, hguard, Bool.false_eq_true, if_false,
          hcontf]
      rw [hres]
      refine ⟨rfl, ?_, Or.inl htake⟩
      exact root_congr_bridges hf DEPTH htake

/-- Witness for C3-amended at a concrete input. -/
theorem c3_checkpoint_rewind_witness :
    ((appendAll hfNat 4 exTree1.checkpoint [2, 3]).rewind).1 = true ∧
    ((appendAll hfNat 4 exTree1.checkpoint [2, 3]).rewind).2.root hfNat 4 =
      exTree1.root hfNat 4 ∧
    (((appendAll hfNat 4 exTree1.checkpoint [2, 3]).rewind).2.bridges =
        exTree1.bridges ∨
      ∃ L, exTree1.bridges.getLast? = some L ∧
        ((appendAll hfNat 4 exTree1.checkpoint [2, 3]).rewind).2.bridges =
          exTree1.bridges ++ [L.successor (exTree1.bridges.length - 1)]) :=
  c3_checkpoint_rewind hfNat 4 exTree1 [2, 3] (by decide)
    (Reach.witness _ (Reach.append _ _ (Reach.new 10)))

end ReachClaims

section PathLength

variable {H : Type}

theorem padStep_length (hf : HashFn H) (st : List H × List H) (x : Nat) :
    ((padStep hf st x).1).length = st.1.length + 1 := by
  unfold padStep
  rcases st with ⟨s1, s2⟩
  cases s2 <;> simp

theorem foldl_padStep_length (hf : HashFn H) :
    ∀ (l : List Nat) (st : List H × List H),
      ((l.foldl (padStep hf) st).1).length = st.1.length + l.length := by
  intro l
  induction l with
  | nil => intro st; rfl
  | cons x tl ih =>
    intro st
    rw [List.foldl_cons, ih, padStep_length, List.length_cons]
    omega

theorem ommerStep_length (hf : HashFn H) (st : List H × List H) (ol : H × Nat) :
    ((ommerStep hf st ol).1).length = max st.1.length ol.2 + 1 := by
  unfold ommerStep
  dsimp only
  rw [List.length_append, foldl_padStep_length, List.length_range',
    List.length_singleton]
  omega

theorem foldl_ommerStep_le (hf : HashFn H) (DEPTH : Nat) :
    ∀ (l : List (H × Nat)) (st : List H × List H) (c : Nat),
      st.1.length = c + 1 → List.Chain (· < ·) c (l.map Prod.snd) →
      (∀ a ∈ l.map Prod.snd, a < DEPTH) → c < DEPTH →
      ((l.foldl (ommerStep hf) st).1).length ≤ DEPTH := by
  intro l
  induction l with
  | nil =>
    intro st c hlen _ _ hc
    rw [List.foldl_nil, hlen]
    omega
  | cons ol tl ih =>
    intro st c hlen hchain hmem hc
    rw [List.map_cons] at hchain hmem
    have hca : c < ol.2 := (List.chain_cons.mp hchain).1
    have hchain2 := (List.chain_cons.mp hchain).2
    have ha : ol.2 < DEPTH := hmem _ (List.mem_cons_self _ _)
    rw [List.foldl_cons]
    refine ih _ ol.2 ?_ hchain2 (fun a hx => hmem a (List.mem_cons_of_mem _ hx)) ha
    rw [ommerStep_length, hlen]
    omega

theorem pathStart_length (hf : HashFn H) (leaf : Leaf H) (av : List H) :
    ((pathStart hf leaf av).1).length = 0 + 1 := by
  unfold pathStart
  cases leaf with
  | left a => cases av <;> rfl
  | right a b => rfl

theorem ommerAltitudes_pairwise (p : Nat) :
    List.Pairwise (· < ·) (ommerAltitudes p) :=
  (List.pairwise_lt_range _).filter _

theorem ommerAltitudes_pos {p a : Nat} (h : a ∈ ommerAltitudes p) : 0 < a := by
  unfold ommerAltitudes at h
  have h2 := List.of_mem_filter h
  simp only [Bool.and_eq_true, decide_eq_true_eq, ne_eq] at h2
  omega

theorem ommerAltitudes_lt {DEPTH p a : Nat} (hp : p < 2 ^ DEPTH)
    (h : a ∈ ommerAltitudes p) : a < DEPTH := by
  have hbit : p.testBit a = true := by
    have h2 := List.of_mem_filter h
    simp only [Bool.and_eq_true, decide_eq_true_eq, ne_eq] at h2
    exact h2.2
  by_contra hge
  push_neg at hge
  have hlt : p < 2 ^ a := lt_of_lt_of_le hp (Nat.pow_le_pow_right (by omega) hge)
  rw [Nat.testBit_lt_two_pow hlt] at hbit
  cases hbit

theorem map_snd_zip_sublist : ∀ (l1 : List H) (l2 : List Nat),
    ((l1.zip l2).map Prod.snd).Sublist l2 := by
  intro l1
  induction l1 with
  | nil => intro l2; simp
  | cons x tl ih =>
    intro l2
    cases l2 with
    | nil => simp
    | cons y tl2 => simpa using List.Sublist.cons₂ y (ih tl2)

theorem zipOmmer_chain (l1 : List H) (p : Nat) :
    List.Chain (· < ·) 0 ((l1.zip (ommerAltitudes p)).map Prod.snd) := by
  rw [List.chain_iff_pairwise]
  refine List.Pairwise.cons ?_ ?_
  · intro a ha
    exact ommerAltitudes_pos ((map_snd_zip_sublist l1 _).subset ha)
  · exact List.Pairwise.sublist (map_snd_zip_sublist l1 _) (ommerAltitudes_pairwise p)

theorem buildAuthPath_length (hf : HashFn H) (DEPTH : Nat)
    (fr : NonEmptyFrontier H) (av : List H) (hD : 1 ≤ DEPTH)
    (hp : fr.position < 2 ^ DEPTH) :
    (buildAuthPath hf DEPTH fr av).length = DEPTH := by
  unfold buildAuthPath
  dsimp only
  rw [foldl_padStep_length, List.length_range']
  have hle : (((fr.ommers.zip (ommerAltitudes fr.position)).foldl (ommerStep hf)
      (pathStart hf fr.leaf av)).1).length ≤ DEPTH := by
    refine foldl_ommerStep_le hf DEPTH _ _ 0 (pathStart_length hf fr.leaf av)
      (zipOmmer_chain fr.ommers fr.position) ?_ hD
    intro a ha
    exact ommerAltitudes_lt hp ((map_snd_zip_sublist fr.ommers _).subset ha)
  omega

theorem authPath_length [DecidableEq H] (hf : HashFn H) (DEPTH : Nat)
    (T : BridgeTree H) (v : H) (pp : Nat) (path : List H) (hD : 1 ≤ DEPTH)
    (hgood : ∀ B ∈ T.bridges, goodBridge DEPTH B)
    (h : T.authenticationPath hf DEPTH v = some (pp, path)) :
    path.length = DEPTH := by
  unfold BridgeTree.authenticationPath at h
  cases hidx : alistLookup T.saved v with
  | none =>
    rw [hidx] at h
    dsimp only [Option.bind] at h
    cases h
  | some idx =>
    rw [hidx] at h
    dsimp only [Option.bind] at h
    cases hb : T.bridges.get? idx with
    | none =>
      rw [hb] at h
      dsimp only [Option.map, Option.bind] at h
      cases h
    | some b =>
      rw [hb] at h
      dsimp only [Option.map, Option.bind] at h
      cases hfu : MerkleBridge.fuseAll (T.bridges.drop (idx + 1)) with
      | none =>
        rw [hfu] at h
        dsimp only [Option.map] at h
        cases h
      | some fused =>
        rw [hfu] at h
        dsimp only [Option.map] at h
        rw [Option.some.injEq, Prod.mk.injEq] at h
        rw [← h.2]
        exact buildAuthPath_length hf DEPTH b.frontier _ hD
          (hgood b (mem_of_get? hb)).2.1

/-- C2 as amended: for every `DEPTH ≥ 1`, every reachable `BridgeTree` of
depth `DEPTH` and every value `v`, whenever `authentication_path(v)` returns
`Some((p, path))` the vector `path` has length exactly `DEPTH` (for
`DEPTH = 0` the returned path has length 1, refuting the unconditional
claim; the padding with empty roots is part of the construction proved
here). -/
theorem c2_path_length [DecidableEq H] (hf : HashFn H) (DEPTH : Nat)
    (T : BridgeTree H) (v : H) (pp : Nat) (path : List H) (hD : 1 ≤ DEPTH)
    (hreach : Reach hf DEPTH T)
    (h : T.authenticationPath hf DEPTH v = some (pp, path)) :
    path.length = DEPTH :=
  authPath_length hf DEPTH T v pp path hD (reach_inv hreach).good h

/-- Witness for C2-amended at a concrete input. -/
theorem c2_path_length_witness :
    1 ≤ 4 ∧
    (((exTree1.authenticationPath hfNat 4 1).map Prod.snd).getD []).length = 4 :=
  ⟨by decide,
    c2_path_length hfNat 4 exTree1 1
      (((exTree1.authenticationPath hfNat 4 1).map Prod.fst).getD 0)
      (((exTree1.authenticationPath hfNat 4 1).map Prod.snd).getD [])
      (by decide)
      (Reach.witness _ (Reach.append _ _ (Reach.new 10)))
      (by decide)⟩

end PathLength

section FuseAll

variable {H : Type}

theorem fragFuse_some (ext fn : AuthFragment H)
    (hp : ext.position = fn.position)
    (ha : ext.altitudesObserved + fn.values.length = fn.altitudesObserved) :
    ext.fuse fn = some {
      position := ext.position,
      altitudesObserved := fn.altitudesObserved,
      values := ext.values ++ fn.values } := by
  unfold AuthFragment.fuse
  rw [if_pos ⟨hp, ha⟩]

theorem fuseFragments_sound :
    ∀ (fa fb : List (Nat × AuthFragment H)),
      (∀ p ∈ fa, ∃ fn, alistLookup fb p.1 = some fn ∧
        p.2.position = fn.position ∧
        p.2.altitudesObserved + fn.values.length = fn.altitudesObserved) →
      ∃ r, MerkleBridge.fuseFragments fa fb = some r ∧
        ∀ q ∈ r, ∃ fn, alistLookup fb q.1 = some fn ∧
          q.2.position = fn.position ∧
          q.2.altitudesObserved = fn.altitudesObserved := by
  intro fa
  induction fa with
  | nil =>
    intro fb _
    exact ⟨[], rfl, fun q hq => absurd hq (List.not_mem_nil q)⟩
  | cons p rest ih =>
    intro fb hall
    obtain ⟨k, ext⟩ := p
    obtain ⟨fn, hfn, hpos, halt⟩ := hall (k, ext) (List.mem_cons_self _ _)
    obtain ⟨r, hr, hchar⟩ := ih fb (fun q hq => hall q (List.mem_cons_of_mem _ hq))
    refine ⟨(k, {
      position := ext.position,
      altitudesObserved := fn.altitudesObserved,
      values := ext.values ++ fn.values }) :: r, ?_, ?_⟩
    · unfold MerkleBridge.fuseFragments
      rw [hfn]
      dsimp only
      rw [fragFuse_some ext fn hpos halt]
      dsimp only
      rw [hr]
      rfl
    · intro q hq
      rcases List.mem_cons.mp hq with h | h
      · subst h
        exact ⟨fn, hfn, hpos, rfl⟩
      · exact hchar q h

theorem accMatches_refl (B : MerkleBridge H)
    (hn : (B.authFragments.map Prod.fst).Nodup) : accMatches B B := by
  refine ⟨rfl, ?_⟩
  intro p hp
  obtain ⟨k, v⟩ := p
  exact ⟨v, alistLookup_eq_some_of_mem_nodup hn hp, rfl, rfl⟩

theorem fuse_sound (b next acc : MerkleBridge H)
    (hm : accMatches acc b) (hch : chainRel b next)
    (hco : fragCoherent b next) (hkm : fragKeysMono b next) :
    ∃ acc2, acc.fuse next = some acc2 ∧ accMatches acc2 next := by
  have hcf : next.canFollow acc = true := by
    have hch2 : next.priorPosition = some b.frontier.position := hch
    simp [MerkleBridge.canFollow, hch2, hm.1]
  have hhyp : ∀ p ∈ acc.authFragments, ∃ fn,
      alistLookup next.authFragments p.1 = some fn ∧
      p.2.position = fn.position ∧
      p.2.altitudesObserved + fn.values.length = fn.altitudesObserved := by
    intro p hp
    obtain ⟨fb, hfb, hpos, halt⟩ := hm.2 p hp
    have hsome : (alistLookup next.authFragments p.1).isSome :=
      hkm p.1 (by rw [hfb]; rfl)
    obtain ⟨fn, hfn⟩ := Option.isSome_iff_exists.mp hsome
    obtain ⟨h1, h2⟩ := hco p.1 fb fn hfb hfn
    exact ⟨fn, hfn, hpos.trans h1, by omega⟩
  obtain ⟨r, hr, hchar⟩ := fuseFragments_sound acc.authFragments next.authFragments hhyp
  refine ⟨{
    priorPosition := acc.priorPosition,
    authFragments := r,
    frontier := next.frontier }, ?_, rfl, hchar⟩
  unfold MerkleBridge.fuse
  rw [if_pos hcf, hr]
  rfl

theorem foldFuse_sound :
    ∀ (rest : List (MerkleBridge H)) (B acc : MerkleBridge H),
      accMatches acc B →
      List.Chain chainRel B rest → List.Chain fragCoherent B rest →
      List.Chain fragKeysMono B rest →
      ∃ acc2,
        rest.foldl (fun a b => a.bind (fun x => x.fuse b)) (some acc) = some acc2 ∧
        accMatches acc2 (rest.getLastD B) := by
  intro rest
  induction rest with
  | nil =>
    intro B acc hm _ _ _
    exact ⟨acc, rfl, hm⟩
  | cons nx tl ih =>
    intro B acc hm hch hco hkm
    obtain ⟨acc2, hf, hm2⟩ := fuse_sound B nx acc hm (List.chain_cons.mp hch).1
      (List.chain_cons.mp hco).1 (List.chain_cons.mp hkm).1
    obtain ⟨acc3, hf3, hm3⟩ := ih nx acc2 hm2 (List.chain_cons.mp hch).2
      (List.chain_cons.mp hco).2 (List.chain_cons.mp hkm).2
    have hb : Option.bind (some acc) (fun x => x.fuse nx) = some acc2 := hf
    refine ⟨acc3, ?_, ?_⟩
    · rw [List.foldl_cons, hb]
      exact hf3
    · rw [List.getLastD_cons]
      exact hm3

theorem fuseAll_isSome (l : List (MerkleBridge H)) (hne : l ≠ [])
    (hch : List.Chain' chainRel l) (hco : List.Chain' fragCoherent l)
    (hkm : List.Chain' fragKeysMono l)
    (hnodup : ∀ B ∈ l, (B.authFragments.map Prod.fst).Nodup) :
    ∃ fused, MerkleBridge.fuseAll l = some fused := by
  cases l with
  | nil => exact absurd rfl hne
  | cons first rest =>
    obtain ⟨acc2, hf, _⟩ := foldFuse_sound rest first first
      (accMatches_refl first (hnodup first (List.mem_cons_self _ _)))
      hch hco hkm
    exact ⟨acc2, hf⟩

/-- C9: in every `BridgeTree` state reachable by append, witness,
remove_witness, checkpoint and rewind, every index `idx` stored in the
saved map satisfies `idx + 1 < bridges.len()`, and `authentication_path`
returns `Some` for every key of the saved map. -/
theorem c9_witnessed_bridge_invariant [DecidableEq H] (hf : HashFn H)
    (DEPTH : Nat) (T : BridgeTree H) (hreach : Reach hf DEPTH T) :
    (∀ p ∈ T.saved, p.2 + 1 < T.bridges.length) ∧
    (∀ p ∈ T.saved, (T.authenticationPath hf DEPTH p.1).isSome = true) := by
  have hinv := reach_inv hreach
  refine ⟨hinv.savedIdx, ?_⟩
  intro p hp
  have hsome : (alistLookup T.saved p.1).isSome := by
    obtain ⟨k, v⟩ := p
    exact alistLookup_isSome_of_mem hp
  obtain ⟨idx, hidx⟩ := Option.isSome_iff_exists.mp hsome
  have hmem : (p.1, idx) ∈ T.saved := mem_of_alistLookup hidx
  have hlt : idx + 1 < T.bridges.length := hinv.savedIdx (p.1, idx) hmem
  have hb : T.bridges.get? idx = some (T.bridges.get ⟨idx, by omega⟩) :=
    List.get?_eq_get (by omega)
  have hdropne : T.bridges.drop (idx + 1) ≠ [] := by
    intro hcon
    have hlen := congrArg List.length hcon
    rw [List.length_drop] at hlen
    simp only [List.length_nil] at hlen
    omega
  obtain ⟨fused, hfu⟩ := fuseAll_isSome (T.bridges.drop (idx + 1)) hdropne
    (List.Chain'.suffix hinv.chain (List.drop_suffix _ _))
    (List.Chain'.suffix hinv.coherent (List.drop_suffix _ _))
    (List.Chain'.suffix hinv.keysMono (List.drop_suffix _ _))
    (fun B hB => (hinv.good B (List.mem_of_mem_drop hB)).2.2)
  unfold BridgeTree.authenticationPath
  rw [hidx]
  dsimp only [Option.bind]
  rw [hb]
  dsimp only [Option.map, Option.bind]
  rw [hfu]
  rfl

/-- Witness for C9 at a concrete input. -/
theorem c9_witnessed_bridge_invariant_witness :
    0 + 1 < exTree1.bridges.length ∧
    (exTree1.authenticationPath hfNat 4 1).isSome = true :=
  ⟨(c9_witnessed_bridge_invariant hfNat 4 exTree1
      (Reach.witness _ (Reach.append _ _ (Reach.new 10)))).1
      ((1 : Nat), (0 : Nat)) (by decide),
    (c9_witnessed_bridge_invariant hfNat 4 exTree1
      (Reach.witness _ (Reach.append _ _ (Reach.new 10)))).2
      ((1 : Nat), (0 : Nat)) (by decide)⟩

end FuseAll

section C1Semantics

variable {H : Type}

theorem lt_div_succ_mul (a b : Nat) (hb : 0 < b) : a < (a / b + 1) * b := by
  have h2 := Nat.div_add_mod a b
  have h1 := Nat.mod_lt a hb
  have h3 : (a / b + 1) * b = b * (a / b) + b := by ring
  omega

theorem div_pow_succ (p a : Nat) : p / 2 ^ a / 2 = p / 2 ^ (a + 1) := by
  rw [Nat.div_div_eq_div_mul, Nat.pow_succ]

theorem div_pow_even {p a : Nat} (h : p.testBit a = false) :
    p / 2 ^ a = 2 * (p / 2 ^ (a + 1)) := by
  have hb := Nat.testBit_to_div_mod (x := p) (i := a)
  rw [h] at hb
  have hm : p / 2 ^ a % 2 = 0 := by
    rcases Nat.mod_two_eq_zero_or_one (p / 2 ^ a) with h0 | h1
    · exact h0
    · rw [h1] at hb; simp at hb
  have hd := Nat.div_add_mod (p / 2 ^ a) 2
  rw [div_pow_succ] at hd
  omega

theorem div_pow_odd {p a : Nat} (h : p.testBit a = true) :
    p / 2 ^ a = 2 * (p / 2 ^ (a + 1)) + 1 := by
  have hb := Nat.testBit_to_div_mod (x := p) (i := a)
  rw [h] at hb
  have hm : p / 2 ^ a % 2 = 1 := by
    rcases Nat.mod_two_eq_zero_or_one (p / 2 ^ a) with h0 | h1
    · rw [h0] at hb; simp at hb
    · exact h1
  have hd := Nat.div_add_mod (p / 2 ^ a) 2
  rw [div_pow_succ] at hd
  omega

theorem nodeHash_succ (hf : HashFn H) (l : List H) (a i : Nat) :
    nodeHash hf l (a + 1) i =
      if l.length ≤ 2 ^ (a + 1) * i then hf.emptyRoot (a + 1)
      else hf.combine a (nodeHash hf l a (2 * i)) (nodeHash hf l a (2 * i + 1)) := rfl

theorem nodeHash_empty0 (hf : HashFn H) (l : List H) {i : Nat}
    (h : l.length ≤ i) : nodeHash hf l 0 i = hf.emptyLeaf := by
  unfold nodeHash
  rw [List.get?_eq_none.mpr h]
  rfl

theorem nodeHash_emptyS (hf : HashFn H) (l : List H) {a i : Nat}
    (h : l.length ≤ 2 ^ (a + 1) * i) :
    nodeHash hf l (a + 1) i = hf.emptyRoot (a + 1) := by
  rw [nodeHash_succ, if_pos h]

theorem nodeHash_combine (hf : HashFn H) (l : List H) {a i : Nat}
    (h : 2 ^ (a + 1) * i < l.length) :
    nodeHash hf l (a + 1) i =
      hf.combine a (nodeHash hf l a (2 * i)) (nodeHash hf l a (2 * i + 1)) := by
  rw [nodeHash_succ, if_neg (by omega)]

theorem nodeHash_extend (hf : HashFn H) (l l2 : List H) :
    ∀ (a i : Nat), (i + 1) * 2 ^ a ≤ l.length →
      nodeHash hf (l ++ l2) a i = nodeHash hf l a i := by
  intro a
  induction a with
  | zero =>
    intro i h
    unfold nodeHash
    rw [List.get?_append (by simpa using h)]
  | succ a ih =>
    intro i h
    have hne : 2 ^ (a + 1) * i < l.length := by
      have := lt_div_succ_mul (2 ^ (a + 1) * i) 1 (by omega)
      calc 2 ^ (a + 1) * i < (i + 1) * 2 ^ (a + 1) := by
            have hp : 0 < 2 ^ (a + 1) := Nat.pos_pow_of_pos _ (by omega)
            nlinarith
        _ ≤ l.length := h
    have hne2 : 2 ^ (a + 1) * i < (l ++ l2).length := by
      rw [List.length_append]; omega
    rw [nodeHash_combine hf _ hne2, nodeHash_combine hf _ hne]
    rw [ih (2 * i) (by rw [Nat.pow_succ] at h; nlinarith),
      ih (2 * i + 1) (by rw [Nat.pow_succ] at h; nlinarith)]

theorem nodeHash_step_set (hf : HashFn H) (l : List H) {p c : Nat}
    (hp : p < l.length) (hbit : p.testBit c = true) :
    hf.combine c (nodeHash hf l c (p / 2 ^ c - 1)) (nodeHash hf l c (p / 2 ^ c)) =
      nodeHash hf l (c + 1) (p / 2 ^ (c + 1)) := by
  have hodd := div_pow_odd hbit
  have hne : 2 ^ (c + 1) * (p / 2 ^ (c + 1)) < l.length := by
    have h1 : 2 ^ (c + 1) * (p / 2 ^ (c + 1)) ≤ p := by
      rw [Nat.mul_comm]
      exact Nat.div_mul_le_self p (2 ^ (c + 1))
    omega
  rw [nodeHash_combine hf _ hne]
  have h2 : 2 * (p / 2 ^ (c + 1)) = p / 2 ^ c - 1 := by omega
  rw [h2]
  have h4 : p / 2 ^ c - 1 + 1 = p / 2 ^ c := by omega
  rw [h4]

theorem nodeHash_step_clear (hf : HashFn H) (l : List H) {p c : Nat}
    (hp : p < l.length) (hbit : p.testBit c = false) :
    hf.combine c (nodeHash hf l c (p / 2 ^ c)) (nodeHash hf l c (p / 2 ^ c + 1)) =
      nodeHash hf l (c + 1) (p / 2 ^ (c + 1)) := by
  have heven := div_pow_even hbit
  have hne : 2 ^ (c + 1) * (p / 2 ^ (c + 1)) < l.length := by
    have h1 : 2 ^ (c + 1) * (p / 2 ^ (c + 1)) ≤ p := by
      rw [Nat.mul_comm]
      exact Nat.div_mul_le_self p (2 ^ (c + 1))
    omega
  rw [nodeHash_combine hf _ hne]
  have h2 : 2 * (p / 2 ^ (c + 1)) = p / 2 ^ c := by omega
  rw [h2]

theorem sibling_empty (hf : HashFn H) (l : List H) {p c : Nat}
    (hc : 1 ≤ c) (hlen : l.length ≤ 2 ^ c * (p / 2 ^ c + 1)) :
    nodeHash hf l c (p / 2 ^ c + 1) = hf.emptyRoot c := by
  obtain ⟨c2, rfl⟩ : ∃ c2, c = c2 + 1 := ⟨c - 1, by omega⟩
  exact nodeHash_emptyS hf l hlen

theorem nodeHash_step_pad (hf : HashFn H) (l : List H) {p c : Nat}
    (hc : 1 ≤ c) (hp : p < l.length) (hbit : p.testBit c = false)
    (hlen : l.length ≤ 2 ^ c * (p / 2 ^ c + 1)) :
    hf.combine c (nodeHash hf l c (p / 2 ^ c)) (hf.emptyRoot c) =
      nodeHash hf l (c + 1) (p / 2 ^ (c + 1)) := by
  rw [← sibling_empty hf l hc hlen]
  exact nodeHash_step_clear hf l hp hbit

theorem filter_range_eq (P : Nat → Bool) :
    ∀ (n m : Nat), m ≤ n → (∀ i, P i = true ↔ i < m) →
      (List.range n).filter P = List.range m := by
  intro n
  induction n with
  | zero =>
    intro m hm _
    have : m = 0 := by omega
    subst this
    rfl
  | succ n ih =>
    intro m hm hiff
    by_cases hcase : m = n + 1
    · subst hcase
      exact List.filter_eq_self.mpr
        (fun a ha => (hiff a).mpr (List.mem_range.mp ha))
    · have hm2 : m ≤ n := by omega
      rw [List.range_succ, List.filter_append, ih m hm2 hiff]
      have hPn : P n = false := by
        cases hPn : P n
        · rfl
        · exact absurd ((hiff n).mp hPn) (by omega)
      simp [hPn]

theorem maxAltitude_eq_log2 {p : Nat} (hp : 1 ≤ p) (h64 : p < 2 ^ 64) :
    maxAltitude p = Nat.log2 p := by
  unfold maxAltitude
  rw [if_neg (by omega)]
  rw [filter_range_eq _ 64 (Nat.log2 p + 1) ?_ ?_]
  · rw [List.length_range]
    omega
  · have := (Nat.log2_lt (by omega)).mpr h64
    omega
  · intro i
    simp only [decide_eq_true_eq]
    rw [← Nat.le_log2 (by omega)]
    omega

theorem mem_ommerAltitudes {p a : Nat} (h64 : p < 2 ^ 64) :
    a ∈ ommerAltitudes p ↔ (a ≠ 0 ∧ p.testBit a = true) := by
  unfold ommerAltitudes
  rw [List.mem_filter, List.mem_range]
  constructor
  · rintro ⟨_, hpred⟩
    simp only [Bool.and_eq_true, decide_eq_true_eq, ne_eq] at hpred
    exact hpred
  · rintro ⟨h0, hbit⟩
    have h2a : 2 ^ a ≤ p := Nat.testBit_implies_ge hbit
    have hp1 : 1 ≤ p := by
      have := Nat.two_pow_pos a
      omega
    refine ⟨?_, by simp [h0, hbit]⟩
    rw [maxAltitude_eq_log2 hp1 h64]
    have := (Nat.le_log2 (by omega)).mpr h2a
    omega

theorem mem_allAltitudesRequired {pa r : Nat} :
    r ∈ allAltitudesRequired pa ↔
      (r < 64 ∧ (pa = 0 ∨ pa.testBit r = false)) := by
  unfold allAltitudesRequired
  rw [List.mem_filter, List.mem_range]
  constructor
  · rintro ⟨hr, hpred⟩
    simp only [Bool.or_eq_true, decide_eq_true_eq, Bool.not_eq_true'] at hpred
    exact ⟨hr, hpred⟩
  · rintro ⟨hr, hpred⟩
    refine ⟨hr, ?_⟩
    simp only [Bool.or_eq_true, decide_eq_true_eq, Bool.not_eq_true']
    exact hpred

theorem allAltitudesRequired_pairwise (pa : Nat) :
    List.Pairwise (· < ·) (allAltitudesRequired pa) :=
  (List.pairwise_lt_range _).filter _

theorem foldUp_climb (hf : HashFn H) (l : List H) (p : Nat)
    (hlen : l.length = p + 1) :
    ∀ (k c : Nat), 1 ≤ c →
      (∀ x, c ≤ x → x < c + k → p.testBit x = false) →
      NonEmptyFrontier.foldUp hf (nodeHash hf l c (p / 2 ^ c)) c (c + k) =
        nodeHash hf l (c + k) (p / 2 ^ (c + k)) := by
  intro k
  induction k with
  | zero =>
    intro c hc _
    unfold NonEmptyFrontier.foldUp
    rw [show c + 0 - c = 0 from by omega]
    rfl
  | succ k ih =>
    intro c hc hbits
    have hck : c + (k + 1) = c + 1 + k := by omega
    rw [hck]
    unfold NonEmptyFrontier.foldUp
    rw [show c + 1 + k - c = k + 1 from by omega, List.range'_succ c k 1,
      List.foldl_cons]
    have hstep : hf.combine c (nodeHash hf l c (p / 2 ^ c)) (hf.emptyRoot c) =
        nodeHash hf l (c + 1) (p / 2 ^ (c + 1)) := by
      refine nodeHash_step_pad hf l hc (by omega)
        (hbits c (le_refl c) (by omega)) ?_
      have := lt_div_succ_mul p (2 ^ c) (Nat.two_pow_pos c)
      have hcm : (p / 2 ^ c + 1) * 2 ^ c = 2 ^ c * (p / 2 ^ c + 1) := by ring
      omega
    rw [hstep]
    have hih := ih (c + 1) (by omega) (fun x hx1 hx2 => hbits x (by omega) (by omega))
    unfold NonEmptyFrontier.foldUp at hih
    rw [show c + 1 + k - (c + 1) = k from by omega] at hih
    exact hih

theorem zip_map_self {f : Nat → H} : ∀ (l1 l2 : List Nat),
    ((l1.map f).zip (l1 ++ l2)) = l1.map (fun a => (f a, a)) := by
  intro l1
  induction l1 with
  | nil => intro l2; rfl
  | cons x tl ih =>
    intro l2
    simp only [List.map_cons, List.cons_append, List.zip_cons_cons, ih l2]

theorem isComplete_iff {p σ : Nat} :
    isComplete p σ = true ↔ ∀ x, x < σ → p.testBit x = true := by
  unfold isComplete
  rw [List.all_eq_true]
  constructor
  · intro h x hx
    exact h x (List.mem_range.mpr hx)
  · intro h x hx
    exact h x (List.mem_range.mp hx)

theorem testBit_log2 {p : Nat} (hp : 1 ≤ p) : p.testBit (Nat.log2 p) = true := by
  have h1 : 2 ^ Nat.log2 p ≤ p := Nat.log2_self_le (by omega)
  have h2 : p < 2 ^ (Nat.log2 p + 1) := by
    rw [← Nat.log2_lt (by omega)]
    omega
  have hd1 : 1 ≤ p / 2 ^ Nat.log2 p := by
    rw [Nat.le_div_iff_mul_le (Nat.two_pow_pos _)]
    omega
  have hd2 : p / 2 ^ Nat.log2 p < 2 := by
    rw [Nat.div_lt_iff_lt_mul (Nat.two_pow_pos _)]
    rw [Nat.pow_succ] at h2
    omega
  have heq : p / 2 ^ Nat.log2 p = 1 := by omega
  rw [Nat.testBit_to_div_mod, heq]
  rfl

theorem getLastD_of_sorted_max : ∀ {l : List Nat} {M : Nat} (d : Nat),
    List.Pairwise (· < ·) l → M ∈ l → (∀ y ∈ l, y ≤ M) → l.getLastD d = M := by
  intro l
  induction l with
  | nil => intro M d _ hM _; cases hM
  | cons x tl ih =>
    intro M d hpw hM hub
    cases tl with
    | nil =>
      have : M = x := by
        rcases List.mem_cons.mp hM with h | h
        · exact h
        · cases h
      rw [this]
      rfl
    | cons y tl2 =>
      rw [List.getLastD_cons]
      refine ih x (List.pairwise_cons.mp hpw).2 ?_
        (fun z hz => hub z (List.mem_cons_of_mem _ hz))
      rcases List.mem_cons.mp hM with rfl | h
      · exfalso
        have hxy : M < y :=
          (List.pairwise_cons.mp hpw).1 y (List.mem_cons_self _ _)
        have := hub y (List.mem_cons_of_mem _ (List.mem_cons_self _ _))
        omega
      · exact h

theorem ommerAltitudes_small {p : Nat} (hp : p ≤ 1) : ommerAltitudes p = [] := by
  match p, hp with
  | 0, _ => rfl
  | 1, _ => rfl

theorem ommerAltitudes_getLastD {p : Nat} (h64 : p < 2 ^ 64) (hp2 : 2 ≤ p) :
    (ommerAltitudes p).getLastD 0 = maxAltitude p := by
  have hp1 : 1 ≤ p := by omega
  have hmax1 : 1 ≤ maxAltitude p := by
    rw [maxAltitude_eq_log2 hp1 h64]
    have := (Nat.le_log2 (by omega)).mpr (show 2 ^ 1 ≤ p by omega)
    omega
  refine getLastD_of_sorted_max 0 (ommerAltitudes_pairwise p) ?_ ?_
  · rw [mem_ommerAltitudes h64]
    refine ⟨by omega, ?_⟩
    rw [maxAltitude_eq_log2 hp1 h64]
    exact testBit_log2 hp1
  · intro y hy
    unfold ommerAltitudes at hy
    have := List.mem_range.mp (List.mem_filter.mp hy).1
    omega

theorem foldUp_self (hf : HashFn H) (d : H) (c : Nat) :
    NonEmptyFrontier.foldUp hf d c c = d := by
  unfold NonEmptyFrontier.foldUp
  rw [Nat.sub_self]
  rfl

theorem seed_eq (hf : HashFn H) (l : List H) (p : Nat) (hlen : l.length = p + 1) :
    (match (frontierFor hf l p).leaf with
      | Leaf.left a => hf.combine 0 a hf.emptyLeaf
      | Leaf.right a b => hf.combine 0 a b) = nodeHash hf l 1 (p / 2) := by
  have hne : 2 ^ 1 * (p / 2) < l.length := by
    have : 2 * (p / 2) ≤ p := by omega
    simpa using by omega
  rw [show (1 : Nat) = 0 + 1 from rfl, nodeHash_combine hf l hne]
  unfold frontierFor
  rcases Nat.even_or_odd p with he | ho
  · have hp2 : p % 2 = 0 := Nat.even_iff.mp he
    rw [if_pos hp2]
    have h1 : 2 * (p / 2) = p := by omega
    dsimp only
    rw [h1]
    unfold nodeHash
    rw [show l.get? (p + 1) = none from List.get?_eq_none.mpr (by omega)]
    rfl
  · have hp2 : p % 2 = 1 := Nat.odd_iff.mp ho
    rw [if_neg (by omega)]
    have h1 : 2 * (p / 2) = p - 1 := by omega
    dsimp only
    rw [h1, show p - 1 + 1 = p from by omega]
    rfl

theorem innerRootLoop_some_spec (hf : HashFn H) (l : List H) (p : Nat)
    (hlen : l.length = p + 1) (R : Nat) (hR : 1 ≤ R) :
    ∀ (alts : List Nat) (c : Nat), 1 ≤ c → c ≤ R →
      (∀ x, c ≤ x → x < R → (p.testBit x = true ↔ x ∈ alts)) →
      List.Pairwise (· < ·) ((c - 1) :: alts) →
      NonEmptyFrontier.foldUp hf
        (NonEmptyFrontier.innerRootLoop hf (some R)
          (alts.map (fun a => (nodeHash hf l a (p / 2 ^ a - 1), a)))
          (nodeHash hf l c (p / 2 ^ c)) c).1
        (NonEmptyFrontier.innerRootLoop hf (some R)
          (alts.map (fun a => (nodeHash hf l a (p / 2 ^ a - 1), a)))
          (nodeHash hf l c (p / 2 ^ c)) c).2 R
      = nodeHash hf l R (p / 2 ^ R) := by
  intro alts
  induction alts with
  | nil =>
    intro c hc hcR hbits _
    show NonEmptyFrontier.foldUp hf (nodeHash hf l c (p / 2 ^ c)) c R = _
    rw [show R = c + (R - c) from by omega]
    refine foldUp_climb hf l p hlen (R - c) c hc ?_
    intro x hx1 hx2
    cases hbt : p.testBit x
    · rfl
    · exact absurd ((hbits x hx1 (by omega)).mp hbt) (List.not_mem_nil x)
  | cons a rest ih =>
    intro c hc hcR hbits hpw
    have hca : c - 1 < a := (List.pairwise_cons.mp hpw).1 a (List.mem_cons_self _ _)
    have hpw2 := (List.pairwise_cons.mp hpw).2
    have hrest_gt : ∀ y ∈ rest, a < y := (List.pairwise_cons.mp hpw2).1
    rw [List.map_cons]
    unfold NonEmptyFrontier.innerRootLoop
    dsimp only [Option.any]
    by_cases hstop : R = c ∨ R ≤ a
    · rw [if_pos (by
        rcases hstop with h | h
        · simp [h]
        · simp only [Bool.or_eq_true, decide_eq_true_eq]
          right
          omega)]
      show NonEmptyFrontier.foldUp hf (nodeHash hf l c (p / 2 ^ c)) c R = _
      rw [show R = c + (R - c) from by omega]
      refine foldUp_climb hf l p hlen (R - c) c hc ?_
      intro x hx1 hx2
      rcases hstop with h | h
      · exact absurd hx2 (by omega)
      · cases hbt : p.testBit x
        · rfl
        · exfalso
          have hx3 : x < R := by omega
          rcases List.mem_cons.mp ((hbits x hx1 hx3).mp hbt) with rfl | hmem
          · omega
          · have := hrest_gt x hmem
            omega
    · push_neg at hstop
      rw [if_neg (by
        simp only [Bool.or_eq_true, decide_eq_true_eq]
        push_neg
        exact ⟨hstop.1, by omega⟩)]
      have hcla : c ≤ a := by omega
      have haR : a < R := by omega
      have hclimb : NonEmptyFrontier.foldUp hf (nodeHash hf l c (p / 2 ^ c)) c a
          = nodeHash hf l a (p / 2 ^ a) := by
        rw [show a = c + (a - c) from by omega]
        refine foldUp_climb hf l p hlen (a - c) c hc ?_
        intro x hx1 hx2
        cases hbt : p.testBit x
        · rfl
        · exfalso
          rcases List.mem_cons.mp ((hbits x hx1 (by omega)).mp hbt) with rfl | hmem
          · omega
          · have := hrest_gt x hmem
            omega
      have hbita : p.testBit a = true :=
        (hbits a hcla haR).mpr (List.mem_cons_self _ _)
      have hcomb : hf.combine a (nodeHash hf l a (p / 2 ^ a - 1))
          (nodeHash hf l a (p / 2 ^ a)) = nodeHash hf l (a + 1) (p / 2 ^ (a + 1)) :=
        nodeHash_step_set hf l (by omega) hbita
      rw [hclimb, hcomb]
      refine ih (a + 1) (by omega) (by omega) ?_ ?_
      · intro x hx1 hx2
        rw [hbits x (by omega) hx2]
        constructor
        · intro hmem
          rcases List.mem_cons.mp hmem with rfl | h
          · omega
          · exact h
        · intro h
          exact List.mem_cons_of_mem _ h
      · rw [show a + 1 - 1 = a from by omega]
        exact hpw2

theorem innerRootLoop_none_spec (hf : HashFn H) (l : List H) (p : Nat)
    (hlen : l.length = p + 1) :
    ∀ (alts : List Nat) (c : Nat), 1 ≤ c →
      (∀ x, c ≤ x → (p.testBit x = true ↔ x ∈ alts)) →
      List.Pairwise (· < ·) ((c - 1) :: alts) →
      NonEmptyFrontier.innerRootLoop hf none
        (alts.map (fun a => (nodeHash hf l a (p / 2 ^ a - 1), a)))
        (nodeHash hf l c (p / 2 ^ c)) c
      = (nodeHash hf l (alts.getLastD (c - 1) + 1)
          (p / 2 ^ (alts.getLastD (c - 1) + 1)),
         alts.getLastD (c - 1) + 1) := by
  intro alts
  induction alts with
  | nil =>
    intro c hc _ _
    show (nodeHash hf l c (p / 2 ^ c), c) = _
    rw [show [].getLastD (c - 1) + 1 = c from by simp; omega]
  | cons a rest ih =>
    intro c hc hbits hpw
    have hca : c - 1 < a := (List.pairwise_cons.mp hpw).1 a (List.mem_cons_self _ _)
    have hpw2 := (List.pairwise_cons.mp hpw).2
    have hrest_gt : ∀ y ∈ rest, a < y := (List.pairwise_cons.mp hpw2).1
    have hcla : c ≤ a := by omega
    rw [List.map_cons]
    unfold NonEmptyFrontier.innerRootLoop
    dsimp only [Option.any]
    rw [if_neg (by simp)]
    have hclimb : NonEmptyFrontier.foldUp hf (nodeHash hf l c (p / 2 ^ c)) c a
        = nodeHash hf l a (p / 2 ^ a) := by
      rw [show a = c + (a - c) from by omega]
      refine foldUp_climb hf l p hlen (a - c) c hc ?_
      intro x hx1 hx2
      cases hbt : p.testBit x
      · rfl
      · exfalso
        rcases List.mem_cons.mp ((hbits x hx1).mp hbt) with rfl | hmem
        · omega
        · have := hrest_gt x hmem
          omega
    have hbita : p.testBit a = true := (hbits a hcla).mpr (List.mem_cons_self _ _)
    have hcomb : hf.combine a (nodeHash hf l a (p / 2 ^ a - 1))
        (nodeHash hf l a (p / 2 ^ a)) = nodeHash hf l (a + 1) (p / 2 ^ (a + 1)) :=
      nodeHash_step_set hf l (by omega) hbita
    rw [hclimb, hcomb]
    have hih := ih (a + 1) (by omega) ?_ ?_
    · rw [hih, List.getLastD_cons]
      rw [show a + 1 - 1 = a from by omega]
    · intro x hx1
      rw [hbits x (by omega)]
      constructor
      · intro hmem
        rcases List.mem_cons.mp hmem with rfl | h
        · omega
        · exact h
      · intro h
        exact List.mem_cons_of_mem _ h
    · rw [show a + 1 - 1 = a from by omega]
      exact hpw2

theorem zip_map_getLast {f : Nat → H} (l : List Nat) (a : Nat)
    (h : l.getLast? = some a) :
    ((l.dropLast.map f).zip l) = l.dropLast.map (fun x => (f x, x)) := by
  obtain ⟨l2, hl2⟩ : ∃ l2, l.dropLast = l2 := ⟨_, rfl⟩
  rw [hl2, ← dropLast_append_of_getLast? h, hl2]
  exact zip_map_self l2 [a]

theorem zip_map_full {f : Nat → H} (l : List Nat) :
    ((l.map f).zip l) = l.map (fun x => (f x, x)) := by
  have h := zip_map_self (f := f) l []
  rwa [List.append_nil] at h

theorem pairwise0_ommerAltitudes (p : Nat) :
    List.Pairwise (· < ·) (0 :: ommerAltitudes p) :=
  List.Pairwise.cons (fun a ha => ommerAltitudes_pos ha) (ommerAltitudes_pairwise p)

theorem maxAltitude_small : maxAltitude 0 = 0 ∧ maxAltitude 1 = 0 := by
  constructor <;> decide

theorem ommerAltitudes_getLast? {p : Nat} (h64 : p < 2 ^ 64) (hp2 : 2 ≤ p) :
    (ommerAltitudes p).getLast? = some (maxAltitude p) := by
  have hp1 : 1 ≤ p := by omega
  have hmem : maxAltitude p ∈ ommerAltitudes p := by
    rw [mem_ommerAltitudes h64, maxAltitude_eq_log2 hp1 h64]
    refine ⟨?_, testBit_log2 hp1⟩
    have := (Nat.le_log2 (by omega)).mpr (show 2 ^ 1 ≤ p by omega)
    omega
  have h1 : (ommerAltitudes p).getLastD 0 = maxAltitude p :=
    ommerAltitudes_getLastD h64 hp2
  rw [List.getLastD_eq_getLast?] at h1
  have hmax1 : 1 ≤ maxAltitude p := by
    rw [maxAltitude_eq_log2 hp1 h64]
    have := (Nat.le_log2 (by omega)).mpr (show 2 ^ 1 ≤ p by omega)
    omega
  cases hg : (ommerAltitudes p).getLast? with
  | none =>
    exfalso
    rw [hg] at h1
    simp only [Option.getD_none] at h1
    omega
  | some x =>
    rw [hg] at h1
    simp only [Option.getD_some] at h1
    rw [h1]

theorem frontierFor_leafValue (hf : HashFn H) (l : List H) (p : Nat) :
    (frontierFor hf l p).leafValue = (l.get? p).getD hf.emptyLeaf := by
  unfold NonEmptyFrontier.leafValue frontierFor
  by_cases h : p % 2 = 0
  · rw [if_pos h]
  · rw [if_neg h]

theorem innerRoot_dropLast_spec (hf : HashFn H) (l : List H) (p σ : Nat)
    (hlen : l.length = p + 1) (h64 : p < 2 ^ 64) (hσ : 1 ≤ σ)
    (hple : 2 ^ σ ≤ p) :
    NonEmptyFrontier.innerRoot hf p (frontierFor hf l p).leaf
      ((frontierFor hf l p).ommers.dropLast) (some σ)
      = nodeHash hf l σ (p / 2 ^ σ) := by
  have hp1 : 1 ≤ p := by
    have := Nat.two_pow_pos σ
    omega
  have hp2 : 2 ≤ p := by
    have h2 : (2 : Nat) ^ 1 ≤ 2 ^ σ := Nat.pow_le_pow_right (by omega) hσ
    have : (2 : Nat) ^ 1 = 2 := rfl
    omega
  have hmaxσ : σ ≤ maxAltitude p := by
    rw [maxAltitude_eq_log2 hp1 h64]
    exact (Nat.le_log2 (by omega)).mpr hple
  have hlast := ommerAltitudes_getLast? h64 hp2
  unfold NonEmptyFrontier.innerRoot
  have homm : (frontierFor hf l p).ommers
      = (ommerAltitudes p).map (fun a => nodeHash hf l a (p / 2 ^ a - 1)) := rfl
  rw [homm, ← List.map_dropLast, zip_map_getLast _ _ hlast, seed_eq hf l p hlen]
  dsimp only [Option.getD]
  refine innerRootLoop_some_spec hf l p hlen σ hσ (ommerAltitudes p).dropLast 1
    (by omega) hσ ?_ ?_
  · intro x hx1 hx2
    constructor
    · intro hbt
      have hxOA : x ∈ ommerAltitudes p := (mem_ommerAltitudes h64).mpr ⟨by omega, hbt⟩
      rw [← dropLast_append_of_getLast? hlast] at hxOA
      rcases List.mem_append.mp hxOA with h | h
      · exact h
      · exfalso
        have hxeq : x = maxAltitude p := by simpa using h
        omega
    · intro hmem
      have hx : x ∈ ommerAltitudes p := (List.dropLast_sublist _).subset hmem
      exact ((mem_ommerAltitudes h64).mp hx).2
  · show List.Pairwise (· < ·) ((1 - 1) :: (ommerAltitudes p).dropLast)
    have h0 := pairwise0_ommerAltitudes p
    exact List.Pairwise.sublist (List.Sublist.cons₂ _ (List.dropLast_sublist _)) h0

theorem innerRoot_none_spec (hf : HashFn H) (l : List H) (p : Nat)
    (hlen : l.length = p + 1) (h64 : p < 2 ^ 64) :
    NonEmptyFrontier.innerRoot hf p (frontierFor hf l p).leaf
      (frontierFor hf l p).ommers none
      = nodeHash hf l (maxAltitude p + 1) 0 := by
  have hb : ∀ x, 1 ≤ x → (p.testBit x = true ↔ x ∈ ommerAltitudes p) := by
    intro x hx1
    rw [mem_ommerAltitudes h64]
    constructor
    · intro hbt
      exact ⟨by omega, hbt⟩
    · intro hmem
      exact hmem.2
  have hpw : List.Pairwise (· < ·) ((1 - 1) :: ommerAltitudes p) :=
    pairwise0_ommerAltitudes p
  have hloop := innerRootLoop_none_spec hf l p hlen (ommerAltitudes p) 1
    (by omega) hb hpw
  unfold NonEmptyFrontier.innerRoot
  have homm : (frontierFor hf l p).ommers
      = (ommerAltitudes p).map (fun a => nodeHash hf l a (p / 2 ^ a - 1)) := rfl
  rw [homm, zip_map_full, seed_eq hf l p hlen]
  show NonEmptyFrontier.foldUp hf
      (NonEmptyFrontier.innerRootLoop hf none
        ((ommerAltitudes p).map (fun a => (nodeHash hf l a (p / 2 ^ a - 1), a)))
        (nodeHash hf l 1 (p / 2 ^ 1)) 1).1
      (NonEmptyFrontier.innerRootLoop hf none
        ((ommerAltitudes p).map (fun a => (nodeHash hf l a (p / 2 ^ a - 1), a)))
        (nodeHash hf l 1 (p / 2 ^ 1)) 1).2
      (Option.getD none
        (NonEmptyFrontier.innerRootLoop hf none
          ((ommerAltitudes p).map (fun a => (nodeHash hf l a (p / 2 ^ a - 1), a)))
          (nodeHash hf l 1 (p / 2 ^ 1)) 1).2)
      = nodeHash hf l (maxAltitude p + 1) 0
  rw [hloop]
  dsimp only [Option.getD]
  rw [foldUp_self]
  by_cases hp2 : 2 ≤ p
  · rw [show (ommerAltitudes p).getLastD (1 - 1) = maxAltitude p from
      ommerAltitudes_getLastD h64 hp2]
    have hplt : p < 2 ^ (maxAltitude p + 1) := by
      rw [maxAltitude_eq_log2 (by omega) h64]
      rw [← Nat.log2_lt (by omega)]
      omega
    rw [Nat.div_eq_of_lt hplt]
  · have hsm : ommerAltitudes p = [] := ommerAltitudes_small (by omega)
    rw [hsm]
    have hmax : maxAltitude p = 0 := by
      rcases (show p = 0 ∨ p = 1 from by omega) with h | h <;> rw [h]
      · exact maxAltitude_small.1
      · exact maxAltitude_small.2
    rw [hmax]
    rw [show ([] : List Nat).getLastD (1 - 1) + 1 = 0 + 1 from rfl]
    rw [Nat.div_eq_of_lt (by omega)]

theorem frontierFor_position (hf : HashFn H) (l : List H) (p : Nat) :
    (frontierFor hf l p).position = p := rfl

theorem frontierFor_witness0 (hf : HashFn H) (l : List H) (p : Nat)
    (hodd : p % 2 = 1) :
    (frontierFor hf l p).witness hf 0 = some ((l.get? p).getD hf.emptyLeaf) := by
  unfold NonEmptyFrontier.witness frontierFor
  rw [if_pos rfl]
  dsimp only
  rw [if_neg (by omega)]

theorem frontierFor_witnessS (hf : HashFn H) (l : List H) (p σ : Nat)
    (hlen : l.length = p + 1) (h64 : p < 2 ^ 64) (hσ : 1 ≤ σ)
    (hcomp : isComplete p σ = true) (hbit : p.testBit σ = true) :
    (frontierFor hf l p).witness hf σ = some (nodeHash hf l σ (p / 2 ^ σ)) := by
  unfold NonEmptyFrontier.witness
  rw [if_neg (by omega), frontierFor_position, if_pos hcomp]
  rw [innerRoot_dropLast_spec hf l p σ hlen h64 hσ (Nat.testBit_implies_ge hbit)]

theorem frontierFor_witness_silent (hf : HashFn H) (l : List H) (p σ : Nat)
    (hσ : 1 ≤ σ) (hncomp : isComplete p σ = false) :
    (frontierFor hf l p).witness hf σ = none := by
  unfold NonEmptyFrontier.witness
  rw [if_neg (by omega), frontierFor_position, if_neg (by rw [hncomp]; simp)]

theorem witnessIncomplete_zero (hf : HashFn H) (f : NonEmptyFrontier H) :
    f.witnessIncomplete hf 0 = none := by
  unfold NonEmptyFrontier.witnessIncomplete
  rw [if_pos (show isComplete f.position 0 = true from rfl)]

theorem frontierFor_witnessIncomplete_none (hf : HashFn H) (l : List H)
    (p σ : Nat) (hcomp : isComplete p σ = true) :
    (frontierFor hf l p).witnessIncomplete hf σ = none := by
  unfold NonEmptyFrontier.witnessIncomplete
  rw [frontierFor_position, if_pos hcomp]

theorem frontierFor_witnessIncompleteS (hf : HashFn H) (l : List H) (p σ : Nat)
    (hlen : l.length = p + 1) (h64 : p < 2 ^ 64) (hσ : 1 ≤ σ)
    (hncomp : isComplete p σ = false) (hple : 2 ^ σ ≤ p) :
    (frontierFor hf l p).witnessIncomplete hf σ
      = some (nodeHash hf l σ (p / 2 ^ σ)) := by
  unfold NonEmptyFrontier.witnessIncomplete
  rw [frontierFor_position, if_neg (by rw [hncomp]; simp), if_neg (by omega)]
  rw [innerRoot_dropLast_spec hf l p σ hlen h64 hσ hple]

theorem frontierFor_root (hf : HashFn H) (l : List H) (p : Nat)
    (hlen : l.length = p + 1) (h64 : p < 2 ^ 64) :
    NonEmptyFrontier.root hf (frontierFor hf l p)
      = nodeHash hf l (maxAltitude p + 1) 0 := by
  unfold NonEmptyFrontier.root
  exact innerRoot_none_spec hf l p hlen h64

theorem frontierFor_maxAlt (hf : HashFn H) (l : List H) (p : Nat) :
    (frontierFor hf l p).maxAlt = maxAltitude p := rfl

theorem testBit_div_pow (n i j : Nat) :
    (n / 2 ^ i).testBit j = n.testBit (i + j) := by
  rw [← Nat.shiftRight_eq_div_pow]
  exact Nat.testBit_shiftRight ..

theorem cpos_gt_self (pa r : Nat) : pa < cpos pa r := by
  unfold cpos
  have h := lt_div_succ_mul pa (2 ^ r) (Nat.two_pow_pos r)
  have hP := Nat.two_pow_pos r
  have h2 : (pa / 2 ^ r + 2) * 2 ^ r = (pa / 2 ^ r + 1) * 2 ^ r + 2 ^ r := by ring
  omega

theorem cpos_pos (pa r : Nat) : 1 ≤ cpos pa r := by
  have := cpos_gt_self pa r
  omega

theorem mod_two_pow_ge (A : Nat) (t : Nat) :
    ∀ (k : Nat), (∀ j, t ≤ j → j < k → A.testBit j = true) →
      2 ^ k - 2 ^ t ≤ A % 2 ^ k := by
  intro k
  induction k with
  | zero =>
    intro _
    have := Nat.two_pow_pos t
    simp only [Nat.pow_zero]
    omega
  | succ k ih =>
    intro hset
    by_cases hkt : k < t
    · have : 2 ^ (k + 1) ≤ 2 ^ t := Nat.pow_le_pow_right (by omega) (by omega)
      omega
    · have hbit : A.testBit k = true := hset k (by omega) (by omega)
      have hmod : A / 2 ^ k % 2 = 1 := by
        have hb := Nat.testBit_to_div_mod (x := A) (i := k)
        rw [hbit] at hb
        rcases Nat.mod_two_eq_zero_or_one (A / 2 ^ k) with h0 | h1
        · rw [h0] at hb; simp at hb
        · exact h1
      have hms : A % 2 ^ (k + 1) = A % 2 ^ k + 2 ^ k * (A / 2 ^ k % 2) :=
        Nat.mod_pow_succ
      rw [hmod] at hms
      have hih := ih (fun j hj1 hj2 => hset j hj1 (by omega))
      have hpp : (2:Nat) ^ (k + 1) = 2 ^ k * 2 := Nat.pow_succ ..
      omega

theorem mod_two_pow_full {A k : Nat} (hset : ∀ j, j < k → A.testBit j = true) :
    A % 2 ^ k = 2 ^ k - 1 := by
  have h1 := mod_two_pow_ge A 0 k (fun j _ hj => hset j hj)
  have h2 : A % 2 ^ k < 2 ^ k := Nat.mod_lt _ (Nat.two_pow_pos k)
  have : (2:Nat) ^ 0 = 1 := rfl
  omega

theorem mod_two_pow_even_max {A k : Nat} (hk : 1 ≤ k)
    (h0 : A.testBit 0 = false)
    (hset : ∀ j, 1 ≤ j → j < k → A.testBit j = true) :
    A % 2 ^ k = 2 ^ k - 2 := by
  have hge := mod_two_pow_ge A 1 k hset
  have hlt : A % 2 ^ k < 2 ^ k := Nat.mod_lt _ (Nat.two_pow_pos k)
  have heven : A % 2 = 0 := by
    have hb := Nat.testBit_to_div_mod (x := A) (i := 0)
    rw [h0] at hb
    simp only [Nat.pow_zero, Nat.div_one] at hb
    rcases Nat.mod_two_eq_zero_or_one A with hc | hc
    · exact hc
    · rw [hc] at hb; simp at hb
  have hmod2 : A % 2 ^ k % 2 = A % 2 := by
    rcases (show ∃ k2, k = k2 + 1 from ⟨k - 1, by omega⟩) with ⟨k2, rfl⟩
    have : (2:Nat) ^ (k2 + 1) = 2 * 2 ^ k2 := by
      rw [Nat.pow_succ]; ring
    rw [this, Nat.mod_mod_of_dvd A ⟨2 ^ k2, by ring⟩]
  have h2k : (2:Nat) ^ k % 2 = 0 := by
    rcases (show ∃ k2, k = k2 + 1 from ⟨k - 1, by omega⟩) with ⟨k2, rfl⟩
    rw [Nat.pow_succ]
    simp [Nat.mul_mod]
  have h21 : (2:Nat) ^ 1 = 2 := rfl
  omega

theorem cpos_le_start {pa r1 r2 : Nat} (h12 : r1 < r2)
    (hbit : pa.testBit r1 = false) :
    cpos pa r1 ≤ (pa / 2 ^ r2 + 1) * 2 ^ r2 - 1 := by
  have hk1 : 1 ≤ r2 - r1 := by omega
  have hdd : pa / 2 ^ r1 / 2 ^ (r2 - r1) = pa / 2 ^ r2 := by
    rw [Nat.div_div_eq_div_mul, ← Nat.pow_add]
    congr 2
    omega
  have hA := Nat.div_add_mod (pa / 2 ^ r1) (2 ^ (r2 - r1))
  rw [hdd] at hA
  have hlt : pa / 2 ^ r1 % 2 ^ (r2 - r1) < 2 ^ (r2 - r1) :=
    Nat.mod_lt _ (Nat.two_pow_pos _)
  have heven : pa / 2 ^ r1 % 2 = 0 := by
    have hb := Nat.testBit_to_div_mod (x := pa) (i := r1)
    rw [hbit] at hb
    rcases Nat.mod_two_eq_zero_or_one (pa / 2 ^ r1) with h | h
    · exact h
    · rw [h] at hb; simp at hb
  have hmm : pa / 2 ^ r1 % 2 ^ (r2 - r1) % 2 = pa / 2 ^ r1 % 2 := by
    obtain ⟨k2, hk2⟩ : ∃ k2, r2 - r1 = k2 + 1 := ⟨r2 - r1 - 1, by omega⟩
    rw [hk2, show (2:Nat) ^ (k2 + 1) = 2 * 2 ^ k2 from by rw [Nat.pow_succ]; ring,
      Nat.mod_mod_of_dvd _ ⟨2 ^ k2, by ring⟩]
  have h2keven : (2:Nat) ^ (r2 - r1) % 2 = 0 := by
    obtain ⟨k2, hk2⟩ : ∃ k2, r2 - r1 = k2 + 1 := ⟨r2 - r1 - 1, by omega⟩
    rw [hk2, Nat.pow_succ]
    simp [Nat.mul_mod]
  have hle : pa / 2 ^ r1 + 2 ≤ 2 ^ (r2 - r1) * (pa / 2 ^ r2) + 2 ^ (r2 - r1) := by
    omega
  have hmul := Nat.mul_le_mul_right (2 ^ r1) hle
  have hrw : (2 ^ (r2 - r1) * (pa / 2 ^ r2) + 2 ^ (r2 - r1)) * 2 ^ r1
      = (pa / 2 ^ r2 + 1) * 2 ^ r2 := by
    have hpw : (2:Nat) ^ r2 = 2 ^ (r2 - r1) * 2 ^ r1 := by
      rw [← Nat.pow_add]
      congr 1
      omega
    rw [hpw]
    ring
  rw [hrw] at hmul
  unfold cpos
  have hpos := Nat.two_pow_pos r2
  omega

theorem cpos_ge_gap {pa r1 r2 : Nat} (h12 : r1 < r2)
    (hset : ∀ z, r1 < z → z < r2 → pa.testBit z = true) :
    (pa / 2 ^ r2 + 1) * 2 ^ r2 - 1 ≤ cpos pa r1 := by
  have hk1 : 1 ≤ r2 - r1 := by omega
  have hdd : pa / 2 ^ r1 / 2 ^ (r2 - r1) = pa / 2 ^ r2 := by
    rw [Nat.div_div_eq_div_mul, ← Nat.pow_add]
    congr 2
    omega
  have hA := Nat.div_add_mod (pa / 2 ^ r1) (2 ^ (r2 - r1))
  rw [hdd] at hA
  have hge := mod_two_pow_ge (pa / 2 ^ r1) 1 (r2 - r1) ?_
  · have h21 : (2:Nat) ^ 1 = 2 := rfl
    have hle : 2 ^ (r2 - r1) * (pa / 2 ^ r2) + 2 ^ (r2 - r1) ≤ pa / 2 ^ r1 + 2 := by
      omega
    have hmul := Nat.mul_le_mul_right (2 ^ r1) hle
    have hrw : (2 ^ (r2 - r1) * (pa / 2 ^ r2) + 2 ^ (r2 - r1)) * 2 ^ r1
        = (pa / 2 ^ r2 + 1) * 2 ^ r2 := by
      have hpw : (2:Nat) ^ r2 = 2 ^ (r2 - r1) * 2 ^ r1 := by
        rw [← Nat.pow_add]
        congr 1
        omega
      rw [hpw]
      ring
    rw [hrw] at hmul
    unfold cpos
    have hpos := Nat.two_pow_pos r2
    omega
  · intro j hj1 hj2
    rw [testBit_div_pow]
    exact hset (r1 + j) (by omega) (by omega)

theorem cpos_mono {pa r1 r2 : Nat} (h12 : r1 < r2)
    (hbit : pa.testBit r1 = false) : cpos pa r1 < cpos pa r2 := by
  have h1 := cpos_le_start h12 hbit
  have hpos := Nat.two_pow_pos r2
  have hpos1 : 0 < (pa / 2 ^ r2 + 1) * 2 ^ r2 :=
    Nat.mul_pos (Nat.succ_pos _) hpos
  have hr : (pa / 2 ^ r2 + 2) * 2 ^ r2 = (pa / 2 ^ r2 + 1) * 2 ^ r2 + 2 ^ r2 := by
    ring
  have h2 : cpos pa r2 = (pa / 2 ^ r2 + 2) * 2 ^ r2 - 1 := rfl
  calc cpos pa r1 ≤ (pa / 2 ^ r2 + 1) * 2 ^ r2 - 1 := h1
    _ < (pa / 2 ^ r2 + 2) * 2 ^ r2 - 1 := by omega
    _ = cpos pa r2 := h2.symm

theorem mem_take_exists_get? {α : Type} {L : List α} {m : Nat} {x : α}
    (h : x ∈ L.take m) : ∃ i, i < m ∧ L.get? i = some x := by
  obtain ⟨i, hi⟩ := List.mem_iff_get?.mp h
  obtain ⟨hlt, hget⟩ := List.get?_eq_some.mp hi
  have him : i < m := by
    have := List.length_take m L
    omega
  refine ⟨i, him, ?_⟩
  rw [← List.get?_take him]
  exact hi

theorem mem_drop_exists_get? {α : Type} {L : List α} {m : Nat} {x : α}
    (h : x ∈ L.drop m) : ∃ i, m ≤ i ∧ L.get? i = some x := by
  obtain ⟨j, hj⟩ := List.mem_iff_get?.mp h
  rw [List.get?_drop] at hj
  exact ⟨m + j, by omega, hj⟩

theorem pairwise_get?_rel {α : Type} {R : α → α → Prop} {L : List α}
    (hpw : List.Pairwise R L) {i j : Nat} {x y : α} (hij : i < j)
    (hi : L.get? i = some x) (hj : L.get? j = some y) : R x y := by
  obtain ⟨hi1, hi2⟩ := List.get?_eq_some.mp hi
  obtain ⟨hj1, hj2⟩ := List.get?_eq_some.mp hj
  have := List.pairwise_iff_get.mp hpw ⟨i, hi1⟩ ⟨j, hj1⟩ hij
  rw [hi2, hj2] at this
  exact this

theorem sorted_take_lt {L : List Nat} (hpw : List.Pairwise (· < ·) L)
    {m σ : Nat} (hget : L.get? m = some σ) :
    ∀ r ∈ L.take m, r < σ := by
  intro r hr
  obtain ⟨i, him, hi⟩ := mem_take_exists_get? hr
  exact pairwise_get?_rel hpw him hi hget

theorem sorted_drop_gt {L : List Nat} (hpw : List.Pairwise (· < ·) L)
    {m σ : Nat} (hget : L.get? m = some σ) :
    ∀ r ∈ L.drop (m + 1), σ < r := by
  intro r hr
  obtain ⟨i, him, hi⟩ := mem_drop_exists_get? hr
  exact pairwise_get?_rel hpw (by omega) hget hi

theorem sorted_mem_lt_take {L : List Nat} (hpw : List.Pairwise (· < ·) L)
    {m σ z : Nat} (hget : L.get? m = some σ) (hz : z ∈ L) (hlt : z < σ) :
    z ∈ L.take m := by
  obtain ⟨i, hi⟩ := List.mem_iff_get?.mp hz
  have him : i < m := by
    by_contra hge
    push_neg at hge
    rcases Nat.eq_or_lt_of_le hge with rfl | hgt
    · rw [hget] at hi
      simp at hi
      omega
    · have := pairwise_get?_rel hpw hgt hget hi
      omega
  rw [List.mem_iff_get?]
  refine ⟨i, ?_⟩
  rw [List.get?_take him]
  exact hi

theorem required_below_first {pa σ z : Nat}
    (hget : (allAltitudesRequired pa).get? 0 = some σ)
    (hz : z < σ) : pa.testBit z = true := by
  cases hbt : pa.testBit z
  · exfalso
    have hσ64 : σ ∈ allAltitudesRequired pa := mem_of_get? hget
    have hσlt := (mem_allAltitudesRequired.mp hσ64).1
    have hzmem : z ∈ allAltitudesRequired pa :=
      mem_allAltitudesRequired.mpr ⟨by omega, Or.inr hbt⟩
    have := sorted_mem_lt_take (allAltitudesRequired_pairwise pa) hget hzmem hz
    simp at this
  · rfl

theorem required_between_set {pa m σ σ2 z : Nat}
    (hget : (allAltitudesRequired pa).get? m = some σ)
    (hget2 : (allAltitudesRequired pa).get? (m - 1) = some σ2) (hm : 1 ≤ m)
    (hz1 : σ2 < z) (hz2 : z < σ) : pa.testBit z = true := by
  cases hbt : pa.testBit z
  · exfalso
    have hσ64 : σ ∈ allAltitudesRequired pa := mem_of_get? hget
    have hσlt := (mem_allAltitudesRequired.mp hσ64).1
    have hzmem : z ∈ allAltitudesRequired pa :=
      mem_allAltitudesRequired.mpr ⟨by omega, Or.inr hbt⟩
    obtain ⟨i, hi⟩ := List.mem_iff_get?.mp hzmem
    have hpw := allAltitudesRequired_pairwise pa
    have hlt : i < m := by
      by_contra hge
      push_neg at hge
      rcases Nat.eq_or_lt_of_le hge with rfl | hgt
      · rw [hget] at hi
        simp at hi
        omega
      · have := pairwise_get?_rel hpw hgt hget hi
        omega
    have hgt : m - 1 < i := by
      by_contra hle
      push_neg at hle
      rcases Nat.eq_or_lt_of_le hle with heq | hlt2
      · rw [heq, hget2] at hi
        simp at hi
        omega
      · have := pairwise_get?_rel hpw hlt2 hi hget2
        omega
    omega
  · rfl

theorem div_mod_two_of_bit_false {p c : Nat} (h : p.testBit c = false) :
    p / 2 ^ c % 2 = 0 := by
  have hb := Nat.testBit_to_div_mod (x := p) (i := c)
  rw [h] at hb
  rcases Nat.mod_two_eq_zero_or_one (p / 2 ^ c) with h0 | h1
  · exact h0
  · rw [h1] at hb; simp at hb

theorem div_mod_two_of_bit_true {p c : Nat} (h : p.testBit c = true) :
    p / 2 ^ c % 2 = 1 := by
  have hb := Nat.testBit_to_div_mod (x := p) (i := c)
  rw [h] at hb
  rcases Nat.mod_two_eq_zero_or_one (p / 2 ^ c) with h0 | h1
  · rw [h0] at hb; simp at hb
  · exact h1

theorem cpos_zero (pa : Nat) : cpos pa 0 = pa + 1 := by
  unfold cpos
  simp

theorem cpos_val (pa σ : Nat) :
    cpos pa σ = 2 ^ σ * (pa / 2 ^ σ + 1) + (2 ^ σ - 1) := by
  unfold cpos
  have hP := Nat.two_pow_pos σ
  have h1 : (pa / 2 ^ σ + 2) * 2 ^ σ = 2 ^ σ * (pa / 2 ^ σ + 1) + 2 ^ σ := by
    ring
  omega

theorem cpos_div (pa σ : Nat) : cpos pa σ / 2 ^ σ = pa / 2 ^ σ + 1 := by
  rw [cpos_val, Nat.mul_add_div (Nat.two_pow_pos σ)]
  have hz : (2 ^ σ - 1) / 2 ^ σ = 0 :=
    Nat.div_eq_of_lt (by have := Nat.two_pow_pos σ; omega)
  rw [hz]

theorem cpos_mod (pa σ : Nat) : cpos pa σ % 2 ^ σ = 2 ^ σ - 1 := by
  rw [cpos_val, Nat.mul_add_mod,
    Nat.mod_eq_of_lt (by have := Nat.two_pow_pos σ; omega)]

theorem isComplete_cpos {pa σ : Nat} : isComplete (cpos pa σ) σ = true := by
  rw [isComplete_iff]
  intro x hx
  have hmod := cpos_mod pa σ
  have hbit : (cpos pa σ % 2 ^ σ).testBit x = (cpos pa σ).testBit x := by
    rw [Nat.testBit_mod_two_pow]
    simp [hx]
  rw [← hbit, hmod, Nat.testBit_two_pow_sub_one]
  simp [hx]

theorem testBit_cpos {pa σ : Nat} (hbit : pa.testBit σ = false) :
    (cpos pa σ).testBit σ = true := by
  rw [Nat.testBit_to_div_mod, cpos_div]
  have heven := div_mod_two_of_bit_false hbit
  simp
  omega

theorem augment_silent_arith {pa q m σ : Nat}
    (hget : (allAltitudesRequired pa).get? m = some σ)
    (hprev : ∀ r ∈ (allAltitudesRequired pa).take m, cpos pa r < q)
    (hq : pa < q) (hcq : q < cpos pa σ) :
    1 ≤ σ ∧ isComplete q σ = false := by
  have hσ1 : 1 ≤ σ := by
    by_contra h0
    push_neg at h0
    have hz : σ = 0 := by omega
    rw [hz, cpos_zero] at hcq
    omega
  refine ⟨hσ1, ?_⟩
  cases hcomp : isComplete q σ
  · rfl
  · exfalso
    have hbits : ∀ x, x < σ → q.testBit x = true := isComplete_iff.mp hcomp
    have hqmod : q % 2 ^ σ = 2 ^ σ - 1 := mod_two_pow_full hbits
    have hdm := Nat.div_add_mod q (2 ^ σ)
    have hP := Nat.two_pow_pos σ
    have hcposval := cpos_val pa σ
    rcases Nat.lt_trichotomy (q / 2 ^ σ) (pa / 2 ^ σ + 1) with hD | hD | hD
    · have hmul : 2 ^ σ * (q / 2 ^ σ) ≤ 2 ^ σ * (pa / 2 ^ σ) :=
        Nat.mul_le_mul_left _ (by omega)
      rcases Nat.eq_zero_or_pos m with rfl | hm
      · have hset : ∀ z, z < σ → pa.testBit z = true := fun z hz =>
          required_below_first hget hz
        have hpamod : pa % 2 ^ σ = 2 ^ σ - 1 := mod_two_pow_full hset
        have hdm2 := Nat.div_add_mod pa (2 ^ σ)
        omega
      · have hgetm1 : ∃ σ2, (allAltitudesRequired pa).get? (m - 1) = some σ2 := by
          cases hg : (allAltitudesRequired pa).get? (m - 1) with
          | none =>
            exfalso
            rw [List.get?_eq_none] at hg
            have := (List.get?_eq_some.mp hget).1
            omega
          | some x => exact ⟨x, rfl⟩
        obtain ⟨σ2, hg2⟩ := hgetm1
        have hσ2σ : σ2 < σ :=
          pairwise_get?_rel (allAltitudesRequired_pairwise pa) (by omega) hg2 hget
        have hσ2mem : σ2 ∈ (allAltitudesRequired pa).take m := by
          rw [List.mem_iff_get?]
          exact ⟨m - 1, by rw [List.get?_take (by omega)]; exact hg2⟩
        have hc2 := hprev σ2 hσ2mem
        have hgap := cpos_ge_gap hσ2σ
          (fun z hz1 hz2 => required_between_set hget hg2 hm hz1 hz2)
        have hrr : (pa / 2 ^ σ + 1) * 2 ^ σ = 2 ^ σ * (pa / 2 ^ σ) + 2 ^ σ := by
          ring
        omega
    · rw [hD] at hdm
      omega
    · have hmul : 2 ^ σ * (pa / 2 ^ σ + 2) ≤ 2 ^ σ * (q / 2 ^ σ) :=
        Nat.mul_le_mul_left _ (by omega)
      have hr2 : 2 ^ σ * (pa / 2 ^ σ + 2) = 2 ^ σ * (pa / 2 ^ σ + 1) + 2 ^ σ := by
        ring
      omega

theorem carryOmmers_none (hf : HashFn H) :
    ∀ (l : List (H × Nat)), NonEmptyFrontier.carryOmmers hf none l
      = l.map Prod.fst := by
  intro l
  induction l with
  | nil => rfl
  | cons x tl ih =>
    obtain ⟨o, olvl⟩ := x
    show o :: NonEmptyFrontier.carryOmmers hf none tl = _
    rw [ih]
    rfl

theorem sorted_ext : ∀ {l1 l2 : List Nat},
    List.Pairwise (· < ·) l1 → List.Pairwise (· < ·) l2 →
    (∀ x, x ∈ l1 ↔ x ∈ l2) → l1 = l2 := by
  intro l1
  induction l1 with
  | nil =>
    intro l2 _ _ hm
    cases l2 with
    | nil => rfl
    | cons y t2 =>
      exact absurd ((hm y).mpr (List.mem_cons_self _ _)) (List.not_mem_nil y)
  | cons x t1 ih =>
    intro l2 h1 h2 hm
    cases l2 with
    | nil =>
      exact absurd ((hm x).mp (List.mem_cons_self _ _)) (List.not_mem_nil x)
    | cons y t2 =>
      have hx2 : x ∈ y :: t2 := (hm x).mp (List.mem_cons_self _ _)
      have hy1 : y ∈ x :: t1 := (hm y).mpr (List.mem_cons_self _ _)
      have hxy : x = y := by
        rcases List.mem_cons.mp hx2 with h | h
        · exact h
        · rcases List.mem_cons.mp hy1 with h' | h'
          · exact h'.symm
          · have := (List.pairwise_cons.mp h2).1 x h
            have := (List.pairwise_cons.mp h1).1 y h'
            omega
      subst hxy
      congr 1
      refine ih (List.pairwise_cons.mp h1).2 (List.pairwise_cons.mp h2).2 ?_
      intro z
      constructor
      · intro hz
        have hgt := (List.pairwise_cons.mp h1).1 z hz
        rcases List.mem_cons.mp ((hm z).mp (List.mem_cons_of_mem _ hz)) with h | h
        · omega
        · exact h
      · intro hz
        have hgt := (List.pairwise_cons.mp h2).1 z hz
        rcases List.mem_cons.mp ((hm z).mpr (List.mem_cons_of_mem _ hz)) with h | h
        · omega
        · exact h

theorem filter_range_congr (P : Nat → Bool) :
    ∀ (n m : Nat), m ≤ n → (∀ i, m ≤ i → i < n → P i = false) →
      (List.range n).filter P = (List.range m).filter P := by
  intro n
  induction n with
  | zero =>
    intro m hm _
    have : m = 0 := by omega
    rw [this]
  | succ n ih =>
    intro m hm hfalse
    by_cases hcase : m = n + 1
    · rw [hcase]
    · rw [List.range_succ, List.filter_append]
      rw [ih m (by omega) (fun i h1 h2 => hfalse i h1 (by omega))]
      have hn : P n = false := hfalse n (by omega) (by omega)
      simp [hn]

theorem ommerAltitudes_eq_range64 {p : Nat} (h64 : p < 2 ^ 64) :
    ommerAltitudes p
      = (List.range 64).filter (fun i => i ≠ 0 && p.testBit i) := by
  unfold ommerAltitudes
  by_cases hp : p = 0
  · subst hp
    rw [show maxAltitude 0 = 0 from rfl]
    rw [filter_range_congr _ 64 1 (by omega) ?_]
    intro i _ _
    simp
  · rw [filter_range_congr _ 64 (maxAltitude p + 1) ?_ ?_]
    · have h1 : maxAltitude p = Nat.log2 p := maxAltitude_eq_log2 (by omega) h64
      have h2 : Nat.log2 p < 64 := (Nat.log2_lt hp).mpr h64
      omega
    · intro i h1 h2
      have hbit : p.testBit i = false := by
        have hlog : Nat.log2 p < i := by
          have := maxAltitude_eq_log2 (show 1 ≤ p by omega) h64
          omega
        have hlt : p < 2 ^ i := by
          have := (Nat.log2_lt hp).mp hlog
          omega
        exact Nat.testBit_lt_two_pow hlt
      simp [hbit]

theorem filter_range_singleton (P : Nat → Bool) (n k : Nat) (hk : k < n)
    (hiff : ∀ i, P i = true ↔ i = k) : (List.range n).filter P = [k] := by
  have h1 : (List.range n).filter P = (List.range (k + 1)).filter P := by
    refine filter_range_congr P n (k + 1) (by omega) ?_
    intro i h1 h2
    cases hP : P i
    · rfl
    · have := (hiff i).mp hP
      omega
  rw [h1, List.range_succ, List.filter_append]
  have h2 : (List.range k).filter P = [] := by
    rw [List.filter_eq_nil_iff]
    intro a ha
    intro hP
    have := (hiff a).mp hP
    have := List.mem_range.mp ha
    omega
  rw [h2]
  have h3 : P k = true := (hiff k).mpr rfl
  simp [h3]

theorem div_pow_eq_of_div_eq {p q k x : Nat} (h : q / 2 ^ (k + 1) = p / 2 ^ (k + 1))
    (hx : k + 1 ≤ x) : q / 2 ^ x = p / 2 ^ x := by
  have hq : q / 2 ^ x = q / 2 ^ (k + 1) / 2 ^ (x - (k + 1)) := by
    rw [Nat.div_div_eq_div_mul, ← Nat.pow_add]
    congr 2
    omega
  have hp : p / 2 ^ x = p / 2 ^ (k + 1) / 2 ^ (x - (k + 1)) := by
    rw [Nat.div_div_eq_div_mul, ← Nat.pow_add]
    congr 2
    omega
  rw [hq, hp, h]

theorem testBit_eq_of_div_eq {p q k x : Nat}
    (h : q / 2 ^ (k + 1) = p / 2 ^ (k + 1)) (hx : k + 1 ≤ x) :
    q.testBit x = p.testBit x := by
  rw [Nat.testBit_to_div_mod, Nat.testBit_to_div_mod,
    div_pow_eq_of_div_eq h hx]

theorem carryOmmers_run (hf : HashFn H) (lq : List H) (p q : Nat)
    (hpq : q = p + 1) (hlen : lq.length = q + 1) (h64 : q < 2 ^ 64) :
    ∀ (alts : List Nat) (k : Nat) (c : H), 1 ≤ k →
      q % 2 ^ k = 0 →
      c = nodeHash hf lq k (q / 2 ^ k - 1) →
      (∀ x, k ≤ x → (p.testBit x = true ↔ x ∈ alts)) →
      List.Pairwise (· < ·) ((k - 1) :: alts) →
      NonEmptyFrontier.carryOmmers hf (some (c, k))
          (alts.map (fun a => (nodeHash hf lq a (p / 2 ^ a - 1), a)))
        = ((ommerAltitudes q).filter (fun a => decide (k ≤ a))).map
            (fun a => nodeHash hf lq a (q / 2 ^ a - 1)) := by
  intro alts
  induction alts with
  | nil =>
    intro k c hk hmod hc hbits _
    have hplt : p < 2 ^ k := by
      by_contra hge
      push_neg at hge
      have hp1 : 1 ≤ p := by
        have := Nat.two_pow_pos k
        omega
      have hbit := testBit_log2 hp1
      have hlog : k ≤ Nat.log2 p := (Nat.le_log2 (by omega)).mpr hge
      exact absurd ((hbits (Nat.log2 p) hlog).mp hbit) (List.not_mem_nil _)
    have hqeq : q = 2 ^ k := by
      have hdvd := Nat.dvd_of_mod_eq_zero hmod
      rcases hdvd with ⟨e, he⟩
      have he1 : e = 1 := by
        have hP := Nat.two_pow_pos k
        rcases Nat.lt_or_ge e 1 with h | h
        · have he0 : e = 0 := by omega
          rw [he0] at he
          simp at he
          omega
        · rcases Nat.lt_or_ge e 2 with h2 | h2
          · omega
          · exfalso
            have hmul : 2 ^ k * 2 ≤ 2 ^ k * e := Nat.mul_le_mul_left _ h2
            have hr : 2 ^ k * 2 = 2 ^ k + 2 ^ k := by ring
            omega
      rw [he1] at he
      simpa using he
    have hOA : ommerAltitudes q = [k] := by
      rw [ommerAltitudes_eq_range64 h64]
      refine filter_range_singleton _ 64 k ?_ ?_
      · by_contra hge
        push_neg at hge
        have : (2:Nat) ^ 64 ≤ 2 ^ k := Nat.pow_le_pow_right (by omega) hge
        omega
      · intro i
        constructor
        · intro hP
          simp only [Bool.and_eq_true, decide_eq_true_eq, ne_eq] at hP
          rcases hP with ⟨hi0, hbit⟩
          by_contra hne
          rw [hqeq, Nat.testBit_two_pow_of_ne (by omega : k ≠ i)] at hbit
          cases hbit
        · intro hik
          subst hik
          simp only [Bool.and_eq_true, decide_eq_true_eq, ne_eq]
          refine ⟨by omega, ?_⟩
          rw [hqeq]
          exact Nat.testBit_two_pow_self
    rw [List.map_nil, hOA]
    show [c] = _
    have hfk : List.filter (fun a => decide (k ≤ a)) [k] = [k] := by
      simp
    rw [hfk, List.map_cons, List.map_nil, hc]
  | cons a rest ih =>
    intro k c hk hmod hc hbits hpw
    subst hc
    have hka : k - 1 < a := (List.pairwise_cons.mp hpw).1 a (List.mem_cons_self _ _)
    have hpw2 := (List.pairwise_cons.mp hpw).2
    have hrest_gt : ∀ y ∈ rest, a < y := (List.pairwise_cons.mp hpw2).1
    have hbita : p.testBit a = true :=
      (hbits a (by omega)).mpr (List.mem_cons_self _ _)
    have hP := Nat.two_pow_pos k
    have hE := Nat.div_add_mod q (2 ^ k)
    rw [hmod] at hE
    have hq1 : 1 ≤ q := by omega
    have hE1 : 1 ≤ q / 2 ^ k := by
      by_contra h0
      push_neg at h0
      have hz : q / 2 ^ k = 0 := Nat.lt_one_iff.mp h0
      rw [hz] at hE
      simp at hE
      omega
    have hpform : p = 2 ^ k * (q / 2 ^ k - 1) + (2 ^ k - 1) := by
      have h2 : q / 2 ^ k - 1 + 1 = q / 2 ^ k := by omega
      have h1 : 2 ^ k * (q / 2 ^ k - 1) + 2 ^ k = 2 ^ k * (q / 2 ^ k) := by
        calc 2 ^ k * (q / 2 ^ k - 1) + 2 ^ k
            = 2 ^ k * (q / 2 ^ k - 1 + 1) := by ring
          _ = 2 ^ k * (q / 2 ^ k) := by rw [h2]
      omega
    have hpdiv : p / 2 ^ k = q / 2 ^ k - 1 := by
      rw [hpform, Nat.mul_add_div hP]
      have hz2 : (2 ^ k - 1) / 2 ^ k = 0 := Nat.div_eq_of_lt (by omega)
      rw [hz2]
      omega
    rw [List.map_cons]
    by_cases hak : k = a
    · subst hak
      unfold NonEmptyFrontier.carryOmmers
      rw [if_pos rfl]
      have hpodd : p / 2 ^ k % 2 = 1 := div_mod_two_of_bit_true hbita
      have hEeven : q / 2 ^ k % 2 = 0 := by omega
      have hq2 : q = 2 ^ (k + 1) * (q / 2 ^ k / 2) := by
        have hpow : (2:Nat) ^ (k + 1) = 2 ^ k * 2 := Nat.pow_succ ..
        have hE2 : q / 2 ^ k = 2 * (q / 2 ^ k / 2) := by omega
        calc q = 2 ^ k * (q / 2 ^ k) := by omega
          _ = 2 ^ k * (2 * (q / 2 ^ k / 2)) := by rw [← hE2]
          _ = 2 ^ (k + 1) * (q / 2 ^ k / 2) := by rw [hpow]; ring
      have hmod2 : q % 2 ^ (k + 1) = 0 := by
        conv_lhs => rw [hq2]
        simp [Nat.mul_mod_right]
      have hdiv1 : q / 2 ^ (k + 1) = q / 2 ^ k / 2 := (div_pow_succ q k).symm
      have hcomb : hf.combine k (nodeHash hf lq k (p / 2 ^ k - 1))
            (nodeHash hf lq k (q / 2 ^ k - 1))
          = nodeHash hf lq (k + 1) (q / 2 ^ (k + 1) - 1) := by
        have hle1 : 2 ^ (k + 1) * (q / 2 ^ (k + 1)) ≤ q := by
          rw [Nat.mul_comm]
          exact Nat.div_mul_le_self ..
        have hne : 2 ^ (k + 1) * (q / 2 ^ (k + 1) - 1) < lq.length := by
          have h2 : 2 ^ (k + 1) * (q / 2 ^ (k + 1) - 1)
              ≤ 2 ^ (k + 1) * (q / 2 ^ (k + 1)) := Nat.mul_le_mul_left _ (by omega)
          omega
        rw [nodeHash_combine hf lq hne]
        have hp2k : 1 ≤ p / 2 ^ k := by
          rw [Nat.le_div_iff_mul_le hP]
          have := Nat.testBit_implies_ge hbita
          omega
        have hch1 : 2 * (q / 2 ^ (k + 1) - 1) = p / 2 ^ k - 1 := by
          rw [hdiv1]
          omega
        rw [hch1]
        rw [show p / 2 ^ k - 1 + 1 = q / 2 ^ k - 1 from by omega, hpdiv]
      rw [hcomb]
      have hrec := ih (k + 1) _ (by omega) hmod2 rfl ?_ ?_
      · rw [hrec]
        congr 1
        refine List.filter_congr ?_
        intro x hx
        have hbitkq : q.testBit k = false := by
          rw [Nat.testBit_to_div_mod]
          simp [hEeven]
        have hxk : x ≠ k := by
          intro hxe
          subst hxe
          have hm := (mem_ommerAltitudes h64).mp hx
          rw [hbitkq] at hm
          exact absurd hm.2 (by simp)
        have hiff : (k ≤ x) ↔ (k + 1 ≤ x) := by omega
        simp [hiff]
      · intro x hx
        constructor
        · intro hbt
          rcases List.mem_cons.mp ((hbits x (by omega)).mp hbt) with h | h
          · omega
          · exact h
        · intro h
          exact (hbits x (by omega)).mpr (List.mem_cons_of_mem _ h)
      · rw [show k + 1 - 1 = k from by omega]
        exact hpw2
    · have hka2 : k < a := by omega
      have hbitk : p.testBit k = false := by
        cases hbt : p.testBit k
        · rfl
        · exfalso
          rcases List.mem_cons.mp ((hbits k (by omega)).mp hbt) with h | h
          · omega
          · have := hrest_gt k h
            omega
      unfold NonEmptyFrontier.carryOmmers
      rw [if_neg hak]
      have hpk : p / 2 ^ k % 2 = 0 := by
        have := div_mod_two_of_bit_false hbitk
        exact this
      have hqdiv2 : q / 2 ^ (k + 1) = p / 2 ^ (k + 1) := by
        rw [← div_pow_succ, ← div_pow_succ, hpdiv]
        rw [hpdiv] at hpk
        omega
      have hbitkq : q.testBit k = true := by
        rw [Nat.testBit_to_div_mod]
        rw [hpdiv] at hpk
        simp
        omega
      have hfilter : (ommerAltitudes q).filter (fun a2 => decide (k ≤ a2))
          = k :: a :: rest := by
        refine sorted_ext (List.Pairwise.filter _ (ommerAltitudes_pairwise q)) ?_ ?_
        · refine List.pairwise_cons.mpr ⟨?_, hpw2⟩
          intro y hy
          rcases List.mem_cons.mp hy with rfl | h
          · omega
          · have := hrest_gt y h
            omega
        · intro x
          rw [List.mem_filter, mem_ommerAltitudes h64]
          simp only [decide_eq_true_eq]
          constructor
          · rintro ⟨⟨hx0, hbx⟩, hkx⟩
            rcases Nat.eq_or_lt_of_le hkx with rfl | hlt
            · exact List.mem_cons_self _ _
            · have hbp : p.testBit x = true := by
                rw [← testBit_eq_of_div_eq hqdiv2 (by omega)]
                exact hbx
              exact List.mem_cons_of_mem _ ((hbits x (by omega)).mp hbp)
          · intro hmem
            rcases List.mem_cons.mp hmem with rfl | h
            · exact ⟨⟨by omega, hbitkq⟩, by omega⟩
            · have hxa : a ≤ x := by
                rcases List.mem_cons.mp h with rfl | h2
                · omega
                · have := hrest_gt x h2
                  omega
              have hxp : p.testBit x = true := (hbits x (by omega)).mpr h
              refine ⟨⟨by omega, ?_⟩, by omega⟩
              rw [testBit_eq_of_div_eq hqdiv2 (by omega)]
              exact hxp
      rw [hfilter, List.map_cons, List.map_cons, carryOmmers_none]
      rw [List.map_map]
      rw [show q / 2 ^ a = p / 2 ^ a from div_pow_eq_of_div_eq hqdiv2 (by omega)]
      have htail : List.map
            (Prod.fst ∘ fun x => (nodeHash hf lq x (p / 2 ^ x - 1), x)) rest
          = List.map (fun x => nodeHash hf lq x (q / 2 ^ x - 1)) rest := by
        refine List.map_congr_left ?_
        intro x hx
        have hxa := hrest_gt x hx
        show nodeHash hf lq x (p / 2 ^ x - 1) = nodeHash hf lq x (q / 2 ^ x - 1)
        rw [show q / 2 ^ x = p / 2 ^ x from div_pow_eq_of_div_eq hqdiv2 (by omega)]
      rw [htail]

theorem succ_div_pow_of_even {p a : Nat} (hp : p % 2 = 0) (ha : 1 ≤ a) :
    (p + 1) / 2 ^ a = p / 2 ^ a := by
  obtain ⟨a2, rfl⟩ : ∃ a2, a = a2 + 1 := ⟨a - 1, by omega⟩
  have h1 : (p + 1) / 2 ^ (a2 + 1) = (p + 1) / 2 / 2 ^ a2 := by
    rw [Nat.div_div_eq_div_mul]
    congr 1
    rw [Nat.pow_succ']
  have h2 : p / 2 ^ (a2 + 1) = p / 2 / 2 ^ a2 := by
    rw [Nat.div_div_eq_div_mul]
    congr 1
    rw [Nat.pow_succ']
  rw [h1, h2, show (p + 1) / 2 = p / 2 from by omega]

theorem succ_testBit_of_even {p a : Nat} (hp : p % 2 = 0) (ha : 1 ≤ a) :
    (p + 1).testBit a = p.testBit a := by
  rw [Nat.testBit_to_div_mod, Nat.testBit_to_div_mod,
    succ_div_pow_of_even hp ha]

theorem ommerAltitudes_succ_even {p : Nat} (hp : p % 2 = 0)
    (h64 : p + 1 < 2 ^ 64) : ommerAltitudes (p + 1) = ommerAltitudes p := by
  rw [ommerAltitudes_eq_range64 h64, ommerAltitudes_eq_range64 (by omega)]
  refine List.filter_congr ?_
  intro i _
  by_cases hi : i = 0
  · subst hi
    simp
  · rw [succ_testBit_of_even hp (by omega)]

theorem frontierFor_append (hf : HashFn H) (l : List H) (p : Nat)
    (hlen : l.length = p + 1) (h64 : p + 1 < 2 ^ 64) (v : H) :
    (frontierFor hf l p).append hf v = frontierFor hf (l ++ [v]) (p + 1) := by
  have hget_p : (l ++ [v]).get? p = l.get? p := List.get?_append (by omega)
  have hget_new : (l ++ [v]).get? (p + 1) = some v := by
    rw [show p + 1 = l.length from by omega]
    exact List.get?_concat_length l v
  rcases Nat.even_or_odd p with he | ho
  · -- p even: no carry
    have hp2 : p % 2 = 0 := Nat.even_iff.mp he
    have hleaf : (frontierFor hf l p).leaf
        = Leaf.left ((l.get? p).getD hf.emptyLeaf) := by
      unfold frontierFor
      dsimp only
      rw [if_pos hp2]
    have happ : (frontierFor hf l p).append hf v
        = { position := p + 1,
            leaf := Leaf.right ((l.get? p).getD hf.emptyLeaf) v,
            ommers := (ommerAltitudes p).map
              (fun a => nodeHash hf l a (p / 2 ^ a - 1)) } := by
      unfold NonEmptyFrontier.append
      rw [hleaf]
      rfl
    rw [happ]
    unfold frontierFor
    rw [if_neg (by omega)]
    rw [NonEmptyFrontier.mk.injEq]
    refine ⟨rfl, ?_, ?_⟩
    · rw [show p + 1 - 1 = p from by omega, hget_p, hget_new]
      rfl
    · rw [ommerAltitudes_succ_even hp2 h64]
      refine (List.map_congr_left ?_).symm
      intro a ha
      have ha1 : 1 ≤ a := ommerAltitudes_pos ha
      have hbit := ((mem_ommerAltitudes (show p < 2 ^ 64 by omega)).mp ha).2
      have hple : 2 ^ a ≤ p := Nat.testBit_implies_ge hbit
      have hd1 : 1 ≤ p / 2 ^ a := by
        rw [Nat.le_div_iff_mul_le (Nat.two_pow_pos a)]
        omega
      rw [succ_div_pow_of_even hp2 ha1]
      refine nodeHash_extend hf l [v] a (p / 2 ^ a - 1) ?_
      have hmul : (p / 2 ^ a - 1 + 1) * 2 ^ a = p / 2 ^ a * 2 ^ a := by
        rw [show p / 2 ^ a - 1 + 1 = p / 2 ^ a from by omega]
      have hle : p / 2 ^ a * 2 ^ a ≤ p := Nat.div_mul_le_self ..
      omega
  · -- p odd: carry
    have hp2 : p % 2 = 1 := Nat.odd_iff.mp ho
    have hleaf : (frontierFor hf l p).leaf
        = Leaf.right ((l.get? (p - 1)).getD hf.emptyLeaf)
            ((l.get? p).getD hf.emptyLeaf) := by
      unfold frontierFor
      dsimp only
      rw [if_neg (by omega)]
    have happ : (frontierFor hf l p).append hf v
        = { position := p + 1,
            leaf := Leaf.left v,
            ommers := NonEmptyFrontier.carryOmmers hf
              (some (hf.combine 0 ((l.get? (p - 1)).getD hf.emptyLeaf)
                ((l.get? p).getD hf.emptyLeaf), 1))
              (((ommerAltitudes p).map
                  (fun a => nodeHash hf l a (p / 2 ^ a - 1))).zip
                (ommerAltitudes p)) } := by
      unfold NonEmptyFrontier.append
      rw [hleaf]
      rfl
    rw [happ]
    have hzip : (((ommerAltitudes p).map
          (fun a => nodeHash hf l a (p / 2 ^ a - 1))).zip (ommerAltitudes p))
        = (ommerAltitudes p).map
            (fun a => (nodeHash hf l a (p / 2 ^ a - 1), a)) :=
      zip_map_full _
    rw [hzip]
    -- lift the old ommer digests to the extended list
    have hlift : (ommerAltitudes p).map
          (fun a => (nodeHash hf l a (p / 2 ^ a - 1), a))
        = (ommerAltitudes p).map
            (fun a => (nodeHash hf (l ++ [v]) a (p / 2 ^ a - 1), a)) := by
      refine List.map_congr_left ?_
      intro a ha
      have ha1 : 1 ≤ a := ommerAltitudes_pos ha
      have hbit := ((mem_ommerAltitudes (show p < 2 ^ 64 by omega)).mp ha).2
      have hple : 2 ^ a ≤ p := Nat.testBit_implies_ge hbit
      have hd1 : 1 ≤ p / 2 ^ a := by
        rw [Nat.le_div_iff_mul_le (Nat.two_pow_pos a)]
        omega
      have hpref : nodeHash hf (l ++ [v]) a (p / 2 ^ a - 1)
          = nodeHash hf l a (p / 2 ^ a - 1) := by
        refine nodeHash_extend hf l [v] a (p / 2 ^ a - 1) ?_
        have hmul : (p / 2 ^ a - 1 + 1) * 2 ^ a = p / 2 ^ a * 2 ^ a := by
          rw [show p / 2 ^ a - 1 + 1 = p / 2 ^ a from by omega]
        have hle : p / 2 ^ a * 2 ^ a ≤ p := Nat.div_mul_le_self ..
        omega
      rw [hpref]
    rw [hlift]
    -- the carry seed is the digest of the completed leaf pair
    have hseed : hf.combine 0 ((l.get? (p - 1)).getD hf.emptyLeaf)
          ((l.get? p).getD hf.emptyLeaf)
        = nodeHash hf (l ++ [v]) 1 ((p + 1) / 2 ^ 1 - 1) := by
      have hne : 2 ^ 1 * ((p + 1) / 2 ^ 1 - 1) < (l ++ [v]).length := by
        rw [List.length_append]
        have : (p + 1) / 2 ^ 1 ≤ p + 1 := Nat.div_le_self ..
        simp only [List.length_singleton]
        have h21 : (2:Nat) ^ 1 = 2 := rfl
        omega
      rw [nodeHash_combine hf _ hne]
      have h21 : (2:Nat) ^ 1 = 2 := rfl
      have hch1 : 2 * ((p + 1) / 2 ^ 1 - 1) = p - 1 := by
        rw [h21]
        omega
      rw [hch1, show p - 1 + 1 = p from by omega]
      unfold nodeHash
      rw [show (l ++ [v]).get? (p - 1) = l.get? (p - 1) from
        List.get?_append (by omega), hget_p]
    rw [hseed]
    have hmod1 : (p + 1) % 2 ^ 1 = 0 := by
      have h21 : (2:Nat) ^ 1 = 2 := rfl
      rw [h21]
      omega
    have hlenq : (l ++ [v]).length = p + 1 + 1 := by
      rw [List.length_append, List.length_singleton]
      omega
    rw [carryOmmers_run hf (l ++ [v]) p (p + 1) rfl hlenq h64
      (ommerAltitudes p) 1 _ (by omega) hmod1 rfl ?_ ?_]
    · unfold frontierFor
      rw [if_pos (by omega)]
      rw [NonEmptyFrontier.mk.injEq]
      refine ⟨rfl, ?_, ?_⟩
      · rw [hget_new]
        rfl
      · congr 1
        refine List.filter_eq_self.mpr ?_
        intro a ha
        have := ommerAltitudes_pos ha
        simp
        omega
    · intro x hx
      rw [mem_ommerAltitudes (show p < 2 ^ 64 by omega)]
      constructor
      · intro h
        exact ⟨by omega, h⟩
      · intro h
        exact h.2
    · exact pairwise0_ommerAltitudes p

theorem fragSched_augment (hf : HashFn H) (l : List H) (v : H) (p : Nat)
    (hlen : l.length = p + 1) (h64 : p + 1 < 2 ^ 64)
    (f : AuthFragment H) (hpa : f.position ≤ p)
    (hs : fragSched hf l p f) :
    fragSched hf (l ++ [v]) (p + 1)
      (f.augment hf (frontierFor hf (l ++ [v]) (p + 1))) := by
  obtain ⟨h1, h2, h3, h4, h5⟩ := hs
  have hlenq : (l ++ [v]).length = p + 1 + 1 := by
    rw [List.length_append, List.length_singleton]
    omega
  have hlift : ∀ r ∈ (allAltitudesRequired f.position).take f.altitudesObserved,
      nodeHash hf (l ++ [v]) r (f.position / 2 ^ r + 1)
        = nodeHash hf l r (f.position / 2 ^ r + 1) := by
    intro r hr
    have hc := h3 r hr
    refine nodeHash_extend hf l [v] r (f.position / 2 ^ r + 1) ?_
    have hcv := cpos_val f.position r
    have hP := Nat.two_pow_pos r
    have hr2 : (f.position / 2 ^ r + 1 + 1) * 2 ^ r
        = 2 ^ r * (f.position / 2 ^ r + 1) + 2 ^ r := by ring
    omega
  have hvlift : f.values
      = (((allAltitudesRequired f.position).take f.altitudesObserved).drop
          (f.altitudesObserved - f.values.length)).map
        (fun r => nodeHash hf (l ++ [v]) r (f.position / 2 ^ r + 1)) := by
    conv_lhs => rw [h5]
    refine (List.map_congr_left ?_).symm
    intro r hr
    exact hlift r ((List.drop_subset _ _) hr)
  unfold AuthFragment.augment AuthFragment.nextRequiredAltitude
  cases hget : (allAltitudesRequired f.position).get? f.altitudesObserved with
  | none =>
    dsimp only
    have hlen2 : (allAltitudesRequired f.position).length ≤ f.altitudesObserved := by
      rw [← List.get?_eq_none]
      exact hget
    refine ⟨h1, h2, ?_, ?_, ?_⟩
    · intro r hr
      have := h3 r hr
      omega
    · intro r hr
      rw [List.drop_eq_nil_of_le hlen2] at hr
      cases hr
    · exact hvlift
  | some σ =>
    dsimp only
    have hσmem : σ ∈ allAltitudesRequired f.position := mem_of_get? hget
    have hσ64 := (mem_allAltitudesRequired.mp hσmem).1
    have hbitσ : f.position.testBit σ = false := by
      rcases (mem_allAltitudesRequired.mp hσmem).2 with h | h
      · rw [h]
        exact Nat.zero_testBit σ
      · exact h
    have hmlt : f.altitudesObserved < (allAltitudesRequired f.position).length :=
      (List.get?_eq_some.mp hget).1
    have hdropm : (allAltitudesRequired f.position).drop f.altitudesObserved
        = σ :: (allAltitudesRequired f.position).drop (f.altitudesObserved + 1) := by
    
      rw [List.drop_eq_getElem_cons hmlt]
      congr 1
      exact (List.get?_eq_some.mp hget).2
    have hcσ : p + 1 ≤ cpos f.position σ := by
      have := h4 σ (by rw [hdropm]; exact List.mem_cons_self _ _)
      omega
    rcases Nat.eq_or_lt_of_le hcσ with hfire | hsilent
    · have hfire2 : cpos f.position σ = p + 1 := hfire.symm
      have hwit : (frontierFor hf (l ++ [v]) (p + 1)).witness hf σ
          = some (nodeHash hf (l ++ [v]) σ (f.position / 2 ^ σ + 1)) := by
        rcases Nat.eq_zero_or_pos σ with rfl | hσ1
        · have hppa : p = f.position := by
            have := cpos_zero f.position
            omega
          have hpaeven : f.position % 2 = 0 := by
            have h0 := div_mod_two_of_bit_false hbitσ
            rw [Nat.pow_zero, Nat.div_one] at h0
            exact h0
          have hodd : (p + 1) % 2 = 1 := by omega
          rw [frontierFor_witness0 hf _ _ hodd]
          congr 1
          show ((l ++ [v]).get? (p + 1)).getD hf.emptyLeaf
            = nodeHash hf (l ++ [v]) 0 (f.position / 2 ^ 0 + 1)
          rw [Nat.pow_zero, Nat.div_one, ← hppa]
          rfl
        · have hcomp : isComplete (p + 1) σ = true := by
            have hic := @isComplete_cpos f.position σ
            rw [hfire2] at hic
            exact hic
          have hbq : (p + 1).testBit σ = true := by
            have htc := testBit_cpos hbitσ
            rw [hfire2] at htc
            exact htc
          rw [frontierFor_witnessS hf _ _ _ hlenq (by omega) hσ1 hcomp hbq]
          congr 1
          have hcd := cpos_div f.position σ
          rw [hfire2] at hcd
          rw [hcd]
      rw [hwit]
      dsimp only
      have htakeS : (allAltitudesRequired f.position).take (f.altitudesObserved + 1)
          = (allAltitudesRequired f.position).take f.altitudesObserved ++ [σ] := by
        rw [List.take_succ, ← List.get?_eq_getElem?, hget]
        rfl
      refine ⟨?_, ?_, ?_, ?_, ?_⟩
      · show f.altitudesObserved + 1 ≤ (allAltitudesRequired f.position).length
        omega
      · show (f.values ++ [nodeHash hf (l ++ [v]) σ (f.position / 2 ^ σ + 1)]).length
          ≤ f.altitudesObserved + 1
        rw [List.length_append, List.length_singleton]
        omega
      · show ∀ r ∈ (allAltitudesRequired f.position).take (f.altitudesObserved + 1),
          cpos f.position r ≤ p + 1
        intro r hr
        rw [htakeS] at hr
        rcases List.mem_append.mp hr with h | h
        · have := h3 r h
          omega
        · have : r = σ := by simpa using h
          subst this
          omega
      · show ∀ r ∈ (allAltitudesRequired f.position).drop (f.altitudesObserved + 1),
          p + 1 < cpos f.position r
        intro r hr
        have hσr : σ < r :=
          sorted_drop_gt (allAltitudesRequired_pairwise _) hget r hr
        have := cpos_mono hσr hbitσ
        omega
      · show f.values ++ [nodeHash hf (l ++ [v]) σ (f.position / 2 ^ σ + 1)]
          = (((allAltitudesRequired f.position).take (f.altitudesObserved + 1)).drop
              (f.altitudesObserved + 1
                - (f.values ++ [nodeHash hf (l ++ [v]) σ (f.position / 2 ^ σ + 1)]).length)).map
            (fun r => nodeHash hf (l ++ [v]) r (f.position / 2 ^ r + 1))
        rw [List.length_append, List.length_singleton, htakeS]
        rw [show f.altitudesObserved + 1 - (f.values.length + 1)
          = f.altitudesObserved - f.values.length from by omega]
        rw [List.drop_append_of_le_length (by
          rw [List.length_take]
          omega)]
        rw [List.map_append, ← hvlift]
        rfl
    · have hsil := augment_silent_arith hget
        (fun r hr => by have := h3 r hr; omega) (by omega) hsilent
      have hwit : (frontierFor hf (l ++ [v]) (p + 1)).witness hf σ = none :=
        frontierFor_witness_silent hf _ _ _ hsil.1 hsil.2
      rw [hwit]
      dsimp only
      refine ⟨h1, h2, ?_, ?_, ?_⟩
      · intro r hr
        have := h3 r hr
        omega
      · intro r hr
        rw [hdropm] at hr
        rcases List.mem_cons.mp hr with rfl | hr2
        · omega
        · have hσr : σ < r :=
            sorted_drop_gt (allAltitudesRequired_pairwise _) hget r hr2
          have := cpos_mono hσr hbitσ
          omega
      · exact hvlift

theorem fragSched_append_leaves (hf : HashFn H) (l extra : List H) (p : Nat)
    (f : AuthFragment H) (hp : p < l.length)
    (hs : fragSched hf l p f) : fragSched hf (l ++ extra) p f := by
  obtain ⟨h1, h2, h3, h4, h5⟩ := hs
  refine ⟨h1, h2, h3, h4, ?_⟩
  conv_lhs => rw [h5]
  refine List.map_congr_left ?_
  intro r hr
  have hc := h3 r ((List.drop_subset _ _) hr)
  have hcv := cpos_val f.position r
  have hP := Nat.two_pow_pos r
  refine (nodeHash_extend hf l extra r (f.position / 2 ^ r + 1) ?_).symm
  have hr2 : (f.position / 2 ^ r + 1 + 1) * 2 ^ r
      = 2 ^ r * (f.position / 2 ^ r + 1) + 2 ^ r := by ring
  omega

theorem fragSched_take_leaves (hf : HashFn H) (l : List H) (n p : Nat)
    (f : AuthFragment H) (hp : p < n)
    (hs : fragSched hf l p f) : fragSched hf (l.take n) p f := by
  rcases Nat.lt_or_ge l.length n with hln | hln
  · rw [List.take_of_length_le (by omega)]
    exact hs
  obtain ⟨h1, h2, h3, h4, h5⟩ := hs
  refine ⟨h1, h2, h3, h4, ?_⟩
  conv_lhs => rw [h5]
  refine List.map_congr_left ?_
  intro r hr
  have hc := h3 r ((List.drop_subset _ _) hr)
  have hcv := cpos_val f.position r
  have hP := Nat.two_pow_pos r
  have hsplit : l = l.take n ++ l.drop n := (List.take_append_drop n l).symm
  have hlent : (l.take n).length = n := by
    rw [List.length_take]
    omega
  conv_lhs => rw [hsplit]
  refine nodeHash_extend hf (l.take n) (l.drop n) r (f.position / 2 ^ r + 1) ?_
  rw [hlent]
  have hr2 : (f.position / 2 ^ r + 1 + 1) * 2 ^ r
      = 2 ^ r * (f.position / 2 ^ r + 1) + 2 ^ r := by ring
  omega

theorem semBridge_append_leaves (hf : HashFn H) (l extra : List H)
    (B : MerkleBridge H) (hs : semBridge hf l B) : semBridge hf (l ++ extra) B := by
  obtain ⟨h1, h2, h3⟩ := hs
  refine ⟨by rw [List.length_append]; omega, ?_, ?_⟩
  · rw [List.take_append_of_le_length h1]
    exact h2
  · intro kf hkf
    exact fragSched_append_leaves hf l extra _ kf.2 (by omega) (h3 kf hkf)

theorem semBridge_take_leaves (hf : HashFn H) (l : List H) (n : Nat)
    (B : MerkleBridge H) (hn : B.frontier.position < n)
    (hs : semBridge hf l B) : semBridge hf (l.take n) B := by
  obtain ⟨h1, h2, h3⟩ := hs
  refine ⟨?_, ?_, ?_⟩
  · rw [List.length_take]
    omega
  · rw [List.take_take, Nat.min_eq_left (by omega)]
    exact h2
  · intro kf hkf
    exact fragSched_take_leaves hf l n _ _ hn (h3 kf hkf)

theorem frontierFor_singleton (hf : HashFn H) (v : H) :
    frontierFor hf [v] 0 = NonEmptyFrontier.new v := rfl

theorem augment_full (hf : HashFn H) (f : AuthFragment H)
    (fr : NonEmptyFrontier H) (h : f.values.length = f.altitudesObserved) :
    (f.augment hf fr).values.length = (f.augment hf fr).altitudesObserved := by
  obtain ⟨_, d, hobs, hval⟩ := augment_spec hf f fr
  omega

theorem fragSched_successor (hf : HashFn H) (l : List H) (p : Nat)
    (f : AuthFragment H) (hs : fragSched hf l p f) :
    fragSched hf l p f.successor := by
  obtain ⟨h1, h2, h3, h4, _⟩ := hs
  refine ⟨h1, Nat.zero_le _, h3, h4, ?_⟩
  show ([] : List H)
      = (((allAltitudesRequired f.position).take f.altitudesObserved).drop
          (f.altitudesObserved - ([] : List H).length)).map
        (fun r => nodeHash hf l r (f.position / 2 ^ r + 1))
  rw [List.drop_eq_nil_of_le (by
    rw [List.length_take]
    simpa using Nat.min_le_left f.altitudesObserved _)]
  rfl

theorem fragSched_new (hf : HashFn H) (l : List H) (q : Nat) :
    fragSched hf l q (AuthFragment.new (H := H) q) := by
  refine ⟨Nat.zero_le _, Nat.le_refl _, ?_, ?_, rfl⟩
  · intro r hr
    rw [show (AuthFragment.new (H := H) q).altitudesObserved = 0 from rfl,
      List.take_zero] at hr
    cases hr
  · intro r _
    exact cpos_gt_self _ r

theorem get?_dropLast_append {α : Type} (l : List α) (x : α) {j : Nat}
    (hj : j < l.length - 1) : (l.dropLast ++ [x]).get? j = l.get? j := by
  rw [List.get?_append (by rw [List.length_dropLast]; omega)]
  rw [List.dropLast_eq_take, List.get?_take hj]

theorem chain_head_trans {α : Type} {R : α → α → Prop}
    (htr : ∀ a b c, R a b → R b c → R a c) :
    ∀ {l : List α} {a : α}, List.Chain R a l → ∀ b ∈ l, R a b := by
  intro l
  induction l with
  | nil => intro a _ b hb; cases hb
  | cons c tl ih =>
    intro a h b hb
    rw [List.chain_cons] at h
    rcases List.mem_cons.mp hb with rfl | hb2
    · exact h.1
    · exact htr a c b h.1 (ih h.2 b hb2)

theorem chain'_pairwise_of_trans {α : Type} {R : α → α → Prop}
    (htr : ∀ a b c, R a b → R b c → R a c) :
    ∀ {l : List α}, List.Chain' R l → List.Pairwise R l := by
  intro l
  induction l with
  | nil => intro _; exact List.Pairwise.nil
  | cons a tl ih =>
    intro h
    rw [List.chain'_cons'] at h
    have hch : List.Chain' R tl := h.2
    refine List.Pairwise.cons ?_ (ih hch)
    intro b hb
    cases tl with
    | nil => cases hb
    | cons c tl2 =>
      have hac : R a c := h.1 c rfl
      rcases List.mem_cons.mp hb with rfl | hb2
      · exact hac
      · exact htr a c b hac (chain_head_trans htr hch b hb2)

theorem semInv_new (hf : HashFn H) (m : Nat) :
    SemInv hf [] (BridgeTree.new (H := H) m) := by
  refine ⟨rfl, ?_, ?_, ?_, ?_, ?_, ?_⟩
  · intro B hB; cases hB
  · intro j B hjB; cases hjB
  · intro j B hjB; cases hjB
  · intro j B hjB; cases hjB
  · intro c hc; cases hc
  · intro j j' c c' hj; cases hj

theorem semInv_removeWitness [DecidableEq H] (hf : HashFn H) {leaves : List H}
    {T : BridgeTree H} (v : H) (hS : SemInv hf leaves T) :
    SemInv hf leaves (T.removeWitness v).2 :=
  ⟨hS.lenEq, hS.bOk, hS.anchor, hS.origin, hS.succKey, hS.ckpts, hS.ckptMono⟩

theorem semInv_dropOldest (hf : HashFn H) {leaves : List H}
    {T : BridgeTree H} (hS : SemInv hf leaves T) :
    SemInv hf leaves (T.dropOldestCheckpoint).2 := by
  unfold BridgeTree.dropOldestCheckpoint
  by_cases he : T.checkpoints.isEmpty
  · rw [if_pos he]
    exact hS
  · rw [if_neg he]
    refine ⟨hS.lenEq, hS.bOk, hS.anchor, hS.origin, hS.succKey, ?_, ?_⟩
    · intro c hc
      exact hS.ckpts c ((List.drop_subset _ _) hc)
    · intro j j' c c' hj hj' hle
      refine hS.ckptMono (1 + j) (1 + j') c c' ?_ ?_ (by omega)
      · rw [← List.get?_drop]
        exact hj
      · rw [← List.get?_drop]
        exact hj'

theorem semInv_push_ckpt [DecidableEq H] (hf : HashFn H) {leaves : List H}
    {T : BridgeTree H} (hS : SemInv hf leaves T) :
    SemInv hf leaves
      { T with checkpoints := T.checkpoints ++
          [match T.bridges.getLast? with
           | none => Checkpoint.empty
           | some last => Checkpoint.atIndex (T.bridges.length - 1) last] } := by
  cases hL : T.bridges.getLast? with
  | none =>
    refine ⟨hS.lenEq, hS.bOk, hS.anchor, hS.origin, hS.succKey, ?_, ?_⟩
    · intro c hc i B hcB
      rcases List.mem_append.mp hc with hc2 | hc2
      · exact hS.ckpts c hc2 i B hcB
      · have hce : c = Checkpoint.empty := by simpa using hc2
        rw [hce] at hcB
        cases hcB
    · intro j j' c c' hj hj' hle i B hcB i' B' hcB'
      rcases get?_concat_cases hj' with ⟨hlt', hj2'⟩ | ⟨hje', hce'⟩
      · rcases get?_concat_cases hj with ⟨hlt, hj2⟩ | ⟨hje, hce⟩
        · exact hS.ckptMono j j' c c' hj2 hj2' hle i B hcB i' B' hcB'
        · omega
      · rw [hce'] at hcB'
        cases hcB'
  | some last =>
    have hlen2 : leaves.length = last.frontier.position + 1 := by
      have h := hS.lenEq
      rw [hL] at h
      exact h
    refine ⟨hS.lenEq, hS.bOk, hS.anchor, hS.origin, hS.succKey, ?_, ?_⟩
    · intro c hc i B hcB
      rcases List.mem_append.mp hc with hc2 | hc2
      · exact hS.ckpts c hc2 i B hcB
      · have hce : c = Checkpoint.atIndex (T.bridges.length - 1) last := by
          simpa using hc2
        rw [hce] at hcB
        injection hcB with hi hB
        subst hi
        subst hB
        have hgl := get?_of_getLast? hL
        refine ⟨hS.bOk last (mem_of_get? hgl), hS.anchor _ last hgl,
          hS.origin _ last hgl, ?_⟩
        intro h1
        refine hS.succKey (T.bridges.length - 1 - 1) last ?_
        rw [show T.bridges.length - 1 - 1 + 1 = T.bridges.length - 1 from by
          have := (List.get?_eq_some.mp hgl).1
          omega]
        exact hgl
    · intro j j' c c' hj hj' hle i B hcB i' B' hcB'
      rcases get?_concat_cases hj' with ⟨hlt', hj2'⟩ | ⟨hje', hce'⟩
      · rcases get?_concat_cases hj with ⟨hlt, hj2⟩ | ⟨hje, hce⟩
        · exact hS.ckptMono j j' c c' hj2 hj2' hle i B hcB i' B' hcB'
        · omega
      · subst hce'
        rcases get?_concat_cases hj with ⟨hlt, hj2⟩ | ⟨hje, hce⟩
        · injection hcB' with hi hB
          subst hB
          obtain ⟨hb1, _, _⟩ := (hS.ckpts c (mem_of_get? hj2) i B hcB).1
          omega
        · subst hce
          rw [hcB] at hcB'
          injection hcB' with hi hB
          subst hB
          exact Nat.le_refl _

theorem semInv_checkpoint [DecidableEq H] (hf : HashFn H) {leaves : List H}
    {T : BridgeTree H} (hS : SemInv hf leaves T) :
    SemInv hf leaves T.checkpoint := by
  unfold BridgeTree.checkpoint
  have hpush := semInv_push_ckpt hf hS
  by_cases hc : T.maxCheckpoints <
      (T.checkpoints ++
        [match T.bridges.getLast? with
         | none => Checkpoint.empty
         | some last => Checkpoint.atIndex (T.bridges.length - 1) last]).length
  · rw [if_pos hc]
    exact semInv_dropOldest hf hpush
  · rw [if_neg hc]
    exact hpush

theorem alistLookup_keys_none {V : Type} :
    ∀ (l : List (Nat × V)) (k : Nat), (∀ p ∈ l, p.1 < k) → alistLookup l k = none := by
  intro l
  induction l with
  | nil => intro k _; rfl
  | cons a tl ih =>
    intro k hk
    obtain ⟨ka, va⟩ := a
    show (if ka = k then some va else alistLookup tl k) = none
    rw [if_neg (by have := hk (ka, va) (List.mem_cons_self _ _); omega)]
    exact ih k (fun p hp => hk p (List.mem_cons_of_mem _ hp))

theorem semInv_witness_push [DecidableEq H] (hf : HashFn H) {DEPTH : Nat}
    {leaves : List H} {T : BridgeTree H} (hS : SemInv hf leaves T)
    (hI : Inv DEPTH T) {cur : MerkleBridge H}
    (hL : T.bridges.getLast? = some cur) (sv : List (H × Nat)) :
    SemInv hf leaves
      { T with saved := sv,
               bridges := T.bridges ++ [cur.successor (T.bridges.length - 1)] } := by
  have hgetcur : T.bridges.get? (T.bridges.length - 1) = some cur :=
    get?_of_getLast? hL
  have hn1 : 1 ≤ T.bridges.length := by
    have := (List.get?_eq_some.mp hgetcur).1
    omega
  have hkeys : ∀ p ∈ cur.authFragments, p.1 < T.bridges.length - 1 :=
    hI.keyBound _ cur hgetcur
  have hfr : (cur.successor (T.bridges.length - 1)).authFragments =
      cur.authFragments.map (fun p => (p.1, p.2.successor)) ++
        [(T.bridges.length - 1, AuthFragment.new cur.frontier.position)] :=
    successor_fragments cur _ hkeys
  obtain ⟨hc1, hc2, hc3⟩ := hS.bOk cur (mem_of_get? hgetcur)
  have hlen2 : leaves.length = cur.frontier.position + 1 := by
    have h := hS.lenEq
    rw [hL] at h
    exact h
  refine ⟨?_, ?_, ?_, ?_, ?_, ?_, ?_⟩
  · show match (T.bridges ++ [cur.successor (T.bridges.length - 1)]).getLast? with
      | none => leaves = []
      | some L => leaves.length = L.frontier.position + 1
    rw [List.getLast?_concat]
    exact hlen2
  · intro B hB
    rcases List.mem_append.mp hB with hB2 | hB2
    · exact hS.bOk B hB2
    · have hBe : B = cur.successor (T.bridges.length - 1) := by simpa using hB2
      subst hBe
      refine ⟨hc1, hc2, ?_⟩
      intro kf hkf
      rw [hfr] at hkf
      rcases List.mem_append.mp hkf with hkf2 | hkf2
      · obtain ⟨q, hq, rfl⟩ := List.mem_map.mp hkf2
        exact fragSched_successor hf leaves _ q.2 (hc3 q hq)
      · have hkfe : kf = (T.bridges.length - 1,
            AuthFragment.new cur.frontier.position) := by simpa using hkf2
        subst hkfe
        exact fragSched_new hf leaves cur.frontier.position
  · intro j B hjB kf hkf
    rcases get?_concat_cases hjB with ⟨hlt, hj2⟩ | ⟨hje, hBe⟩
    · obtain ⟨A, hA, hApos⟩ := hS.anchor j B hj2 kf hkf
      exact ⟨A, by rw [List.get?_append (List.get?_eq_some.mp hA).1]; exact hA, hApos⟩
    · subst hBe
      rw [hfr] at hkf
      rcases List.mem_append.mp hkf with hkf2 | hkf2
      · obtain ⟨q, hq, rfl⟩ := List.mem_map.mp hkf2
        obtain ⟨A, hA, hApos⟩ := hS.anchor _ cur hgetcur q hq
        exact ⟨A, by rw [List.get?_append (List.get?_eq_some.mp hA).1]; exact hA, hApos⟩
      · have hkfe : kf = (T.bridges.length - 1,
            AuthFragment.new cur.frontier.position) := by simpa using hkf2
        subst hkfe
        refine ⟨cur, ?_, rfl⟩
        rw [List.get?_append (by omega)]
        exact hgetcur
  · intro j B hjB kf hkf hkj
    rcases get?_concat_cases hjB with ⟨hlt, hj2⟩ | ⟨hje, hBe⟩
    · exact hS.origin j B hj2 kf hkf hkj
    · subst hBe
      rw [hfr] at hkf
      rcases List.mem_append.mp hkf with hkf2 | hkf2
      · obtain ⟨q, hq, rfl⟩ := List.mem_map.mp hkf2
        have := hkeys q hq
        omega
      · have hkfe : kf = (T.bridges.length - 1,
            AuthFragment.new cur.frontier.position) := by simpa using hkf2
        subst hkfe
        rfl
  · intro j B hjB
    rcases get?_concat_cases hjB with ⟨hlt, hj2⟩ | ⟨hje, hBe⟩
    · exact hS.succKey j B hj2
    · subst hBe
      rw [hfr, alistLookup_append]
      rw [alistLookup_keys_none _ j (by
        intro p hp
        obtain ⟨q, hq, rfl⟩ := List.mem_map.mp hp
        have := hkeys q hq
        omega)]
      show (alistLookup [(T.bridges.length - 1,
        AuthFragment.new (H := H) cur.frontier.position)] j).isSome = true
      show (if T.bridges.length - 1 = j then some (AuthFragment.new (H := H)
        cur.frontier.position) else alistLookup [] j).isSome = true
      rw [if_pos (by omega)]
      rfl
  · intro c hc i B hcB
    obtain ⟨hsem, hanc, horig, hlk⟩ := hS.ckpts c hc i B hcB
    refine ⟨hsem, ?_, horig, hlk⟩
    intro kf hkf
    obtain ⟨A, hA, hApos⟩ := hanc kf hkf
    exact ⟨A, by rw [List.get?_append (List.get?_eq_some.mp hA).1]; exact hA, hApos⟩
  · exact hS.ckptMono

theorem semInv_witness [DecidableEq H] (hf : HashFn H) {DEPTH : Nat}
    {leaves : List H} {T : BridgeTree H} (hS : SemInv hf leaves T)
    (hI : Inv DEPTH T) : SemInv hf leaves (T.witness).2 := by
  cases hL : T.bridges.getLast? with
  | none =>
    have hres : (T.witness).2 = T := by simp [BridgeTree.witness, hL]
    rw [hres]
    exact hS
  | some cur =>
    cases hprev : T.bridges.dropLast.getLast? with
    | none =>
      have hres : (T.witness).2 =
          { T with
            saved := alistOrInsert T.saved cur.leafValue (T.bridges.length - 1),
            bridges := T.bridges ++ [cur.successor (T.bridges.length - 1)] } := by
        simp [BridgeTree.witness, hL, hprev]
      rw [hres]
      exact semInv_witness_push hf hS hI hL _
    | some prev =>
      by_cases hfr : cur.frontier = prev.frontier
      · have hres : (T.witness).2 =
            { T with
              saved := alistOrInsert T.saved cur.leafValue
                (T.bridges.length - 1 - 1) } := by
          simp [BridgeTree.witness, hL, hprev, hfr]
        rw [hres]
        exact ⟨hS.lenEq, hS.bOk, hS.anchor, hS.origin, hS.succKey, hS.ckpts,
          hS.ckptMono⟩
      · have hres : (T.witness).2 =
            { T with
              saved := alistOrInsert T.saved cur.leafValue (T.bridges.length - 1),
              bridges := T.bridges ++ [cur.successor (T.bridges.length - 1)] } := by
          simp [BridgeTree.witness, hL, hprev, hfr]
        rw [hres]
        exact semInv_witness_push hf hS hI hL _

theorem semInv_append [DecidableEq H] (hf : HashFn H) (DEPTH : Nat) (v : H)
    {leaves : List H} {T : BridgeTree H} (hS : SemInv hf leaves T)
    (hI : Inv DEPTH T) (hD : DEPTH ≤ 64) :
    ∃ leaves2, SemInv hf leaves2 (T.append hf DEPTH v).2 := by
  cases hL : T.bridges.getLast? with
  | none =>
    have hlv : leaves = [] := by
      have h := hS.lenEq
      rw [hL] at h
      exact h
    have hres : (T.append hf DEPTH v).2 = { T with bridges := [MerkleBridge.new v] } := by
      simp [BridgeTree.append, hL]
    rw [hres]
    refine ⟨[v], ?_, ?_, ?_, ?_, ?_, ?_, ?_⟩
    · exact rfl
    · intro B hB
      have hBe : B = MerkleBridge.new v := by simpa using hB
      subst hBe
      refine ⟨Nat.le_refl _, (frontierFor_singleton hf v).symm, ?_⟩
      intro kf hkf
      simp [MerkleBridge.new] at hkf
    · intro j B hjB kf hkf
      cases j with
      | zero =>
        injection hjB with hB
        rw [← hB] at hkf
        simp [MerkleBridge.new] at hkf
      | succ jj => cases hjB
    · intro j B hjB kf hkf hkj
      cases j with
      | zero =>
        injection hjB with hB
        rw [← hB] at hkf
        simp [MerkleBridge.new] at hkf
      | succ jj => cases hjB
    · intro j B hjB
      cases hjB
    · intro c hc i B hcB
      exfalso
      obtain ⟨h1', _, _⟩ := (hS.ckpts c hc i B hcB).1
      rw [hlv] at h1'
      simp at h1'
    · intro j j' c c' hj hj' hle i B hcB i' B' hcB'
      exfalso
      obtain ⟨h1', _, _⟩ := (hS.ckpts c (mem_of_get? hj) i B hcB).1
      rw [hlv] at h1'
      simp at h1'
  | some L =>
    by_cases hsat : isComplete L.frontier.position DEPTH = true
    · refine ⟨leaves, ?_⟩
      have hres : (T.append hf DEPTH v).2 = T := by
        simp [BridgeTree.append, hL, hsat]
      rw [hres]
      exact hS
    · have hres : (T.append hf DEPTH v).2 =
          { T with bridges := T.bridges.dropLast ++ [L.append hf v] } := by
        simp [BridgeTree.append, hL, hsat]
      rw [hres]
      have hsatf : isComplete L.frontier.position DEPTH = false := by
        revert hsat
        cases isComplete L.frontier.position DEPTH <;> simp
      have hgetL : T.bridges.get? (T.bridges.length - 1) = some L :=
        get?_of_getLast? hL
      have hn1 : 1 ≤ T.bridges.length := by
        have := (List.get?_eq_some.mp hgetL).1
        omega
      have hinitlen : T.bridges.dropLast.length = T.bridges.length - 1 :=
        List.length_dropLast _
      have hgd : ∀ j, j < T.bridges.length - 1 →
          T.bridges.dropLast.get? j = T.bridges.get? j := by
        intro j hj
        rw [List.dropLast_eq_take, List.get?_take hj]
      have hlen2 : leaves.length = L.frontier.position + 1 := by
        have h := hS.lenEq
        rw [hL] at h
        exact h
      have h64 : L.frontier.position + 1 < 2 ^ 64 := by
        have hp2 := (hI.good L (mem_of_get? hgetL)).2.1
        have hps := position_succ_lt hsatf hp2
        have hmono : (2:Nat) ^ DEPTH ≤ 2 ^ 64 :=
          Nat.pow_le_pow_right (by omega) hD
        omega
      obtain ⟨hc1, hc2, hc3⟩ := hS.bOk L (mem_of_get? hgetL)
      have hfrL : L.frontier = frontierFor hf leaves L.frontier.position := by
        rw [List.take_of_length_le (by omega)] at hc2
        exact hc2
      have happA : L.frontier.append hf v
          = frontierFor hf (leaves ++ [v]) (L.frontier.position + 1) := by
        rw [hfrL]
        exact frontierFor_append hf leaves L.frontier.position hlen2 h64 v
      have happF : (L.append hf v).frontier
          = frontierFor hf (leaves ++ [v]) (L.frontier.position + 1) := happA
      have hpw : List.Pairwise posMonoRel T.bridges :=
        chain'_pairwise_of_trans (R := posMonoRel)
          (fun a b c h1 h2 => Nat.le_trans h1 h2) hI.posMono
      have hApos_le : ∀ q, q ∈ L.authFragments →
          q.2.position ≤ L.frontier.position := by
        intro q hq
        obtain ⟨A, hA, hApos⟩ := hS.anchor _ L hgetL q hq
        have hk := hI.keyBound _ L hgetL q hq
        have hrel : posMonoRel A L := pairwise_get?_rel hpw (by omega) hA hgetL
        rw [hApos]
        exact hrel
      have hsched : ∀ q, q ∈ L.authFragments →
          fragSched hf (leaves ++ [v]) (L.frontier.position + 1)
            (q.2.augment hf (L.frontier.append hf v)) := by
        intro q hq
        rw [happA]
        exact fragSched_augment hf leaves v L.frontier.position hlen2 h64
          q.2 (hApos_le q hq) (hc3 q hq)
      refine ⟨leaves ++ [v], ?_, ?_, ?_, ?_, ?_, ?_, ?_⟩
      · show match (T.bridges.dropLast ++ [L.append hf v]).getLast? with
          | none => leaves ++ [v] = []
          | some B => (leaves ++ [v]).length = B.frontier.position + 1
        rw [List.getLast?_concat]
        show (leaves ++ [v]).length = (L.append hf v).frontier.position + 1
        rw [bridgeAppend_position, List.length_append, List.length_singleton]
        omega
      · intro B hB
        rcases List.mem_append.mp hB with hB2 | hB2
        · exact semBridge_append_leaves hf leaves [v] B
            (hS.bOk B ((List.dropLast_sublist _).subset hB2))
        · have hBe : B = L.append hf v := by simpa using hB2
          subst hBe
          refine ⟨?_, ?_, ?_⟩
          · rw [bridgeAppend_position, List.length_append, List.length_singleton]
            omega
          · rw [bridgeAppend_position, happF,
              List.take_of_length_le (by
                rw [List.length_append, List.length_singleton]
                omega)]
          · intro kf hkf
            rw [bridgeAppend_fragments] at hkf
            obtain ⟨q, hq, rfl⟩ := List.mem_map.mp hkf
            show fragSched hf (leaves ++ [v]) ((L.append hf v).frontier.position)
              (q.2.augment hf (L.frontier.append hf v))
            rw [bridgeAppend_position]
            exact hsched q hq
      · intro j B hjB kf hkf
        rcases get?_concat_cases hjB with ⟨hlt, hj2⟩ | ⟨hje, hBe⟩
        · rw [hinitlen] at hlt
          rw [hgd j hlt] at hj2
          obtain ⟨A, hA, hApos⟩ := hS.anchor j B hj2 kf hkf
          have hk := hI.keyBound j B hj2 kf hkf
          refine ⟨A, ?_, hApos⟩
          rw [List.get?_append (by rw [hinitlen]; omega), hgd kf.1 (by omega)]
          exact hA
        · subst hBe
          rw [bridgeAppend_fragments] at hkf
          obtain ⟨q, hq, rfl⟩ := List.mem_map.mp hkf
          obtain ⟨A, hA, hApos⟩ := hS.anchor _ L hgetL q hq
          have hk := hI.keyBound _ L hgetL q hq
          refine ⟨A, ?_, ?_⟩
          · rw [List.get?_append (by rw [hinitlen]; omega), hgd q.1 (by omega)]
            exact hA
          · show (q.2.augment hf (L.frontier.append hf v)).position
              = A.frontier.position
            rw [(augment_spec hf q.2 (L.frontier.append hf v)).1]
            exact hApos
      · intro j B hjB kf hkf hkj
        rcases get?_concat_cases hjB with ⟨hlt, hj2⟩ | ⟨hje, hBe⟩
        · rw [hinitlen] at hlt
          rw [hgd j hlt] at hj2
          exact hS.origin j B hj2 kf hkf hkj
        · subst hBe
          rw [bridgeAppend_fragments] at hkf
          obtain ⟨q, hq, rfl⟩ := List.mem_map.mp hkf
          have horig := hS.origin (T.bridges.length - 1) L hgetL q hq (by
            rw [hinitlen] at hje
            omega)
          exact augment_full hf q.2 _ horig
      · intro j B hjB
        rcases get?_concat_cases hjB with ⟨hlt, hj2⟩ | ⟨hje, hBe⟩
        · rw [hinitlen] at hlt
          rw [hgd (j + 1) hlt] at hj2
          exact hS.succKey j B hj2
        · subst hBe
          have hjv : j + 1 = T.bridges.length - 1 := by
            rw [hinitlen] at hje
            omega
          have hold := hS.succKey j L (by rw [hjv]; exact hgetL)
          have hmap : alistLookup (L.append hf v).authFragments j
              = (alistLookup L.authFragments j).map
                (fun fr => fr.augment hf (L.frontier.append hf v)) := by
            rw [bridgeAppend_fragments]
            exact alistLookup_map_value (H := Nat)
              (fun fr2 => fr2.augment hf (L.frontier.append hf v)) L.authFragments j
          rw [hmap]
          cases h2 : alistLookup L.authFragments j with
          | none => rw [h2] at hold; cases hold
          | some q => rfl
      · intro c hc i B hcB
        obtain ⟨hsem, hanc, horig2, hlk⟩ := hS.ckpts c hc i B hcB
        have hok := hI.ckptOk c hc
        rw [hcB] at hok
        obtain ⟨hilt, _, _, hkeys, _, _⟩ := hok
        refine ⟨semBridge_append_leaves hf leaves [v] B hsem, ?_, horig2, hlk⟩
        intro kf hkf
        obtain ⟨A, hA, hApos⟩ := hanc kf hkf
        have hk := hkeys kf hkf
        refine ⟨A, ?_, hApos⟩
        rw [List.get?_append (by rw [hinitlen]; omega), hgd kf.1 (by omega)]
        exact hA
      · exact hS.ckptMono

theorem semInv_rewind_prep [DecidableEq H] (hf : HashFn H) {DEPTH : Nat}
    {leaves : List H} {T : BridgeTree H} (hS : SemInv hf leaves T)
    (hI : Inv DEPTH T) {i : Nat} {snap : MerkleBridge H}
    (hck : T.checkpoints.getLast? = some (Checkpoint.atIndex i snap)) :
    i < T.bridges.length ∧
    (∀ j B, j < i → T.bridges.get? j = some B →
      B.frontier.position ≤ snap.frontier.position) ∧
    (∀ j' c', T.checkpoints.dropLast.get? j' = some c' → ∀ i' B',
      c' = Checkpoint.atIndex i' B' →
      B'.frontier.position ≤ snap.frontier.position ∧ i' ≤ i) := by
  have hgl := get?_of_getLast? hck
  obtain ⟨hilt, hprior, hgoodsnap, hkeys, htriple, hpair⟩ :=
    hI.ckptOk _ (mem_of_get? hgl)
  obtain ⟨bi, hbi⟩ : ∃ bi, T.bridges.get? i = some bi := by
    cases hgi : T.bridges.get? i with
    | none =>
      rw [List.get?_eq_none] at hgi
      omega
    | some b => exact ⟨b, rfl⟩
  have hpri : bi.priorPosition = snap.priorPosition := by
    rw [hbi] at hprior
    simp only [Option.map_some'] at hprior
    injection hprior with h2
  have hpw : List.Pairwise posMonoRel T.bridges :=
    chain'_pairwise_of_trans (R := posMonoRel)
      (fun a b c h1 h2 => Nat.le_trans h1 h2) hI.posMono
  refine ⟨hilt, ?_, ?_⟩
  · intro j B hj hB
    obtain ⟨Y, hY⟩ : ∃ Y, T.bridges.get? (i - 1) = some Y := by
      cases hgi : T.bridges.get? (i - 1) with
      | none =>
        rw [List.get?_eq_none] at hgi
        omega
      | some b => exact ⟨b, rfl⟩
    have hrel : chainRel Y bi := chain'_rel_of_get? hI.chain (i - 1) Y bi hY
      (by rw [show i - 1 + 1 = i from by omega]; exact hbi)
    have hYle : Y.frontier.position ≤ snap.frontier.position := by
      have hrel2 : bi.priorPosition = some Y.frontier.position := hrel
      rw [hpri] at hrel2
      exact hgoodsnap.1 _ hrel2
    rcases Nat.eq_or_lt_of_le (show j ≤ i - 1 from by omega) with heq | hlt
    · rw [heq, hY] at hB
      injection hB with hB2
      rw [hB2] at hYle
      exact hYle
    · have hrel3 : posMonoRel B Y := pairwise_get?_rel hpw hlt hB hY
      exact Nat.le_trans hrel3 hYle
  · intro j' c' hj' i' B' hcB'
    have hj'lt : j' < T.checkpoints.dropLast.length :=
      (List.get?_eq_some.mp hj').1
    rw [List.length_dropLast] at hj'lt
    have hj'o : T.checkpoints.get? j' = some c' := by
      rw [List.dropLast_eq_take, List.get?_take hj'lt] at hj'
      exact hj'
    have hgl2 : T.checkpoints.get? (T.checkpoints.length - 1)
        = some (Checkpoint.atIndex i snap) := get?_of_getLast? hck
    constructor
    · exact hS.ckptMono j' (T.checkpoints.length - 1) c' _ hj'o hgl2
        (by omega) i' B' hcB' i snap rfl
    · have hcps : T.checkpoints =
          T.checkpoints.dropLast ++ [Checkpoint.atIndex i snap] :=
        (dropLast_append_of_getLast? hck).symm
      have hordfull : List.Chain' ckptOrdRel
          (T.checkpoints.dropLast ++ [Checkpoint.atIndex i snap]) := by
        rw [← hcps]
        exact hI.ckptOrd
      exact ckpt_allLe hordfull c' (mem_of_get? hj') i' B' hcB'

theorem semInv_rewind_nopush [DecidableEq H] (hf : HashFn H) {DEPTH : Nat}
    {leaves : List H} {T : BridgeTree H} (hS : SemInv hf leaves T)
    (hI : Inv DEPTH T) {i : Nat} {snap : MerkleBridge H}
    (hck : T.checkpoints.getLast? = some (Checkpoint.atIndex i snap))
    (sv : List (H × Nat)) :
    SemInv hf (leaves.take (snap.frontier.position + 1))
      { T with checkpoints := T.checkpoints.dropLast,
               bridges := T.bridges.take i ++ [snap], saved := sv } := by
  obtain ⟨hilt, hposle, hcrest⟩ := semInv_rewind_prep hf hS hI hck
  have hgl := get?_of_getLast? hck
  obtain ⟨hilt2, hprior, hgoodsnap, hkeys, htriple, hpair⟩ :=
    hI.ckptOk _ (mem_of_get? hgl)
  obtain ⟨hsem, hanc, horig, hlk⟩ := hS.ckpts _ (mem_of_get? hgl) i snap rfl
  obtain ⟨hsn1, hsn2, hsn3⟩ := hsem
  have htklen : (T.bridges.take i).length = i := by
    rw [List.length_take]
    omega
  have hget' : ∀ j, j < i →
      (T.bridges.take i ++ [snap]).get? j = T.bridges.get? j := by
    intro j hj
    rw [List.get?_append (by omega), List.get?_take hj]
  have hgeti : (T.bridges.take i ++ [snap]).get? i = some snap := by
    have h2 := List.get?_concat_length (T.bridges.take i) snap
    rw [htklen] at h2
    exact h2
  have hdl : ∀ c ∈ T.checkpoints.dropLast, c ∈ T.checkpoints :=
    fun c hc => (List.dropLast_sublist _).subset hc
  have hdlg : ∀ j c, T.checkpoints.dropLast.get? j = some c →
      T.checkpoints.get? j = some c := by
    intro j c hj
    have hjlt := (List.get?_eq_some.mp hj).1
    rw [List.length_dropLast] at hjlt
    rw [List.dropLast_eq_take, List.get?_take hjlt] at hj
    exact hj
  refine ⟨?_, ?_, ?_, ?_, ?_, ?_, ?_⟩
  · show match (T.bridges.take i ++ [snap]).getLast? with
      | none => leaves.take (snap.frontier.position + 1) = []
      | some B => (leaves.take (snap.frontier.position + 1)).length
          = B.frontier.position + 1
    rw [List.getLast?_concat]
    show (leaves.take (snap.frontier.position + 1)).length
        = snap.frontier.position + 1
    rw [List.length_take]
    omega
  · intro B hB
    rcases List.mem_append.mp hB with hB2 | hB2
    · obtain ⟨j, hj⟩ := List.mem_iff_get?.mp hB2
      have hjlt := (List.get?_eq_some.mp hj).1
      rw [htklen] at hjlt
      rw [List.get?_take hjlt] at hj
      exact semBridge_take_leaves hf leaves _ B
        (by have := hposle j B hjlt hj; omega) (hS.bOk B (mem_of_get? hj))
    · have hBe : B = snap := by simpa using hB2
      subst hBe
      exact semBridge_take_leaves hf leaves _ B (by omega) ⟨hsn1, hsn2, hsn3⟩
  · intro j B hjB kf hkf
    rcases get?_concat_cases hjB with ⟨hlt, hj2⟩ | ⟨hje, hBe⟩
    · rw [htklen] at hlt
      rw [List.get?_take hlt] at hj2
      obtain ⟨A, hA, hApos⟩ := hS.anchor j B hj2 kf hkf
      have hk := hI.keyBound j B hj2 kf hkf
      refine ⟨A, ?_, hApos⟩
      rw [hget' kf.1 (by omega)]
      exact hA
    · subst hBe
      obtain ⟨A, hA, hApos⟩ := hanc kf hkf
      have hk := hkeys kf hkf
      refine ⟨A, ?_, hApos⟩
      rw [hget' kf.1 (by omega)]
      exact hA
  · intro j B hjB kf hkf hkj
    rcases get?_concat_cases hjB with ⟨hlt, hj2⟩ | ⟨hje, hBe⟩
    · rw [htklen] at hlt
      rw [List.get?_take hlt] at hj2
      exact hS.origin j B hj2 kf hkf hkj
    · subst hBe
      rw [htklen] at hje
      exact horig kf hkf (by omega)
  · intro j B hjB
    rcases get?_concat_cases hjB with ⟨hlt, hj2⟩ | ⟨hje, hBe⟩
    · rw [htklen] at hlt
      rw [List.get?_take hlt] at hj2
      exact hS.succKey j B hj2
    · subst hBe
      rw [htklen] at hje
      have h1i : 1 ≤ i := by omega
      have := hlk h1i
      rw [show i - 1 = j from by omega] at this
      exact this
  · intro c hc i' B' hcB'
    obtain ⟨j', hj'⟩ := List.mem_iff_get?.mp hc
    obtain ⟨hple', hile'⟩ := hcrest j' c hj' i' B' hcB'
    obtain ⟨sem', anc', orig', lk'⟩ := hS.ckpts c (hdl c hc) i' B' hcB'
    have hok' := hI.ckptOk c (hdl c hc)
    rw [hcB'] at hok'
    obtain ⟨hi'lt, _, _, hkeys', _, _⟩ := hok'
    refine ⟨semBridge_take_leaves hf leaves _ B' (by omega) sem', ?_, orig', lk'⟩
    intro kf hkf
    obtain ⟨A, hA, hApos⟩ := anc' kf hkf
    have hk := hkeys' kf hkf
    refine ⟨A, ?_, hApos⟩
    rw [hget' kf.1 (by omega)]
    exact hA
  · intro j j' c c' hj hj' hle i' B' hcB' i'' B'' hcB''
    exact hS.ckptMono j j' c c' (hdlg j c hj) (hdlg j' c' hj') hle
      i' B' hcB' i'' B'' hcB''

theorem semInv_rewind_push [DecidableEq H] (hf : HashFn H) {DEPTH : Nat}
    {leaves : List H} {T : BridgeTree H} (hS : SemInv hf leaves T)
    (hI : Inv DEPTH T) {i : Nat} {snap : MerkleBridge H}
    (hck : T.checkpoints.getLast? = some (Checkpoint.atIndex i snap))
    (sv : List (H × Nat)) :
    SemInv hf (leaves.take (snap.frontier.position + 1))
      { T with checkpoints := T.checkpoints.dropLast,
               bridges := (T.bridges.take i ++ [snap]) ++ [snap.successor i],
               saved := sv } := by
  obtain ⟨hilt, hposle, hcrest⟩ := semInv_rewind_prep hf hS hI hck
  have hgl := get?_of_getLast? hck
  obtain ⟨hilt2, hprior, hgoodsnap, hkeys, htriple, hpair⟩ :=
    hI.ckptOk _ (mem_of_get? hgl)
  obtain ⟨hsem, hanc, horig, hlk⟩ := hS.ckpts _ (mem_of_get? hgl) i snap rfl
  obtain ⟨hsn1, hsn2, hsn3⟩ := hsem
  have htklen : (T.bridges.take i).length = i := by
    rw [List.length_take]
    omega
  have hXlen : (T.bridges.take i ++ [snap]).length = i + 1 := by
    rw [List.length_append, List.length_singleton, htklen]
  have hget' : ∀ j, j < i →
      (T.bridges.take i ++ [snap]).get? j = T.bridges.get? j := by
    intro j hj
    rw [List.get?_append (by omega), List.get?_take hj]
  have hgeti : (T.bridges.take i ++ [snap]).get? i = some snap := by
    have h2 := List.get?_concat_length (T.bridges.take i) snap
    rw [htklen] at h2
    exact h2
  have hget2 : ∀ j, j ≤ i →
      ((T.bridges.take i ++ [snap]) ++ [snap.successor i]).get? j
        = (T.bridges.take i ++ [snap]).get? j := by
    intro j hj
    rw [List.get?_append (by omega)]
  have hsfr : (snap.successor i).authFragments =
      snap.authFragments.map (fun p => (p.1, p.2.successor)) ++
        [(i, AuthFragment.new snap.frontier.position)] :=
    successor_fragments snap i hkeys
  obtain ⟨ht1, ht2, ht3⟩ := semBridge_take_leaves hf leaves
    (snap.frontier.position + 1) snap (by omega) ⟨hsn1, hsn2, hsn3⟩
  have hdl : ∀ c ∈ T.checkpoints.dropLast, c ∈ T.checkpoints :=
    fun c hc => (List.dropLast_sublist _).subset hc
  have hdlg : ∀ j c, T.checkpoints.dropLast.get? j = some c →
      T.checkpoints.get? j = some c := by
    intro j c hj
    have hjlt := (List.get?_eq_some.mp hj).1
    rw [List.length_dropLast] at hjlt
    rw [List.dropLast_eq_take, List.get?_take hjlt] at hj
    exact hj
  refine ⟨?_, ?_, ?_, ?_, ?_, ?_, ?_⟩
  · show match ((T.bridges.take i ++ [snap]) ++ [snap.successor i]).getLast? with
      | none => leaves.take (snap.frontier.position + 1) = []
      | some B => (leaves.take (snap.frontier.position + 1)).length
          = B.frontier.position + 1
    rw [List.getLast?_concat]
    show (leaves.take (snap.frontier.position + 1)).length
        = snap.frontier.position + 1
    rw [List.length_take]
    omega
  · intro B hB
    rcases List.mem_append.mp hB with hB2 | hB2
    · rcases List.mem_append.mp hB2 with hB3 | hB3
      · obtain ⟨j, hj⟩ := List.mem_iff_get?.mp hB3
        have hjlt := (List.get?_eq_some.mp hj).1
        rw [htklen] at hjlt
        rw [List.get?_take hjlt] at hj
        exact semBridge_take_leaves hf leaves _ B
          (by have := hposle j B hjlt hj; omega) (hS.bOk B (mem_of_get? hj))
      · have hBe : B = snap := by simpa using hB3
        subst hBe
        exact ⟨ht1, ht2, ht3⟩
    · have hBe : B = snap.successor i := by simpa using hB2
      subst hBe
      refine ⟨ht1, ht2, ?_⟩
      intro kf hkf
      rw [hsfr] at hkf
      rcases List.mem_append.mp hkf with hkf2 | hkf2
      · obtain ⟨q, hq, rfl⟩ := List.mem_map.mp hkf2
        exact fragSched_successor hf _ _ q.2 (ht3 q hq)
      · have hkfe : kf = (i, AuthFragment.new snap.frontier.position) := by
          simpa using hkf2
        subst hkfe
        exact fragSched_new hf _ snap.frontier.position
  · intro j B hjB kf hkf
    rcases get?_concat_cases hjB with ⟨hlt, hj2⟩ | ⟨hje, hBe⟩
    · rcases get?_concat_cases hj2 with ⟨hlt2, hj3⟩ | ⟨hje2, hBe2⟩
      · rw [htklen] at hlt2
        rw [List.get?_take hlt2] at hj3
        obtain ⟨A, hA, hApos⟩ := hS.anchor j B hj3 kf hkf
        have hk := hI.keyBound j B hj3 kf hkf
        refine ⟨A, ?_, hApos⟩
        rw [hget2 kf.1 (by omega), hget' kf.1 (by omega)]
        exact hA
      · subst hBe2
        obtain ⟨A, hA, hApos⟩ := hanc kf hkf
        have hk := hkeys kf hkf
        refine ⟨A, ?_, hApos⟩
        rw [hget2 kf.1 (by omega), hget' kf.1 (by omega)]
        exact hA
    · subst hBe
      rw [hsfr] at hkf
      rcases List.mem_append.mp hkf with hkf2 | hkf2
      · obtain ⟨q, hq, rfl⟩ := List.mem_map.mp hkf2
        obtain ⟨A, hA, hApos⟩ := hanc q hq
        have hk := hkeys q hq
        refine ⟨A, ?_, hApos⟩
        rw [hget2 q.1 (by omega), hget' q.1 (by omega)]
        exact hA
      · have hkfe : kf = (i, AuthFragment.new snap.frontier.position) := by
          simpa using hkf2
        subst hkfe
        refine ⟨snap, ?_, rfl⟩
        rw [hget2 i (Nat.le_refl i)]
        exact hgeti
  · intro j B hjB kf hkf hkj
    rcases get?_concat_cases hjB with ⟨hlt, hj2⟩ | ⟨hje, hBe⟩
    · rcases get?_concat_cases hj2 with ⟨hlt2, hj3⟩ | ⟨hje2, hBe2⟩
      · rw [htklen] at hlt2
        rw [List.get?_take hlt2] at hj3
        exact hS.origin j B hj3 kf hkf hkj
      · subst hBe2
        rw [htklen] at hje2
        exact horig kf hkf (by omega)
    · subst hBe
      rw [hXlen] at hje
      rw [hsfr] at hkf
      rcases List.mem_append.mp hkf with hkf2 | hkf2
      · obtain ⟨q, hq, rfl⟩ := List.mem_map.mp hkf2
        have := hkeys q hq
        omega
      · have hkfe : kf = (i, AuthFragment.new snap.frontier.position) := by
          simpa using hkf2
        subst hkfe
        rfl
  · intro j B hjB
    rcases get?_concat_cases hjB with ⟨hlt, hj2⟩ | ⟨hje, hBe⟩
    · rcases get?_concat_cases hj2 with ⟨hlt2, hj3⟩ | ⟨hje2, hBe2⟩
      · rw [htklen] at hlt2
        rw [List.get?_take hlt2] at hj3
        exact hS.succKey j B hj3
      · subst hBe2
        rw [htklen] at hje2
        have h1i : 1 ≤ i := by omega
        have := hlk h1i
        rw [show i - 1 = j from by omega] at this
        exact this
    · subst hBe
      rw [hXlen] at hje
      rw [hsfr, alistLookup_append]
      rw [alistLookup_keys_none _ j (by
        intro p hp
        obtain ⟨q, hq, rfl⟩ := List.mem_map.mp hp
        have := hkeys q hq
        omega)]
      show (alistLookup [(i, AuthFragment.new (H := H) snap.frontier.position)]
        j).isSome = true
      show (if i = j then some (AuthFragment.new (H := H) snap.frontier.position)
        else alistLookup [] j).isSome = true
      rw [if_pos (by omega)]
      rfl
  · intro c hc i' B' hcB'
    obtain ⟨j', hj'⟩ := List.mem_iff_get?.mp hc
    obtain ⟨hple', hile'⟩ := hcrest j' c hj' i' B' hcB'
    obtain ⟨sem', anc', orig', lk'⟩ := hS.ckpts c (hdl c hc) i' B' hcB'
    have hok' := hI.ckptOk c (hdl c hc)
    rw [hcB'] at hok'
    obtain ⟨hi'lt, _, _, hkeys', _, _⟩ := hok'
    refine ⟨semBridge_take_leaves hf leaves _ B' (by omega) sem', ?_, orig', lk'⟩
    intro kf hkf
    obtain ⟨A, hA, hApos⟩ := anc' kf hkf
    have hk := hkeys' kf hkf
    refine ⟨A, ?_, hApos⟩
    rw [hget2 kf.1 (by omega), hget' kf.1 (by omega)]
    exact hA
  · intro j j' c c' hj hj' hle i' B' hcB' i'' B'' hcB''
    exact hS.ckptMono j j' c c' (hdlg j c hj) (hdlg j' c' hj') hle
      i' B' hcB' i'' B'' hcB''

theorem semInv_rewind [DecidableEq H] (hf : HashFn H) {DEPTH : Nat}
    {leaves : List H} {T : BridgeTree H} (hS : SemInv hf leaves T)
    (hI : Inv DEPTH T) : ∃ leaves2, SemInv hf leaves2 (T.rewind).2 := by
  cases hck : T.checkpoints.getLast? with
  | none =>
    have hres : (T.rewind).2 = T := by simp [BridgeTree.rewind, hck]
    rw [hres]
    exact ⟨leaves, hS⟩
  | some c =>
    cases c with
    | empty =>
      by_cases hs : T.saved.isEmpty
      · have hres : (T.rewind).2 =
            { T with checkpoints := T.checkpoints.dropLast, bridges := [] } := by
          simp [BridgeTree.rewind, hck, hs]
        rw [hres]
        have hcps : T.checkpoints =
            T.checkpoints.dropLast ++ [Checkpoint.empty] :=
          (dropLast_append_of_getLast? hck).symm
        have hordfull : List.Chain' ckptOrdRel
            (T.checkpoints.dropLast ++ [Checkpoint.empty]) := by
          rw [← hcps]
          exact hI.ckptOrd
        have hall := ckpt_allEmpty hordfull
        refine ⟨[], rfl, ?_, ?_, ?_, ?_, ?_, ?_⟩
        · intro B hB; cases hB
        · intro j B hjB; cases hjB
        · intro j B hjB; cases hjB
        · intro j B hjB; cases hjB
        · intro c hc i B hcB
          have := hall c hc
          rw [this] at hcB
          cases hcB
        · intro j j' c c' hj hj' hle i B hcB i' B' hcB'
          have := hall c (mem_of_get? hj)
          rw [this] at hcB
          cases hcB
      · have hres : (T.rewind).2 =
            { T with checkpoints := T.checkpoints.dropLast ++ [Checkpoint.empty] } := by
          simp [BridgeTree.rewind, hck, hs]
        rw [hres, setCheckpoints_eq _ _ (dropLast_append_of_getLast? hck)]
        exact ⟨leaves, hS⟩
    | atIndex i snap =>
      obtain ⟨hilt, hprior, hgoodsnap, hkeys, htriple, hpair⟩ :=
        hI.ckptOk _ (mem_of_get? (get?_of_getLast? hck))
      set guard := ((T.saved.any fun p => i < p.2) ||
        ((T.saved.any fun p => p.2 = i) &&
          !((T.bridges.get? i).map (fun b => b.frontier) = some snap.frontier)))
        with hguard_def
      by_cases hguard : guard = true
      · have hres : (T.rewind).2 =
            { T with checkpoints :=
                T.checkpoints.dropLast ++ [Checkpoint.atIndex i snap] } := by
          simp only [BridgeTree.rewind, hck, ← hguard_def, hguard, if_true]
        rw [hres, setCheckpoints_eq _ _ (dropLast_append_of_getLast? hck)]
        exact ⟨leaves, hS⟩
      · have hgf : guard = false := by
          revert hguard; cases guard <;> simp
        have htake : (T.bridges.take (i + 1)).set i snap =
            T.bridges.take i ++ [snap] := take_set_eq snap hilt
        by_cases hcont : (alistLookup (T.saved.filter (fun p => p.2 ≤ i))
            snap.frontier.leafValue).isSome = true
        · set isDup := (decide (0 < i) &&
            (match (T.bridges.take (i + 1)).get? (i - 1) with
             | some prev => decide (snap.frontier = prev.frontier)
             | none => false)) with hdup_def
          by_cases hdup : isDup = true
          · have hres : (T.rewind).2 =
                { T with checkpoints := T.checkpoints.dropLast,
                         bridges := (T.bridges.take (i + 1)).set i snap,
                         saved := T.saved.filter (fun p => p.2 ≤ i) } := by
              simp only [BridgeTree.rewind, hck, ← hguard_def, hgf,
                Bool.false_eq_true, if_false, hcont, if_true, ← hdup_def, hdup]
            rw [hres, htake]
            exact ⟨_, semInv_rewind_nopush hf hS hI hck _⟩
          · have hres : (T.rewind).2 =
                { T with checkpoints := T.checkpoints.dropLast,
                         bridges := (T.bridges.take (i + 1)).set i snap ++
                           [snap.successor i],
                         saved := T.saved.filter (fun p => p.2 ≤ i) } := by
              simp only [BridgeTree.rewind, hck, ← hguard_def, hgf,
                Bool.false_eq_true, if_false, hcont, if_true, ← hdup_def, hdup]
            rw [hres, htake]
            exact ⟨_, semInv_rewind_push hf hS hI hck _⟩
        · have hcontf : (alistLookup (T.saved.filter (fun p => p.2 ≤ i))
              snap.frontier.leafValue).isSome = false := by
            revert hcont
            cases (alistLookup (T.saved.filter (fun p => p.2 ≤ i))
              snap.frontier.leafValue).isSome <;> simp
          have hres : (T.rewind).2 =
              { T with checkpoints := T.checkpoints.dropLast,
                       bridges := (T.bridges.take (i + 1)).set i snap,
                       saved := T.saved.filter (fun p => p.2 ≤ i) } := by
            simp only [BridgeTree.rewind, hck, ← hguard_def, hgf,
              Bool.false_eq_true, if_false, hcontf]
          rw [hres, htake]
          exact ⟨_, semInv_rewind_nopush hf hS hI hck _⟩

theorem reach_semInv [DecidableEq H] {hf : HashFn H} {DEPTH : Nat}
    {T : BridgeTree H} (h : Reach hf DEPTH T) (hD : DEPTH ≤ 64) :
    ∃ leaves, SemInv hf leaves T := by
  induction h with
  | new m => exact ⟨[], semInv_new hf m⟩
  | append T v hr ih =>
    obtain ⟨lv, hS⟩ := ih
    exact semInv_append hf DEPTH v hS (reach_inv hr) hD
  | witness T hr ih =>
    obtain ⟨lv, hS⟩ := ih
    exact ⟨lv, semInv_witness hf hS (reach_inv hr)⟩
  | removeWitness T v hr ih =>
    obtain ⟨lv, hS⟩ := ih
    exact ⟨lv, semInv_removeWitness hf v hS⟩
  | checkpoint T hr ih =>
    obtain ⟨lv, hS⟩ := ih
    exact ⟨lv, semInv_checkpoint hf hS⟩
  | rewind T hr ih =>
    obtain ⟨lv, hS⟩ := ih
    exact semInv_rewind hf hS (reach_inv hr)

theorem fuseFragments_lookup :
    ∀ (l nf r : List (Nat × AuthFragment H)) (k : Nat),
      MerkleBridge.fuseFragments l nf = some r →
      alistLookup r k = (alistLookup l k).bind (fun F =>
        match alistLookup nf k with
        | none => some F
        | some fn => F.fuse fn) := by
  intro l
  induction l with
  | nil =>
    intro nf r k hr
    have hre : r = [] := by
      injection hr with h2
      exact h2.symm
    subst hre
    rfl
  | cons p rest ih =>
    intro nf r k hr
    obtain ⟨k0, ext⟩ := p
    unfold MerkleBridge.fuseFragments at hr
    cases hnf : alistLookup nf k0 with
    | none =>
      rw [hnf] at hr
      dsimp only at hr
      cases hrec : MerkleBridge.fuseFragments rest nf with
      | none =>
        rw [hrec] at hr
        cases hr
      | some r2 =>
        rw [hrec] at hr
        injection hr with h2
        subst h2
        show (if k0 = k then some ext else alistLookup r2 k) = _
        by_cases hk : k0 = k
        · subst hk
          rw [if_pos rfl]
          show _ = (if k0 = k0 then some ext else alistLookup rest k0).bind _
          rw [if_pos rfl, hnf]
          rfl
        · rw [if_neg hk]
          rw [ih nf r2 k hrec]
          show _ = (if k0 = k then some ext else alistLookup rest k).bind _
          rw [if_neg hk]
    | some fn =>
      rw [hnf] at hr
      dsimp only at hr
      cases hfu : ext.fuse fn with
      | none =>
        rw [hfu] at hr
        cases hr
      | some fused =>
        rw [hfu] at hr
        dsimp only at hr
        cases hrec : MerkleBridge.fuseFragments rest nf with
        | none =>
          rw [hrec] at hr
          cases hr
        | some r2 =>
          rw [hrec] at hr
          injection hr with h2
          subst h2
          show (if k0 = k then some fused else alistLookup r2 k) = _
          by_cases hk : k0 = k
          · subst hk
            rw [if_pos rfl]
            show _ = (if k0 = k0 then some ext else alistLookup rest k0).bind _
            rw [if_pos rfl, hnf]
            exact hfu.symm
          · rw [if_neg hk]
            rw [ih nf r2 k hrec]
            show _ = (if k0 = k then some ext else alistLookup rest k).bind _
            rw [if_neg hk]

theorem fuse_lookup (b next fused : MerkleBridge H)
    (h : b.fuse next = some fused) :
    fused.frontier = next.frontier ∧
    ∃ frs, MerkleBridge.fuseFragments b.authFragments next.authFragments
        = some frs ∧ fused.authFragments = frs := by
  unfold MerkleBridge.fuse at h
  by_cases hcf : next.canFollow b = true
  · rw [if_pos hcf] at h
    cases hfr : MerkleBridge.fuseFragments b.authFragments next.authFragments with
    | none =>
      rw [hfr] at h
      cases h
    | some frs =>
      rw [hfr] at h
      injection h with h2
      subst h2
      exact ⟨rfl, frs, rfl, rfl⟩
  · rw [if_neg hcf] at h
    cases h

theorem foldFuse_track (hf : HashFn H) (leaves : List H) (idx pa : Nat) :
    ∀ (rest : List (MerkleBridge H)) (B acc : MerkleBridge H) (F : AuthFragment H),
      accMatches acc B →
      List.Chain chainRel B rest → List.Chain fragCoherent B rest →
      List.Chain fragKeysMono B rest →
      (∀ X ∈ rest, semBridge hf leaves X) →
      alistLookup acc.authFragments idx = some F →
      F.position = pa → F.values.length = F.altitudesObserved →
      fragSched hf leaves B.frontier.position F →
      ∃ acc2 F2,
        rest.foldl (fun a b => a.bind (fun x => x.fuse b)) (some acc) = some acc2 ∧
        accMatches acc2 (rest.getLastD B) ∧
        alistLookup acc2.authFragments idx = some F2 ∧
        F2.position = pa ∧ F2.values.length = F2.altitudesObserved ∧
        fragSched hf leaves (rest.getLastD B).frontier.position F2 := by
  intro rest
  induction rest with
  | nil =>
    intro B acc F hm _ _ _ _ hF hpos hfull hsch
    exact ⟨acc, F, rfl, hm, hF, hpos, hfull, hsch⟩
  | cons nx tl ih =>
    intro B acc F hm hch hco hkm hsem hF hpos hfull hsch
    rw [List.chain_cons] at hch hco hkm
    obtain ⟨acc1, hfuse, hm1⟩ := fuse_sound B nx acc hm hch.1 hco.1 hkm.1
    obtain ⟨hfr1, frs, hfrs, hfrs2⟩ := fuse_lookup acc nx acc1 hfuse
    obtain ⟨fb, hfb, hfbpos, hfbobs⟩ := hm.2 (idx, F) (mem_of_alistLookup hF)
    dsimp only at hfbpos hfbobs
    obtain ⟨fn, hfn⟩ := Option.isSome_iff_exists.mp
      (hkm.1 idx (by rw [hfb]; rfl))
    obtain ⟨hpos2, hobs2⟩ := hco.1 idx fb fn hfb hfn
    have hsemnx := hsem nx (List.mem_cons_self _ _)
    obtain ⟨hx1, hx2, hx3⟩ := hsemnx
    have hsfn := hx3 (idx, fn) (mem_of_alistLookup hfn)
    dsimp only at hsfn
    have hfnpa : fn.position = pa := by
      rw [← hpos2, ← hfbpos, hpos]
    have hfupa : F.position = fn.position := by
      rw [hfnpa, hpos]
    have hfuobs : F.altitudesObserved + fn.values.length = fn.altitudesObserved := by
      omega
    have hF2 : alistLookup acc1.authFragments idx
        = some { position := F.position, altitudesObserved := fn.altitudesObserved,
                 values := F.values ++ fn.values } := by
      rw [hfrs2, fuseFragments_lookup acc.authFragments nx.authFragments frs idx hfrs,
        hF]
      show (match alistLookup nx.authFragments idx with
        | none => some F
        | some fn2 => F.fuse fn2) = _
      rw [hfn]
      exact fragFuse_some F fn hfupa hfuobs
    obtain ⟨hn1, hn2, hn3, hn4, hn5⟩ := hsfn
    obtain ⟨ho1, ho2, ho3, ho4, ho5⟩ := hsch
    have hsch2 : fragSched hf leaves nx.frontier.position
        { position := F.position, altitudesObserved := fn.altitudesObserved,
          values := F.values ++ fn.values } := by
      rw [hfnpa] at hn1 hn3 hn4 hn5
      refine ⟨?_, ?_, ?_, ?_, ?_⟩
      · show fn.altitudesObserved ≤ (allAltitudesRequired F.position).length
        rw [hpos]
        exact hn1
      · show (F.values ++ fn.values).length ≤ fn.altitudesObserved
        rw [List.length_append]
        omega
      · show ∀ r ∈ (allAltitudesRequired F.position).take fn.altitudesObserved,
          cpos F.position r ≤ nx.frontier.position
        rw [hpos]
        exact hn3
      · show ∀ r ∈ (allAltitudesRequired F.position).drop fn.altitudesObserved,
          nx.frontier.position < cpos F.position r
        rw [hpos]
        exact hn4
      · show F.values ++ fn.values
          = (((allAltitudesRequired F.position).take fn.altitudesObserved).drop
              (fn.altitudesObserved - (F.values ++ fn.values).length)).map
            (fun r => nodeHash hf leaves r (F.position / 2 ^ r + 1))
        rw [List.length_append,
          show fn.altitudesObserved - (F.values.length + fn.values.length) = 0 from by
            omega, List.drop_zero]
        have hsplit := List.take_append_drop F.altitudesObserved
          ((allAltitudesRequired F.position).take fn.altitudesObserved)
        rw [List.take_take, Nat.min_eq_left (by omega)] at hsplit
        rw [← hsplit, List.map_append]
        congr 1
        · rw [ho5, show F.altitudesObserved - F.values.length = 0 from by omega,
            List.drop_zero]
        · rw [hn5, show fn.altitudesObserved - fn.values.length
            = F.altitudesObserved from by omega, hpos]
    obtain ⟨acc2, F2, hfold, hm2, hF2b, hp2, hf2, hs2⟩ := ih nx acc1 _ hm1
      hch.2 hco.2 hkm.2 (fun X hX => hsem X (List.mem_cons_of_mem _ hX)) hF2
      (by show F.position = pa; exact hpos)
      (by
        show (F.values ++ fn.values).length = fn.altitudesObserved
        rw [List.length_append]
        omega)
      hsch2
    refine ⟨acc2, F2, ?_, ?_, hF2b, hp2, hf2, ?_⟩
    · rw [List.foldl_cons]
      show List.foldl _ (acc.fuse nx) tl = some acc2
      rw [hfuse]
      exact hfold
    · rw [List.getLastD_cons]
      exact hm2
    · rw [List.getLastD_cons]
      exact hs2

theorem isComplete_iff_mod {N σ : Nat} :
    isComplete N σ = true ↔ N % 2 ^ σ = 2 ^ σ - 1 := by
  constructor
  · intro h
    exact mod_two_pow_full (fun j hj => isComplete_iff.mp h j hj)
  · intro h
    rw [isComplete_iff]
    intro x hx
    have ht := Nat.testBit_mod_two_pow N σ x
    rw [h, Nat.testBit_two_pow_sub_one, decide_eq_true hx, Bool.true_and] at ht
    exact ht.symm

theorem nextRequired_cases {p N m σ : Nat}
    (hget : (allAltitudesRequired p).get? m = some σ)
    (hobs : ∀ r ∈ (allAltitudesRequired p).take m, cpos p r ≤ N)
    (hunobs : ∀ r ∈ (allAltitudesRequired p).drop m, N < cpos p r)
    (hpN : p ≤ N) :
    (isComplete N σ = true ∧ N + 1 ≤ (p / 2 ^ σ + 1) * 2 ^ σ) ∨
    (isComplete N σ = false ∧ N / 2 ^ σ = p / 2 ^ σ + 1 ∧ 2 ^ σ ≤ N) := by
  have hσmem : σ ∈ allAltitudesRequired p := mem_of_get? hget
  have hσdrop : σ ∈ (allAltitudesRequired p).drop m := by
    refine mem_of_get? (j := 0) ?_
    rw [List.get?_drop]
    exact hget
  have hup : N < cpos p σ := hunobs σ hσdrop
  have hcv := cpos_val p σ
  have hP := Nat.two_pow_pos σ
  have hmul : (p / 2 ^ σ + 1) * 2 ^ σ = 2 ^ σ * (p / 2 ^ σ) + 2 ^ σ := by ring
  have hmul2 : 2 ^ σ * (p / 2 ^ σ + 1) = 2 ^ σ * (p / 2 ^ σ) + 2 ^ σ := by ring
  have hdm := Nat.div_add_mod p (2 ^ σ)
  have hlb : (p / 2 ^ σ + 1) * 2 ^ σ - 1 ≤ N := by
    cases m with
    | zero =>
      have hset : ∀ j, j < σ → p.testBit j = true :=
        fun j hj => required_below_first hget hj
      have hmod := mod_two_pow_full hset
      omega
    | succ m0 =>
      have hm0lt : m0 < (allAltitudesRequired p).length := by
        have := (List.get?_eq_some.mp hget).1
        omega
      obtain ⟨σ2, hget2⟩ : ∃ σ2, (allAltitudesRequired p).get? m0 = some σ2 := by
        cases hg2 : (allAltitudesRequired p).get? m0 with
        | none =>
          rw [List.get?_eq_none] at hg2
          omega
        | some x => exact ⟨x, rfl⟩
      have hσ2σ : σ2 < σ :=
        pairwise_get?_rel (allAltitudesRequired_pairwise p) (by omega) hget2 hget
      have hσ2obs : cpos p σ2 ≤ N := by
        refine hobs σ2 ?_
        rw [List.mem_iff_get?]
        refine ⟨m0, ?_⟩
        rw [List.get?_take (by omega)]
        exact hget2
      have hgap := cpos_ge_gap hσ2σ (fun z hz1 hz2 =>
        required_between_set hget (by
          rw [show m0 + 1 - 1 = m0 from by omega]
          exact hget2) (by omega) hz1 hz2)
      omega
  set P2 := 2 ^ σ with hP2def
  obtain ⟨X, hX⟩ : ∃ X, (p / P2 + 1) * P2 = X := ⟨_, rfl⟩
  have hXc : P2 * (p / P2 + 1) = X := by
    rw [← hX]
    ring
  have hXB : P2 * (p / P2) + P2 = X := by
    rw [← hX]
    ring
  rw [hX] at hlb
  have hupX : N < X + (P2 - 1) := by
    rw [hcv, hXc] at hup
    omega
  cases hC : isComplete N σ with
  | true =>
    left
    rw [hX]
    refine ⟨rfl, ?_⟩
    have hmodN := isComplete_iff_mod.mp hC
    rw [← hP2def] at hmodN
    by_contra hno
    push_neg at hno
    have hQle : X ≤ N := by omega
    have ht : N - X < P2 - 1 := by omega
    have hmm := Nat.mul_add_mod P2 (p / P2 + 1) (N - X)
    rw [hXc, show X + (N - X) = N from by omega,
      Nat.mod_eq_of_lt (show N - X < P2 from by omega)] at hmm
    omega
  | false =>
    right
    have hmodne : N % P2 ≠ P2 - 1 := by
      intro habs
      rw [hP2def] at habs
      rw [← isComplete_iff_mod] at habs
      rw [habs] at hC
      cases hC
    have hQle : X ≤ N := by
      rcases Nat.eq_or_lt_of_le hlb with heq | hlt
      · exfalso
        have hmm := Nat.mul_add_mod P2 (p / P2) (P2 - 1)
        rw [show P2 * (p / P2) + (P2 - 1) = N from by omega,
          Nat.mod_eq_of_lt (show P2 - 1 < P2 from by omega)] at hmm
        exact hmodne hmm
      · omega
    refine ⟨rfl, ?_, ?_⟩
    · have ht : N - X < P2 := by omega
      have hdivN := Nat.mul_add_div hP (p / P2 + 1) (N - X)
      rw [hXc, show X + (N - X) = N from by omega,
        Nat.div_eq_of_lt ht] at hdivN
      omega
    · show P2 ≤ N
      omega

theorem authValues_spec (hf : HashFn H) (leaves : List H) {N pa : Nat}
    (F2 : AuthFragment H) (hlen : leaves.length = N + 1) (h64 : N < 2 ^ 64)
    (hpos : F2.position = pa) (hfull : F2.values.length = F2.altitudesObserved)
    (hs : fragSched hf leaves N F2) (hpaN : pa ≤ N) :
    ∃ m2, F2.values ++ (F2.nextRequiredAltitude.bind
        (fun lvl => (frontierFor hf leaves N).witnessIncomplete hf lvl)).toList
      = ((allAltitudesRequired pa).take m2).map
          (fun r => nodeHash hf leaves r (pa / 2 ^ r + 1)) ∧
      ∀ r ∈ (allAltitudesRequired pa).drop m2,
        leaves.length ≤ (pa / 2 ^ r + 1) * 2 ^ r := by
  obtain ⟨h1, h2, h3, h4, h5⟩ := hs
  rw [hpos] at h1 h3 h4 h5
  have hvals : F2.values = ((allAltitudesRequired pa).take F2.altitudesObserved).map
      (fun r => nodeHash hf leaves r (pa / 2 ^ r + 1)) := by
    rw [h5, show F2.altitudesObserved - F2.values.length = 0 from by omega,
      List.drop_zero]
  have hnext : F2.nextRequiredAltitude
      = (allAltitudesRequired pa).get? F2.altitudesObserved := by
    unfold AuthFragment.nextRequiredAltitude
    rw [hpos]
  cases hget : (allAltitudesRequired pa).get? F2.altitudesObserved with
  | none =>
    refine ⟨F2.altitudesObserved, ?_, ?_⟩
    · rw [hnext, hget]
      show F2.values ++ [] = _
      rw [List.append_nil]
      exact hvals
    · intro r hr
      rw [List.get?_eq_none] at hget
      rw [List.drop_eq_nil_of_le hget] at hr
      cases hr
  | some σ =>
    have hbitσ : pa.testBit σ = false := by
      have hm := mem_allAltitudesRequired.mp (mem_of_get? hget)
      rcases hm.2 with h0 | hb
      · rw [h0]
        exact Nat.zero_testBit σ
      · exact hb
    have hdichot := nextRequired_cases hget h3 h4 hpaN
    have hdropS : (allAltitudesRequired pa).drop F2.altitudesObserved =
        σ :: (allAltitudesRequired pa).drop (F2.altitudesObserved + 1) := by
      have hmlt := (List.get?_eq_some.mp hget).1
      rw [List.drop_eq_getElem_cons hmlt]
      congr 1
      exact (List.get?_eq_some.mp hget).2
    have hbeyond : ∀ r ∈ (allAltitudesRequired pa).drop (F2.altitudesObserved + 1),
        leaves.length ≤ (pa / 2 ^ r + 1) * 2 ^ r := by
      intro r hr
      have hσr : σ < r :=
        sorted_drop_gt (allAltitudesRequired_pairwise pa) hget r hr
      have hstart := cpos_le_start hσr hbitσ
      have hupσ : N < cpos pa σ := by
        refine h4 σ ?_
        rw [hdropS]
        exact List.mem_cons_self _ _
      have hPr := Nat.two_pow_pos r
      have hQ1 : 1 ≤ (pa / 2 ^ r + 1) * 2 ^ r :=
        Nat.mul_pos (Nat.succ_pos _) hPr
      omega
    rcases hdichot with ⟨hC, hemp⟩ | ⟨hC, hdiv, h2σ⟩
    · refine ⟨F2.altitudesObserved, ?_, ?_⟩
      · rw [hnext, hget]
        show F2.values ++
          ((frontierFor hf leaves N).witnessIncomplete hf σ).toList = _
        rw [frontierFor_witnessIncomplete_none hf leaves N σ hC]
        show F2.values ++ [] = _
        rw [List.append_nil]
        exact hvals
      · intro r hr
        rw [hdropS] at hr
        rcases List.mem_cons.mp hr with rfl | hr2
        · omega
        · exact hbeyond r hr2
    · have hσ1 : 1 ≤ σ := by
        by_contra hσ0
        have hσe : σ = 0 := by omega
        rw [hσe] at hC
        cases hC
      refine ⟨F2.altitudesObserved + 1, ?_, hbeyond⟩
      rw [hnext, hget]
      show F2.values ++
        ((frontierFor hf leaves N).witnessIncomplete hf σ).toList = _
      rw [frontierFor_witnessIncompleteS hf leaves N σ hlen h64 hσ1 hC (by omega)]
      rw [hdiv]
      show F2.values ++ [nodeHash hf leaves σ (pa / 2 ^ σ + 1)] = _
      rw [hvals, List.take_succ, ← List.get?_eq_getElem?, hget]
      rw [List.map_append]
      rfl

theorem required_bit_clear {p k : Nat} (hk : k ∈ allAltitudesRequired p) :
    p.testBit k = false := by
  rcases (mem_allAltitudesRequired.mp hk).2 with h0 | hb
  · rw [h0]
    exact Nat.zero_testBit k
  · exact hb

theorem pathState_pad (hf : HashFn H) (leaves : List H) {p m2 k c : Nat}
    {st : List H × List H}
    (hst : pathState hf leaves p m2 k c st) (hk1 : 1 ≤ k)
    (hkreq : k ∈ allAltitudesRequired p)
    (hbeyond : ∀ r ∈ (allAltitudesRequired p).drop m2,
      leaves.length ≤ (p / 2 ^ r + 1) * 2 ^ r) :
    ∃ c2, pathState hf leaves p m2 (k + 1) c2 (padStep hf st k) := by
  obtain ⟨h1, h2, h3, h4⟩ := hst
  have hbitk : p.testBit k = false := required_bit_clear hkreq
  have hsibk : sibHash hf leaves p k = nodeHash hf leaves k (p / 2 ^ k + 1) := by
    unfold sibHash
    rw [hbitk]
    rfl
  obtain ⟨jk, hjk⟩ := List.mem_iff_get?.mp hkreq
  have hpw := allAltitudesRequired_pairwise p
  have hjklen := (List.get?_eq_some.mp hjk).1
  unfold padStep
  cases hv : st.2 with
  | nil =>
    have hdc : (((allAltitudesRequired p).take m2).drop c) = [] :=
      List.map_eq_nil.mp (hv.symm.trans h2).symm
    have hcge : ((allAltitudesRequired p).take m2).length ≤ c :=
      List.drop_eq_nil_iff_le.mp hdc
    rw [List.length_take] at hcge
    have hjk_ge : m2 ≤ jk := by
      by_contra hcon
      push_neg at hcon
      rcases Nat.lt_or_ge jk c with hcc | hcc
      · have := h3 jk k hcc hjk
        omega
      · omega
    have hkdrop : k ∈ (allAltitudesRequired p).drop m2 := by
      refine mem_of_get? (j := jk - m2) ?_
      rw [List.get?_drop, show m2 + (jk - m2) = jk from by omega]
      exact hjk
    have hemp := hbeyond k hkdrop
    obtain ⟨k0, rfl⟩ : ∃ k0, k = k0 + 1 := ⟨k - 1, by omega⟩
    have hroot : hf.emptyRoot (k0 + 1)
        = nodeHash hf leaves (k0 + 1) (p / 2 ^ (k0 + 1) + 1) := by
      refine (nodeHash_emptyS hf leaves ?_).symm
      have : (p / 2 ^ (k0 + 1) + 1) * 2 ^ (k0 + 1)
          = 2 ^ (k0 + 1) * (p / 2 ^ (k0 + 1) + 1) := by ring
      omega
    refine ⟨c, ?_, ?_, ?_, ?_⟩
    · show st.1 ++ [hf.emptyRoot (k0 + 1)]
        = (List.range (k0 + 1 + 1)).map (sibHash hf leaves p)
      conv_rhs => rw [List.range_succ, List.map_append]
      rw [h1, hroot, ← hsibk]
      rfl
    · show ([] : List H) = _
      rw [hdc]
      rfl
    · intro j x hj hx
      have := h3 j x hj hx
      omega
    · intro j x hcj hjm hx
      have hjlen := (List.get?_eq_some.mp hx).1
      omega
  | cons v rest =>
    have h2v : v :: rest = (((allAltitudesRequired p).take m2).drop c).map
        (fun r => nodeHash hf leaves r (p / 2 ^ r + 1)) := hv.symm.trans h2
    cases hd : ((allAltitudesRequired p).take m2).drop c with
    | nil =>
      rw [hd] at h2v
      cases h2v
    | cons y ys =>
      rw [hd, List.map_cons] at h2v
      injection h2v with hveq hrest
      have hgety0 : ((allAltitudesRequired p).take m2).get? c = some y := by
        have hg0 : (((allAltitudesRequired p).take m2).drop c).get? 0
            = ((allAltitudesRequired p).take m2).get? c := by
          rw [List.get?_drop]
          rfl
        rw [hd] at hg0
        exact hg0.symm
      have hclt : c < ((allAltitudesRequired p).take m2).length :=
        (List.get?_eq_some.mp hgety0).1
      rw [List.length_take] at hclt
      have hgety : (allAltitudesRequired p).get? c = some y := by
        rw [← List.get?_take (show c < m2 from by omega)]
        exact hgety0
      have hky : k ≤ y := h4 c y (Nat.le_refl c) (by omega) hgety
      have hjkc : c ≤ jk := by
        by_contra hcon
        push_neg at hcon
        have := h3 jk k hcon hjk
        omega
      have hjke : c = jk := by
        rcases Nat.eq_or_lt_of_le hjkc with heq | hlt
        · exact heq
        · exfalso
          have := pairwise_get?_rel hpw hlt hgety hjk
          omega
      have hyk : y = k := by
        rw [hjke, hjk] at hgety
        injection hgety with hh
        exact hh.symm
      refine ⟨c + 1, ?_, ?_, ?_, ?_⟩
      · show st.1 ++ [v] = (List.range (k + 1)).map (sibHash hf leaves p)
        conv_rhs => rw [List.range_succ, List.map_append]
        rw [h1, hveq, hyk, ← hsibk]
        rfl
      · show rest = _
        have hdd : ((allAltitudesRequired p).take m2).drop (c + 1) = ys := by
          have hcd := congrArg (List.drop 1) hd
          rw [List.drop_drop] at hcd
          exact hcd
        rw [hdd]
        exact hrest
      · intro j x hj hx
        rcases Nat.lt_or_ge j c with hjc | hjc
        · have := h3 j x hjc hx
          omega
        · have hje : j = c := by omega
          rw [hje, hgety] at hx
          injection hx with hh
          omega
      · intro j x hcj hjm hx
        have hgt : k < x :=
          pairwise_get?_rel hpw (show jk < j from by omega) hjk hx
        omega

theorem pathState_padRun (hf : HashFn H) (leaves : List H) {p m2 : Nat}
    (hbeyond : ∀ r ∈ (allAltitudesRequired p).drop m2,
      leaves.length ≤ (p / 2 ^ r + 1) * 2 ^ r) :
    ∀ (n k c : Nat) (st : List H × List H),
      pathState hf leaves p m2 k c st → 1 ≤ k →
      (∀ z, k ≤ z → z < k + n → z ∈ allAltitudesRequired p) →
      ∃ c2, pathState hf leaves p m2 (k + n) c2
        ((List.range' k n).foldl (padStep hf) st) := by
  intro n
  induction n with
  | zero =>
    intro k c st hst _ _
    exact ⟨c, hst⟩
  | succ n0 ih =>
    intro k c st hst hk1 hreq
    obtain ⟨c2, hst2⟩ := pathState_pad hf leaves hst hk1
      (hreq k (Nat.le_refl k) (by omega)) hbeyond
    rw [List.range'_succ, List.foldl_cons]
    obtain ⟨c3, hst3⟩ := ih (k + 1) c2 (padStep hf st k) hst2 (by omega)
      (fun z hz1 hz2 => hreq z (by omega) (by omega))
    exact ⟨c3, by rw [show k + (n0 + 1) = k + 1 + n0 from by omega]; exact hst3⟩

theorem pathState_ommerStep (hf : HashFn H) (leaves : List H) {p m2 k c a : Nat}
    {st : List H × List H} (v : H)
    (hst : pathState hf leaves p m2 k c st) (hk1 : 1 ≤ k)
    (hbita : p.testBit a = true) (hka : k ≤ a)
    (hv : v = sibHash hf leaves p a)
    (hreq : ∀ z, k ≤ z → z < a → z ∈ allAltitudesRequired p)
    (hbeyond : ∀ r ∈ (allAltitudesRequired p).drop m2,
      leaves.length ≤ (p / 2 ^ r + 1) * 2 ^ r) :
    ∃ c2, pathState hf leaves p m2 (a + 1) c2 (ommerStep hf st (v, a)) := by
  have hlen1 : st.1.length = k := by
    rw [hst.1, List.length_map, List.length_range]
  obtain ⟨c2, hst2⟩ := pathState_padRun hf leaves hbeyond (a - k) k c st hst hk1
    (fun z hz1 hz2 => hreq z hz1 (by omega))
  rw [show k + (a - k) = a from by omega] at hst2
  obtain ⟨g1, g2, g3, g4⟩ := hst2
  have hred : ommerStep hf st (v, a)
      = (((List.range' k (a - k)).foldl (padStep hf) st).1 ++ [v],
         ((List.range' k (a - k)).foldl (padStep hf) st).2) := by
    unfold ommerStep
    rw [hlen1]
  rw [hred]
  refine ⟨c2, ?_, g2, ?_, ?_⟩
  · show _ ++ [v] = (List.range (a + 1)).map (sibHash hf leaves p)
    conv_rhs => rw [List.range_succ, List.map_append]
    rw [g1, hv]
    rfl
  · intro j x hj hx
    have := g3 j x hj hx
    omega
  · intro j x hcj hjm hx
    have hge := g4 j x hcj hjm hx
    have hxreq : x ∈ allAltitudesRequired p := mem_of_get? hx
    have hbx := required_bit_clear hxreq
    have hxa : x ≠ a := by
      intro habs
      rw [habs, hbita] at hbx
      cases hbx
    omega

theorem pathState_ommerLoop (hf : HashFn H) (leaves : List H) {p m2 : Nat}
    (ov : Nat → H)
    (hbeyond : ∀ r ∈ (allAltitudesRequired p).drop m2,
      leaves.length ≤ (p / 2 ^ r + 1) * 2 ^ r) :
    ∀ (ol : List Nat) (k c : Nat) (st : List H × List H),
      pathState hf leaves p m2 k c st → 1 ≤ k →
      List.Pairwise (· < ·) ol →
      (∀ b ∈ ol, p.testBit b = true ∧ k ≤ b ∧ b < 64) →
      (∀ z, k ≤ z → p.testBit z = true → z ∈ ol) →
      (∀ b ∈ ol, ov b = sibHash hf leaves p b) →
      ∃ c2, pathState hf leaves p m2 (ol.getLastD (k - 1) + 1) c2
          ((ol.map (fun b => (ov b, b))).foldl (ommerStep hf) st) ∧
        (∀ z, ol.getLastD (k - 1) + 1 ≤ z → p.testBit z = false) := by
  intro ol
  induction ol with
  | nil =>
    intro k c st hst hk1 _ _ hcompl _
    refine ⟨c, ?_, ?_⟩
    · show pathState hf leaves p m2 (k - 1 + 1) c st
      rw [show k - 1 + 1 = k from by omega]
      exact hst
    · intro z hz
      show p.testBit z = false
      cases hbz : p.testBit z with
      | false => rfl
      | true =>
        exfalso
        have hgl : (([] : List Nat).getLastD (k - 1)) = k - 1 := rfl
        have := hcompl z (by
          show k ≤ z
          rw [hgl] at hz
          omega) hbz
        cases this
  | cons a tl ih =>
    intro k c st hst hk1 hpw hall hcompl hov
    obtain ⟨hbita, hka, ha64⟩ := hall a (List.mem_cons_self _ _)
    have hpwc := List.pairwise_cons.mp hpw
    obtain ⟨c2, hst2⟩ := pathState_ommerStep hf leaves (ov a) hst hk1 hbita hka
      (hov a (List.mem_cons_self _ _))
      (by
        intro z hz1 hz2
        refine mem_allAltitudesRequired.mpr ⟨by omega, ?_⟩
        · cases hbz : p.testBit z with
          | false => exact Or.inr rfl
          | true =>
            exfalso
            rcases List.mem_cons.mp (hcompl z hz1 hbz) with rfl | hztl
            · omega
            · have := hpwc.1 z hztl
              omega)
      hbeyond
    obtain ⟨c3, hst3, hclear⟩ := ih (a + 1) c2 (ommerStep hf st (ov a, a)) hst2
      (by omega) hpwc.2
      (fun b hb => ⟨(hall b (List.mem_cons_of_mem _ hb)).1, by
        have := hpwc.1 b hb
        omega, (hall b (List.mem_cons_of_mem _ hb)).2.2⟩)
      (by
        intro z hz hbz
        rcases List.mem_cons.mp (hcompl z (by omega) hbz) with rfl | hztl
        · omega
        · exact hztl)
      (fun b hb => hov b (List.mem_cons_of_mem _ hb))
    refine ⟨c3, ?_, ?_⟩
    · rw [List.map_cons, List.foldl_cons, List.getLastD_cons]
      rw [show tl.getLastD a = tl.getLastD (a + 1 - 1) from by rw [Nat.add_sub_cancel]]
      exact hst3
    · intro z hz
      rw [List.getLastD_cons] at hz
      refine hclear z ?_
      rw [Nat.add_sub_cancel]
      exact hz

theorem required_get0 {p : Nat} (h0 : 0 ∈ allAltitudesRequired p) :
    (allAltitudesRequired p).get? 0 = some 0 := by
  obtain ⟨i, hi⟩ := List.mem_iff_get?.mp h0
  cases i with
  | zero => exact hi
  | succ ii =>
    obtain ⟨y, hy⟩ : ∃ y, (allAltitudesRequired p).get? 0 = some y := by
      cases hg : (allAltitudesRequired p).get? 0 with
      | none =>
        rw [List.get?_eq_none] at hg
        have := (List.get?_eq_some.mp hi).1
        omega
      | some y => exact ⟨y, rfl⟩
    have := pairwise_get?_rel (allAltitudesRequired_pairwise p)
      (Nat.succ_pos ii) hy hi
    omega

theorem zero_mem_required {p : Nat} (hp : p % 2 = 0) :
    0 ∈ allAltitudesRequired p := by
  refine mem_allAltitudesRequired.mpr ⟨by omega, ?_⟩
  rcases Nat.eq_zero_or_pos p with rfl | hpos
  · exact Or.inl rfl
  · refine Or.inr ?_
    rw [Nat.testBit_zero]
    simp [hp]

theorem zero_not_mem_required {p : Nat} (hp : p % 2 = 1) :
    0 ∉ allAltitudesRequired p := by
  intro h0
  have := required_bit_clear h0
  rw [Nat.testBit_zero] at this
  simp [hp] at this

theorem pathState_start (hf : HashFn H) (leaves : List H) {p m2 : Nat}
    (authValues : List H) (hplen : p < leaves.length)
    (hAV : authValues = (((allAltitudesRequired p).take m2)).map
      (fun r => nodeHash hf leaves r (p / 2 ^ r + 1)))
    (hbeyond : ∀ r ∈ (allAltitudesRequired p).drop m2,
      leaves.length ≤ (p / 2 ^ r + 1) * 2 ^ r) :
    ∃ c0, pathState hf leaves p m2 1 c0
      (pathStart hf (frontierFor hf (leaves.take (p + 1)) p).leaf authValues) := by
  have hpw := allAltitudesRequired_pairwise p
  have hp2 : (2:Nat) ^ 0 = 1 := rfl
  rcases Nat.even_or_odd p with he | ho
  · have hpe : p % 2 = 0 := Nat.even_iff.mp he
    have hleaf : (frontierFor hf (leaves.take (p + 1)) p).leaf
        = Leaf.left (((leaves.take (p + 1)).get? p).getD hf.emptyLeaf) := by
      show (if p % 2 = 0 then _ else _) = _
      rw [if_pos hpe]
    rw [hleaf]
    have h0mem := zero_mem_required hpe
    have hget0 := required_get0 h0mem
    cases hav : authValues with
    | nil =>
      have hmape : (((allAltitudesRequired p).take m2)).map
          (fun r => nodeHash hf leaves r (p / 2 ^ r + 1)) = [] := by
        rw [← hAV, hav]
      have htake : ((allAltitudesRequired p).take m2) = [] :=
        List.map_eq_nil.mp hmape
      have hm2 : ((allAltitudesRequired p).take m2).length = 0 := by
        rw [htake]
        rfl
      rw [List.length_take] at hm2
      have hlenpos : 0 < (allAltitudesRequired p).length :=
        List.length_pos.mpr (List.ne_nil_of_mem h0mem)
      have hm20 : m2 = 0 := by omega
      have h0drop : 0 ∈ (allAltitudesRequired p).drop m2 := by
        rw [hm20, List.drop_zero]
        exact h0mem
      have hemp := hbeyond 0 h0drop
      rw [hp2] at hemp
      refine ⟨0, ?_, ?_, ?_, ?_⟩
      · show [hf.emptyLeaf] = (List.range 1).map (sibHash hf leaves p)
        have hsib : sibHash hf leaves p 0 = hf.emptyLeaf := by
          unfold sibHash
          rw [show p.testBit 0 = false from required_bit_clear h0mem]
          show nodeHash hf leaves 0 (p / 2 ^ 0 + 1) = hf.emptyLeaf
          refine nodeHash_empty0 hf leaves ?_
          rw [hp2] at *
          omega
        rw [show List.range 1 = [0] from rfl, List.map_cons, List.map_nil, hsib]
      · show ([] : List H) = _
        rw [htake]
        rfl
      · intro j x hj hx
        omega
      · intro j x hcj hjm hx
        omega
    | cons v rest =>
      have hAV2 : v :: rest = (((allAltitudesRequired p).take m2)).map
          (fun r => nodeHash hf leaves r (p / 2 ^ r + 1)) := by
        rw [← hav]
        exact hAV
      cases hd : (allAltitudesRequired p).take m2 with
      | nil =>
        rw [hd] at hAV2
        cases hAV2
      | cons y ys =>
        rw [hd, List.map_cons] at hAV2
        injection hAV2 with hveq hrest
        have hy0 : y = 0 := by
          have hg : ((allAltitudesRequired p).take m2).get? 0 = some y := by
            rw [hd]
            rfl
          have hlen := (List.get?_eq_some.mp hg).1
          rw [List.length_take] at hlen
          rw [List.get?_take (show 0 < m2 from by omega)] at hg
          rw [hget0] at hg
          injection hg with hh
          exact hh.symm
        refine ⟨1, ?_, ?_, ?_, ?_⟩
        · show [v] = (List.range 1).map (sibHash hf leaves p)
          have hsib : sibHash hf leaves p 0 = v := by
            unfold sibHash
            rw [show p.testBit 0 = false from required_bit_clear h0mem]
            rw [hveq, hy0]
            rfl
          rw [show List.range 1 = [0] from rfl, List.map_cons, List.map_nil, hsib]
        · show rest = _
          have hdd : ((allAltitudesRequired p).take m2).drop 1 = ys := by
            rw [hd]
            rfl
          rw [hdd]
          exact hrest
        · intro j x hj hx
          have hje : j = 0 := by omega
          rw [hje, hget0] at hx
          injection hx with hh
          omega
        · intro j x hcj hjm hx
          have := pairwise_get?_rel hpw (show 0 < j from by omega) hget0 hx
          omega
  · have hpo : p % 2 = 1 := Nat.odd_iff.mp ho
    have hleaf : (frontierFor hf (leaves.take (p + 1)) p).leaf
        = Leaf.right (((leaves.take (p + 1)).get? (p - 1)).getD hf.emptyLeaf)
            (((leaves.take (p + 1)).get? p).getD hf.emptyLeaf) := by
      show (if p % 2 = 0 then _ else _) = _
      rw [if_neg (by omega)]
    rw [hleaf]
    have h0nmem := zero_not_mem_required hpo
    refine ⟨0, ?_, ?_, ?_, ?_⟩
    · show [((leaves.take (p + 1)).get? (p - 1)).getD hf.emptyLeaf]
        = (List.range 1).map (sibHash hf leaves p)
      have hsib : sibHash hf leaves p 0
          = ((leaves.take (p + 1)).get? (p - 1)).getD hf.emptyLeaf := by
        unfold sibHash
        rw [show p.testBit 0 = true from by
          rw [Nat.testBit_zero]
          simp [hpo]]
        show nodeHash hf leaves 0 (p / 2 ^ 0 - 1) = _
        rw [List.get?_take (show p - 1 < p + 1 from by omega)]
        rw [hp2, Nat.div_one]
        rfl
      rw [show List.range 1 = [0] from rfl, List.map_cons, List.map_nil, hsib]
    · show authValues = _
      rw [hAV, List.drop_zero]
    · intro j x hj hx
      omega
    · intro j x hcj hjm hx
      have hxmem := mem_of_get? hx
      have hx0 : x ≠ 0 := by
        intro habs
        rw [habs] at hxmem
        exact h0nmem hxmem
      omega

theorem testBit_gt_maxAltitude {p z : Nat} (h64 : p < 2 ^ 64)
    (hz : maxAltitude p < z) : p.testBit z = false := by
  rcases Nat.eq_zero_or_pos p with rfl | hpos
  · exact Nat.zero_testBit z
  · refine Nat.testBit_lt_two_pow ?_
    have hlog := maxAltitude_eq_log2 hpos h64
    have hself : p < 2 ^ (Nat.log2 p + 1) := Nat.lt_log2_self
    have hmono : (2:Nat) ^ (Nat.log2 p + 1) ≤ 2 ^ z :=
      Nat.pow_le_pow_right (by omega) (by omega)
    omega

theorem buildAuthPath_spec (hf : HashFn H) (leaves : List H) {p DEPTH m2 : Nat}
    (authValues : List H) (hp64 : p < 2 ^ 64) (hplen : p < leaves.length)
    (hD : DEPTH ≤ 64)
    (hAV : authValues = ((allAltitudesRequired p).take m2).map
      (fun r => nodeHash hf leaves r (p / 2 ^ r + 1)))
    (hbeyond : ∀ r ∈ (allAltitudesRequired p).drop m2,
      leaves.length ≤ (p / 2 ^ r + 1) * 2 ^ r) :
    buildAuthPath hf DEPTH (frontierFor hf (leaves.take (p + 1)) p) authValues
      = (List.range (max DEPTH (maxAltitude p + 1))).map (sibHash hf leaves p) := by
  obtain ⟨c0, hst0⟩ := pathState_start hf leaves authValues hplen hAV hbeyond
  have hov : ∀ b ∈ ommerAltitudes p,
      nodeHash hf (leaves.take (p + 1)) b (p / 2 ^ b - 1)
        = sibHash hf leaves p b := by
    intro b hb
    obtain ⟨hb0, hbit⟩ := (mem_ommerAltitudes hp64).mp hb
    have h2b : 2 ^ b ≤ p := Nat.testBit_implies_ge hbit
    have hdiv1 : 1 ≤ p / 2 ^ b := by
      rw [Nat.le_div_iff_mul_le (Nat.two_pow_pos b)]
      omega
    have hmle : p / 2 ^ b * 2 ^ b ≤ p := Nat.div_mul_le_self ..
    unfold sibHash
    rw [if_pos hbit]
    have hsplit := List.take_append_drop (p + 1) leaves
    conv_rhs => rw [← hsplit]
    refine (nodeHash_extend hf (leaves.take (p + 1)) (leaves.drop (p + 1)) b _ ?_).symm
    rw [List.length_take]
    have heq1 : (p / 2 ^ b - 1 + 1) * 2 ^ b = p / 2 ^ b * 2 ^ b := by
      rw [show p / 2 ^ b - 1 + 1 = p / 2 ^ b from by omega]
    omega
  obtain ⟨c2, hstO, hclear⟩ := pathState_ommerLoop hf leaves
    (fun b => nodeHash hf (leaves.take (p + 1)) b (p / 2 ^ b - 1)) hbeyond
    (ommerAltitudes p) 1 c0 _ hst0 (Nat.le_refl 1)
    (ommerAltitudes_pairwise p)
    (by
      intro b hb
      obtain ⟨hb0, hbit⟩ := (mem_ommerAltitudes hp64).mp hb
      refine ⟨hbit, by omega, ?_⟩
      have h2b : 2 ^ b ≤ p := Nat.testBit_implies_ge hbit
      by_contra hb64
      push_neg at hb64
      have : (2:Nat) ^ 64 ≤ 2 ^ b := Nat.pow_le_pow_right (by omega) (by omega)
      omega)
    (by
      intro z hz hbz
      exact (mem_ommerAltitudes hp64).mpr ⟨by omega, hbz⟩)
    hov
  set K := (ommerAltitudes p).getLastD 0 + 1 with hKdef
  have hKeq : K = maxAltitude p + 1 := by
    rcases Nat.lt_or_ge p 2 with hp2 | hp2
    · rw [hKdef, ommerAltitudes_small (by omega)]
      match p, hp2 with
      | 0, _ => rw [maxAltitude_small.1]; rfl
      | 1, _ => rw [maxAltitude_small.2]; rfl
    · rw [hKdef, ommerAltitudes_getLastD hp64 hp2]
  have hK1 : 1 ≤ K := by omega
  obtain ⟨c3, hfin⟩ := pathState_padRun hf leaves hbeyond (DEPTH - K) K c2 _ hstO hK1
    (by
      intro z hz1 hz2
      refine mem_allAltitudesRequired.mpr ⟨by omega, Or.inr ?_⟩
      exact hclear z hz1)
  have hlenO : (((ommerAltitudes p).map
      (fun b => (nodeHash hf (leaves.take (p + 1)) b (p / 2 ^ b - 1), b))).foldl
        (ommerStep hf) (pathStart hf
          (frontierFor hf (leaves.take (p + 1)) p).leaf authValues)).1.length
      = K := by
    rw [hstO.1, List.length_map, List.length_range]
  have hzip : (frontierFor hf (leaves.take (p + 1)) p).ommers.zip
      (ommerAltitudes (frontierFor hf (leaves.take (p + 1)) p).position)
      = (ommerAltitudes p).map
        (fun b => (nodeHash hf (leaves.take (p + 1)) b (p / 2 ^ b - 1), b)) := by
    show (((ommerAltitudes p).map
        (fun b => nodeHash hf (leaves.take (p + 1)) b (p / 2 ^ b - 1))).zip
      (ommerAltitudes p)) = _
    have hz := zip_map_self
      (f := fun b => nodeHash hf (leaves.take (p + 1)) b (p / 2 ^ b - 1))
      (ommerAltitudes p) []
    rw [List.append_nil] at hz
    exact hz
  unfold buildAuthPath
  dsimp only
  rw [hzip, hlenO]
  rw [show K + (DEPTH - K) = max DEPTH K from by omega] at hfin
  rw [hfin.1, hKeq]

theorem lt_two_pow_maxAltitude {q : Nat} (h64 : q < 2 ^ 64) :
    q < 2 ^ (maxAltitude q + 1) := by
  rcases Nat.eq_zero_or_pos q with rfl | hpos
  · exact Nat.two_pow_pos _
  · rw [maxAltitude_eq_log2 hpos h64]
    exact Nat.lt_log2_self

theorem maxAltitude_succ_le {q D : Nat} (h64 : q < 2 ^ 64) (hq : q < 2 ^ D)
    (hD1 : 1 ≤ D) : maxAltitude q + 1 ≤ D := by
  rcases Nat.eq_zero_or_pos q with rfl | hpos
  · rw [maxAltitude_small.1]
    omega
  · rw [maxAltitude_eq_log2 hpos h64]
    have := (Nat.log2_lt (by omega)).mpr hq
    omega

theorem foldPath_spec (hf : HashFn H) (leaves : List H) {p : Nat}
    (hplen : p < leaves.length) :
    ∀ (n k : Nat), foldPath hf p k (nodeHash hf leaves k (p / 2 ^ k))
        ((List.range' k n).map (sibHash hf leaves p))
      = nodeHash hf leaves (k + n) (p / 2 ^ (k + n)) := by
  intro n
  induction n with
  | zero => intro k; rfl
  | succ n0 ih =>
    intro k
    rw [List.range'_succ, List.map_cons]
    show foldPath hf p (k + 1)
      (if p.testBit k then
        hf.combine k (sibHash hf leaves p k) (nodeHash hf leaves k (p / 2 ^ k))
      else hf.combine k (nodeHash hf leaves k (p / 2 ^ k)) (sibHash hf leaves p k))
      ((List.range' (k + 1) n0).map (sibHash hf leaves p)) = _
    have hcomm : 2 ^ (k + 1) * (p / 2 ^ (k + 1)) = p / 2 ^ (k + 1) * 2 ^ (k + 1) := by
      ring
    have hmle : p / 2 ^ (k + 1) * 2 ^ (k + 1) ≤ p := Nat.div_mul_le_self ..
    have hlt : 2 ^ (k + 1) * (p / 2 ^ (k + 1)) < leaves.length := by omega
    have hacc : (if p.testBit k then
          hf.combine k (sibHash hf leaves p k) (nodeHash hf leaves k (p / 2 ^ k))
        else hf.combine k (nodeHash hf leaves k (p / 2 ^ k)) (sibHash hf leaves p k))
        = nodeHash hf leaves (k + 1) (p / 2 ^ (k + 1)) := by
      cases hbit : p.testBit k with
      | false =>
        rw [if_neg (show ¬(false = true) from Bool.false_ne_true)]
        have hsib : sibHash hf leaves p k = nodeHash hf leaves k (p / 2 ^ k + 1) := by
          unfold sibHash
          rw [hbit]
          rfl
        rw [hsib, nodeHash_combine hf leaves hlt]
        have hch := div_pow_even hbit
        rw [hch]
      | true =>
        rw [if_pos (show (true = true) from rfl)]
        have hsib : sibHash hf leaves p k = nodeHash hf leaves k (p / 2 ^ k - 1) := by
          unfold sibHash
          rw [hbit]
          rfl
        rw [hsib, nodeHash_combine hf leaves hlt]
        have hch := div_pow_odd hbit
        rw [hch, show 2 * (p / 2 ^ (k + 1)) + 1 - 1 = 2 * (p / 2 ^ (k + 1)) from by
          omega]
    rw [hacc]
    have hih := ih (k + 1)
    rw [show k + (n0 + 1) = k + 1 + n0 from by omega]
    exact hih

theorem root_eq_nodeHash (hf : HashFn H) (leaves : List H) (N DEPTH : Nat)
    (hlen : leaves.length = N + 1) (h64 : N < 2 ^ 64) :
    NonEmptyFrontier.foldUp hf
        (NonEmptyFrontier.root hf (frontierFor hf leaves N))
        ((frontierFor hf leaves N).maxAlt + 1) DEPTH
      = nodeHash hf leaves (max DEPTH (maxAltitude N + 1)) 0 := by
  rw [frontierFor_root hf leaves N hlen h64, frontierFor_maxAlt]
  have hNt : N < 2 ^ (maxAltitude N + 1) := lt_two_pow_maxAltitude h64
  have h0 : N / 2 ^ (maxAltitude N + 1) = 0 := Nat.div_eq_of_lt hNt
  rcases le_or_lt DEPTH (maxAltitude N + 1) with hle | hlt
  · rw [Nat.max_eq_right hle]
    unfold NonEmptyFrontier.foldUp
    rw [show DEPTH - (maxAltitude N + 1) = 0 from by omega]
    rfl
  · have hc := foldUp_climb hf leaves N hlen (DEPTH - (maxAltitude N + 1))
      (maxAltitude N + 1) (by omega)
      (fun x hx1 hx2 => testBit_gt_maxAltitude h64 (by omega))
    rw [show maxAltitude N + 1 + (DEPTH - (maxAltitude N + 1)) = DEPTH from by
      omega] at hc
    have hDdiv : N / 2 ^ DEPTH = 0 := by
      refine Nat.div_eq_of_lt ?_
      have : (2:Nat) ^ (maxAltitude N + 1) ≤ 2 ^ DEPTH :=
        Nat.pow_le_pow_right (by omega) (by omega)
      omega
    rw [h0, hDdiv] at hc
    rw [Nat.max_eq_left (by omega)]
    exact hc

theorem getLast?_drop_eq {α : Type} (l : List α) (n : Nat) (hn : n < l.length) :
    (l.drop n).getLast? = l.getLast? := by
  rw [List.getLast?_eq_getElem?, List.getLast?_eq_getElem?, List.length_drop]
  rw [← List.get?_eq_getElem?, ← List.get?_eq_getElem?, List.get?_drop]
  congr 1
  omega

/-- C1: root-path round trip.  In every tree reachable by the mutating
operations, for every value whose `authentication_path` returns
`Some((p, path))`, folding the value upward through `path` — combining at
each altitude `k` with orientation chosen by bit `k` of `p` — reproduces
`root()`.  The depth bound mirrors the source's `usize` positions and its
`0..64` altitude range. -/
theorem c1_root_path_round_trip [DecidableEq H] (hf : HashFn H) (DEPTH : Nat)
    (T : BridgeTree H) (hT : Reach hf DEPTH T) (hD : DEPTH ≤ 64)
    (v : H) (p : Nat) (path : List H)
    (hpath : T.authenticationPath hf DEPTH v = some (p, path)) :
    foldPath hf p 0 v path = T.root hf DEPTH := by
  have hI := reach_inv hT
  obtain ⟨leaves, hS⟩ := reach_semInv hT hD
  unfold BridgeTree.authenticationPath at hpath
  cases hlook : alistLookup T.saved v with
  | none =>
    rw [hlook] at hpath
    cases hpath
  | some idx =>
    rw [hlook, Option.some_bind] at hpath
    cases hb : T.bridges.get? idx with
    | none =>
      rw [hb] at hpath
      cases hpath
    | some b =>
      rw [hb, Option.map_some', Option.some_bind] at hpath
      cases hfuse : MerkleBridge.fuseAll (T.bridges.drop (idx + 1)) with
      | none =>
        rw [hfuse] at hpath
        cases hpath
      | some fused =>
        rw [hfuse, Option.map_some'] at hpath
        -- the saved index is interior: a successor bridge follows it
        have hidx2 : idx + 1 < T.bridges.length :=
          hI.savedIdx (v, idx) (mem_of_alistLookup hlook)
        obtain ⟨lastB, hlast⟩ : ∃ L, T.bridges.getLast? = some L := by
          cases hgl : T.bridges.getLast? with
          | none =>
            rw [List.getLast?_eq_none_iff] at hgl
            rw [hgl] at hb
            cases hb
          | some L => exact ⟨L, rfl⟩
        have hlenl : leaves.length = lastB.frontier.position + 1 := by
          have h := hS.lenEq
          rw [hlast] at h
          exact h
        have hgetlast := get?_of_getLast? hlast
        have hN2D : lastB.frontier.position < 2 ^ DEPTH :=
          (hI.good lastB (mem_of_get? hgetlast)).2.1
        have h2D64 : (2:Nat) ^ DEPTH ≤ 2 ^ 64 := Nat.pow_le_pow_right (by omega) hD
        have hN64 : lastB.frontier.position < 2 ^ 64 := by omega
        -- the anchor bridge
        obtain ⟨hbsem1, hbsem2, hbsem3⟩ := hS.bOk b (mem_of_get? hb)
        have hpw : List.Pairwise posMonoRel T.bridges :=
          chain'_pairwise_of_trans (R := posMonoRel)
            (fun a b c h1 h2 => Nat.le_trans h1 h2) hI.posMono
        have hpbN : b.frontier.position ≤ lastB.frontier.position := by
          rcases Nat.eq_or_lt_of_le (show idx + 1 ≤ T.bridges.length from by omega)
            with heq | hlt2
          · have : T.bridges.get? idx = T.bridges.get? (T.bridges.length - 1) := by
              rw [show T.bridges.length - 1 = idx from by omega]
            rw [this, hgetlast] at hb
            injection hb with hb2
            rw [hb2]
          · exact pairwise_get?_rel hpw (show idx < T.bridges.length - 1 from by
              omega) hb hgetlast
        have hvleaf : v = nodeHash hf leaves 0 b.frontier.position := by
          have hsl := hI.savedLeaf (v, idx) (mem_of_alistLookup hlook)
          rw [hb, Option.map_some'] at hsl
          injection hsl with hsl2
          have hsl3 : b.leafValue = v := hsl2
          have hlv2 : b.leafValue = ((leaves.take (b.frontier.position + 1)).get?
              b.frontier.position).getD hf.emptyLeaf := by
            show b.frontier.leafValue = _
            conv_lhs => rw [hbsem2]
            rw [frontierFor_leafValue]
          rw [List.get?_take (Nat.lt_succ_self _)] at hlv2
          show v = (leaves.get? b.frontier.position).getD hf.emptyLeaf
          rw [← hsl3, hlv2]
        -- the successor bridge and its fragment for the anchor
        obtain ⟨B0, hB0⟩ : ∃ B0, T.bridges.get? (idx + 1) = some B0 := by
          cases hg0 : T.bridges.get? (idx + 1) with
          | none =>
            rw [List.get?_eq_none] at hg0
            omega
          | some x => exact ⟨x, rfl⟩
        obtain ⟨F0, hF0⟩ := Option.isSome_iff_exists.mp (hS.succKey idx B0 hB0)
        obtain ⟨A0, hA0, hA0pos⟩ := hS.anchor (idx + 1) B0 hB0 (idx, F0)
          (mem_of_alistLookup hF0)
        have hA0b : A0 = b := by
          rw [hb] at hA0
          injection hA0 with h2
          exact h2.symm
        have hF0pos : F0.position = b.frontier.position := by
          have := hA0pos
          rw [hA0b] at this
          exact this
        have hF0full : F0.values.length = F0.altitudesObserved :=
          hS.origin (idx + 1) B0 hB0 (idx, F0) (mem_of_alistLookup hF0) rfl
        obtain ⟨hB0s1, hB0s2, hB0s3⟩ := hS.bOk B0 (mem_of_get? hB0)
        have hF0sched : fragSched hf leaves B0.frontier.position F0 :=
          hB0s3 (idx, F0) (mem_of_alistLookup hF0)
        -- the suffix of bridges to fuse
        have hdropc : T.bridges.drop (idx + 1)
            = B0 :: T.bridges.drop (idx + 2) := by
          rw [List.drop_eq_getElem_cons hidx2]
          congr 1
          have hB0q : T.bridges[idx + 1]? = some B0 := by
            rw [← List.get?_eq_getElem?]
            exact hB0
          have hB0e := List.getElem?_eq_getElem
            (show idx + 1 < T.bridges.length from hidx2)
          rw [hB0q] at hB0e
          injection hB0e with hB0i
          exact hB0i.symm
        have hchd : List.Chain' chainRel (T.bridges.drop (idx + 1)) :=
          hI.chain.suffix (List.drop_suffix _ _)
        have hcod : List.Chain' fragCoherent (T.bridges.drop (idx + 1)) :=
          hI.coherent.suffix (List.drop_suffix _ _)
        have hkmd : List.Chain' fragKeysMono (T.bridges.drop (idx + 1)) :=
          hI.keysMono.suffix (List.drop_suffix _ _)
        rw [hdropc] at hchd hcod hkmd
        obtain ⟨acc2, F2, hfold, hm2, hF2look, hF2pos, hF2full, hF2sched⟩ :=
          foldFuse_track hf leaves idx b.frontier.position
            (T.bridges.drop (idx + 2)) B0 B0 F0
            (accMatches_refl B0 ((hI.good B0 (mem_of_get? hB0)).2.2))
            hchd hcod hkmd
            (fun X hX => hS.bOk X ((List.drop_subset _ _) hX))
            hF0 hF0pos hF0full hF0sched
        have hfused2 : fused = acc2 := by
          have hfold2 : (match B0 :: T.bridges.drop (idx + 2) with
              | [] => none
              | first :: rest =>
                rest.foldl (fun a b2 => a.bind (fun x => x.fuse b2)) (some first))
              = some acc2 := hfold
          rw [← hdropc] at hfold2
          have hfa : MerkleBridge.fuseAll (T.bridges.drop (idx + 1)) = some acc2 :=
            hfold2
          rw [hfuse] at hfa
          injection hfa
        -- the last source bridge of the fold is the last bridge of the tree
        have hgld : (T.bridges.drop (idx + 2)).getLastD B0 = lastB := by
          have hx : (T.bridges.drop (idx + 1)).getLast? = some lastB := by
            rw [getLast?_drop_eq _ _ (by omega)]
            exact hlast
          rw [hdropc, List.getLast?_cons] at hx
          injection hx with h2
          rw [List.getLastD_eq_getLast?]
          exact h2
        rw [hgld] at hm2 hF2sched
        obtain ⟨hm2a, hm2b⟩ := hm2
        have hfrlast : lastB.frontier
            = frontierFor hf leaves lastB.frontier.position := by
          obtain ⟨hl1, hl2, _⟩ := hS.bOk lastB (mem_of_get? hgetlast)
          rw [List.take_of_length_le (by omega)] at hl2
          exact hl2
        have hfusedfr : acc2.frontier
            = frontierFor hf leaves lastB.frontier.position := by
          rw [hm2a]
          exact hfrlast
        obtain ⟨m2, hAV, hbeyond⟩ := authValues_spec hf leaves F2 hlenl hN64
          hF2pos hF2full hF2sched hpbN
        rw [hfused2, hF2look] at hpath
        injection hpath with hpair
        rw [Prod.mk.injEq] at hpair
        obtain ⟨hppos, hpatheq⟩ := hpair
        dsimp only at hpatheq
        rw [hfusedfr, hAV] at hpatheq
        nth_rewrite 1 [hbsem2] at hpatheq
        have hpb64 : b.frontier.position < 2 ^ 64 := by omega
        have hpblen : b.frontier.position < leaves.length := by omega
        have hbuild := buildAuthPath_spec hf leaves
          (((allAltitudesRequired b.frontier.position).take m2).map
            (fun r => nodeHash hf leaves r (b.frontier.position / 2 ^ r + 1)))
          hpb64 hpblen hD rfl hbeyond
        rw [hbuild] at hpatheq
        -- compute the fold
        rw [← hppos, ← hpatheq, hvleaf]
        have hdiv0 : b.frontier.position / 2 ^ 0 = b.frontier.position := by
          rw [Nat.pow_zero, Nat.div_one]
        have hfold2 := foldPath_spec hf leaves hpblen
          (max DEPTH (maxAltitude b.frontier.position + 1)) 0
        rw [hdiv0, Nat.zero_add] at hfold2
        rw [← List.range_eq_range'] at hfold2
        rw [hfold2]
        -- compute the root
        show nodeHash hf leaves (max DEPTH (maxAltitude b.frontier.position + 1))
            (b.frontier.position
              / 2 ^ (max DEPTH (maxAltitude b.frontier.position + 1)))
          = T.root hf DEPTH
        have hLdiv : b.frontier.position
            / 2 ^ (max DEPTH (maxAltitude b.frontier.position + 1)) = 0 := by
          refine Nat.div_eq_of_lt ?_
          have h1 := lt_two_pow_maxAltitude hpb64
          have h2 : (2:Nat) ^ (maxAltitude b.frontier.position + 1)
              ≤ 2 ^ (max DEPTH (maxAltitude b.frontier.position + 1)) :=
            Nat.pow_le_pow_right (by omega) (Nat.le_max_right _ _)
          omega
        rw [hLdiv]
        have hroot : T.root hf DEPTH
            = nodeHash hf leaves
                (max DEPTH (maxAltitude lastB.frontier.position + 1)) 0 := by
          unfold BridgeTree.root
          rw [hlast]
          show NonEmptyFrontier.foldUp hf (lastB.frontier.root hf)
            (lastB.frontier.maxAlt + 1) DEPTH = _
          rw [hfrlast]
          exact root_eq_nodeHash hf leaves lastB.frontier.position DEPTH hlenl hN64
        rw [hroot]
        -- the two level caps agree
        rcases Nat.eq_zero_or_pos DEPTH with hD0 | hD1
        · have hN0 : lastB.frontier.position = 0 := by
            rw [hD0] at hN2D
            omega
          have hpb0 : b.frontier.position = 0 := by omega
          rw [hN0, hpb0]
        · rw [Nat.max_eq_left (maxAltitude_succ_le hpb64 (by omega) hD1),
            Nat.max_eq_left (maxAltitude_succ_le hN64 hN2D hD1)]

/-- Concrete instance of the C1 round trip: on the depth-4 tree holding one
witnessed leaf `1`, `authentication_path` returns position `0` with path
`[0, 1, 2, 3]` (the empty roots), and folding the leaf up that path yields
the root. -/
theorem c1_root_path_round_trip_witness :
    exTree1.authenticationPath hfNat 4 1 = some (0, [0, 1, 2, 3]) ∧
    foldPath hfNat 0 0 1 [0, 1, 2, 3] = exTree1.root hfNat 4 :=
  ⟨by decide,
   c1_root_path_round_trip hfNat 4 exTree1
     (Reach.witness _ (Reach.append _ 1 (Reach.new 10))) (by decide) 1 0
     [0, 1, 2, 3] (by decide)⟩

end C1Semantics

end Bridgetree
